import Mathlib

/-!
# HTY column store: a shallow embedding of `analyze.cpp` and `csv_to_hty.cpp`

The file models the storage engine of the HTY format (`src/analyze.cpp`):
the trailer codec (`extract_metadata`), the readers (`project_single_column`,
`project`, `filter`, `project_and_filter`) and the copy-rewrite append
(`add_row`); the converter that creates a file from CSV text
(`src/csv_to_hty.cpp`, `convert_from_csv_to_hty`); and the stricter `project`
of `src/temp1.cpp` (`temp1.project`).

Modelling conventions.

* A file is its list of bytes; the file system maps a path to the bytes stored
  there (`none`: the path cannot be opened for reading).
* A C++ `int` is an `Int` reduced to 32 bits with `toInt32`, an `int64_t` an `Int`
  reduced with `toInt64`; integers are stored little-endian, four bytes each.
* A `std::ifstream` is a record of the bytes, the read position and the
  failure flag (`failbit`/`badbit`); `eofbit` is only ever set together with
  `failbit` by the calls the program makes, so it is not tracked separately.
* A C++ exception is an `Except.error`.
* A local variable declared without a value holds an arbitrary value until it
  is written: that value is a parameter of the function (`unwritten` in
  `extract_metadata`), and the theorems hold for every value of it.
* The JSON library (`nlohmann/json.hpp`) is third-party code; its `dump` and
  `parse` are parameters (`JsonLib`).  A metadata document is modelled by the
  typed record `Metadata` of the keys the program reads.
* Positions inside a file are computed in `Int`: a file is shorter than `2^63`
  bytes, so `size - 4` evaluated in `unsigned long` and converted to the signed
  `streamoff` is the mathematical difference (negative when `size < 4`).
* The type `float` is IEEE-754 binary32 with round to nearest, ties to even
  (`Float32`); a finite value is an integer number of units of `2^-149`.  The
  functions are written against the operations they use (`FloatOps`), of which
  `ieee` is the binary32 instance.
* `std::stoi` and `std::stof` are parameters of the converter (`StdLib`); the
  text of a CSV file is a `String`.
-/

namespace HTY

/-! ## Bytes and machine integers -/

/-- One byte of a file. -/
abbrev Byte := Fin 256

/-- The byte holding the low eight bits of `n`. -/
def byteOf (n : Nat) : Byte := ⟨n % 256, Nat.mod_lt n (by decide)⟩

/-- Conversion to `int`: reduction modulo `2^32` into `[-2^31, 2^31)`. -/
def toInt32 (x : Int) : Int :=
  let r := x % 4294967296
  if r < 2147483648 then r else r - 4294967296

/-- Conversion to `int64_t`: reduction modulo `2^64` into `[-2^63, 2^63)`. -/
def toInt64 (x : Int) : Int :=
  let r := x % 18446744073709551616
  if r < 9223372036854775808 then r else r - 18446744073709551616

/-- Conversion to `size_t`: reduction modulo `2^64` into `[0, 2^64)`. -/
def toSizeT (x : Int) : Int := x % 18446744073709551616

/-- The four bytes `write(reinterpret_cast<const char*>(&value), sizeof(int))`
appends for an `int` value (little-endian two's complement). -/
def int_bytes (value : Int) : List Byte :=
  let u := (value % 4294967296).toNat
  [byteOf u, byteOf (u / 256), byteOf (u / 65536), byteOf (u / 16777216)]

/-- The `int` held in four consecutive bytes of memory. -/
def int_of_bytes (b0 b1 b2 b3 : Byte) : Int :=
  toInt32 (b0.val + 256 * b1.val + 65536 * b2.val + 16777216 * b3.val : Nat)

/-- The contents of a `std::vector<int>` whose storage holds the given bytes. -/
def cells_of_bytes : List Byte → List Int
  | b0 :: b1 :: b2 :: b3 :: rest => int_of_bytes b0 b1 b2 b3 :: cells_of_bytes rest
  | _ => []

/-- The bytes written for a sequence of `int` cells. -/
def bytes_of_cells (cells : List Int) : List Byte :=
  (cells.map int_bytes).flatten

/-! ## Errors -/

deriving instance DecidableEq for Except

/-- The exceptions the program can leave a function with, and the access past
the end of a vector it can reach. -/
inductive Error where
  /-- `std::runtime_error("Unable to open file")`. -/
  | unable_to_open_file
  /-- `std::runtime_error("Unable to open output file")`. -/
  | unable_to_open_output_file
  /-- `std::runtime_error("Column not found")`. -/
  | column_not_found
  /-- `std::runtime_error("Columns not found in the same group")`. -/
  | columns_not_in_same_group
  /-- `std::runtime_error("Failed to seek to offset " + offset)`. -/
  | failed_to_seek (offset : Int)
  /-- `std::runtime_error("Failed to read data for column " + name)`. -/
  | failed_to_read (column : String)
  /-- `std::runtime_error("Invalid operation")`. -/
  | invalid_operation
  /-- `std::length_error`: a vector or string created with a negative size. -/
  | length_error
  /-- `json::parse_error`. -/
  | parse_error
  /-- `operator[]` past the end of a vector (undefined behaviour). -/
  | index_out_of_bounds
  /-- `std::invalid_argument`: `std::stoi` or `std::stof` found no number. -/
  | invalid_argument
  /-- `std::out_of_range`: `std::stoi` or `std::stof` found a number outside the type. -/
  | out_of_range
  /-- `std::runtime_error("Column not found in the same group")` (temp1.cpp). -/
  | column_not_found_in_same_group
  deriving DecidableEq, Repr

/-! ## Input streams -/

/-- A `std::ifstream` opened on a file. -/
structure IStream where
  /-- The bytes of the file. -/
  data : List Byte
  /-- The get position. -/
  pos : Nat
  /-- The stream is in a failed state (`!file` is true). -/
  failed : Bool
  deriving DecidableEq, Repr

/-- A stream opened at the beginning of the file (`std::ios::binary`). -/
def IStream.open_ (data : List Byte) : IStream := ⟨data, 0, false⟩

/-- A stream opened at the end of the file (`std::ios::binary | std::ios::ate`). -/
def IStream.open_ate (data : List Byte) : IStream := ⟨data, data.length, false⟩

/-- The call `file.seekg(offset, std::ios::beg)`: nothing happens on a failed
stream; a negative offset fails; any other offset is accepted, also past the
end of the file. -/
def IStream.seekg (s : IStream) (offset : Int) : IStream :=
  if s.failed then s
  else if offset < 0 then { s with failed := true }
  else { s with pos := offset.toNat }

/-- The call `file.read(buf, n)` on a buffer holding `buf`: a failed stream
reads nothing; otherwise the bytes available (at most `n`) overwrite the start
of the buffer, and the stream fails when fewer than `n` were available. -/
def IStream.read (s : IStream) (buf : List Byte) (n : Nat) : List Byte × IStream :=
  if s.failed then (buf, s)
  else
    let got := (s.data.drop s.pos).take n
    (got ++ buf.drop got.length,
      { s with pos := s.pos + got.length, failed := decide (got.length < n) })

/-! ## Metadata documents -/

/-- One entry of a group's `columns` array. -/
structure ColumnMeta where
  column_name : String
  column_type : String
  deriving DecidableEq, Repr

/-- One entry of the `groups` array. -/
structure Group where
  /-- The number stored under `offset`. -/
  offset : Int
  columns : List ColumnMeta
  deriving DecidableEq, Repr

/-- The metadata document. -/
structure Metadata where
  /-- The number stored under `num_rows`. -/
  num_rows : Int
  groups : List Group
  deriving DecidableEq, Repr

/-- The two entry points of the JSON library the program uses:
`metadata.dump()` and `json::parse(text)`. -/
structure JsonLib where
  dump : Metadata → List Byte
  parse : List Byte → Option Metadata

/-- A file system: the bytes stored at each path that can be opened for
reading, and the paths on which an output stream can be opened. -/
structure FileSystem where
  files : String → Option (List Byte)
  writable : String → Bool

/-- The file system after `path` has been created or replaced with `bytes`. -/
def FileSystem.store (fs : FileSystem) (path : String) (bytes : List Byte) : FileSystem :=
  { fs with files := fun p => if p = path then some bytes else fs.files p }

/-! ## The trailer -/

/-- The bytes both writers append after the data region: the serialised
document, then `static_cast<int>(metadata_str.size())` as four bytes
(`add_row`, lines 423-429; `convert_from_csv_to_hty`, lines 127-133). -/
def write_trailer (json : JsonLib) (metadata : Metadata) : List Byte :=
  let metadata_str := json.dump metadata
  let metadata_size := toInt32 metadata_str.length
  metadata_str ++ int_bytes metadata_size

/-- The function `extract_metadata` (analyze.cpp, lines 17-44). The local
`int metadata_size;` is declared without a value: `unwritten` is what its four
bytes hold before the read of line 30, and a read on a failed stream leaves
them as they are. -/
def extract_metadata (json : JsonLib) (fs : FileSystem) (hty_file_path : String)
    (unwritten : Int) : Except Error Metadata :=
  match fs.files hty_file_path with
  | none => .error .unable_to_open_file
  | some data =>
    let file := IStream.open_ate data
    let size : Int := file.pos
    let file := file.seekg (size - 4)
    let (buf, file) := file.read (int_bytes unwritten) 4
    -- the `int` held in the four bytes of `metadata_size` after the read
    let metadata_size :=
      int_of_bytes (buf.getD 0 0) (buf.getD 1 0) (buf.getD 2 0) (buf.getD 3 0)
    let file := file.seekg (size - metadata_size - 4)
    if metadata_size < 0 then .error .length_error
    else
      let metadata_str := List.replicate metadata_size.toNat (0 : Byte)
      let (metadata_str, _) := file.read metadata_str metadata_size.toNat
      match json.parse metadata_str with
      | none => .error .parse_error
      | some metadata => .ok metadata

/-! ## Column layout -/

/-- The inner loop `for (size_t i = 0; i < group["columns"].size(); ++i)`:
the index of the first column of the group whose name is `name`. -/
def column_index (columns : List ColumnMeta) (name : String) : Option Nat :=
  match columns with
  | [] => none
  | c :: rest =>
    if c.column_name = name then some 0
    else (column_index rest name).map (· + 1)

/-- The offset computation of `project_single_column` (lines 69-71) and of
`project` (lines 227-234): every step is carried out in the 64-bit type the
program uses (overflow of a signed operation is taken to wrap). -/
def byte_offset (group_offset : Int) (i : Nat) (num_rows : Int) : Int :=
  let base_offset := toInt64 group_offset
  let column_offset := toInt64 (toSizeT (toInt64 (toInt64 i * toInt64 num_rows)) * 4)
  toInt64 (base_offset + column_offset)

/-- A `std::vector<int>` of `num_rows` zeros, as bytes. -/
def zero_buffer (num_rows : Nat) : List Byte := List.replicate (4 * num_rows) 0

/-! ## Single-column projection -/

/-- The group loop of `project_single_column` (lines 62-81). -/
def project_single_column_scan (file : IStream) (num_rows : Int) (projected_column : String) :
    List Group → Except Error (List Int)
  | [] => .error .column_not_found
  | group :: rest =>
    match column_index group.columns projected_column with
    | some i =>
      let offset := byte_offset group.offset i num_rows
      let file := file.seekg offset
      -- `result.resize(num_rows)`
      if num_rows < 0 then .error .length_error
      else
        let (result, _) := file.read (zero_buffer num_rows.toNat) (4 * num_rows.toNat)
        .ok (cells_of_bytes result)
    | none => project_single_column_scan file num_rows projected_column rest

/-- The function `project_single_column` (analyze.cpp, lines 49-82). -/
def project_single_column (fs : FileSystem) (metadata : Metadata) (hty_file_path : String)
    (projected_column : String) : Except Error (List Int) :=
  match fs.files hty_file_path with
  | none => .error .unable_to_open_file
  | some data =>
    let file := IStream.open_ data
    let num_rows := toInt32 metadata.num_rows
    project_single_column_scan file num_rows projected_column metadata.groups

/-! ## Multi-column projection -/

/-- The loop of lines 206-222: the indices found in `group` for the requested
names, in the order of the names; a name the group lacks adds nothing. -/
def column_indices (group : Group) (projected_columns : List String) : List Nat :=
  projected_columns.filterMap (column_index group.columns)

/-- The read loop of `project` (lines 228-249) over the remaining
(index, requested name) pairs. -/
def project_read (file : IStream) (group_offset : Int) (num_rows : Int) :
    List (Nat × String) → Except Error (List (List Int))
  | [] => .ok []
  | (idx, name) :: rest =>
    let offset := byte_offset group_offset idx num_rows
    let file := file.seekg offset
    if file.failed then .error (.failed_to_seek offset)
    else
      let (result_i, file) := file.read (zero_buffer num_rows.toNat) (4 * num_rows.toNat)
      if file.failed then .error (.failed_to_read name)
      else
        match project_read file group_offset num_rows rest with
        | .error e => .error e
        | .ok result => .ok (cells_of_bytes result_i :: result)

/-- The group loop of `project` (lines 202-257). -/
def project_groups (file : IStream) (num_rows : Int) (projected_columns : List String) :
    List Group → Except Error (List (List Int))
  | [] => .error .columns_not_in_same_group
  | group :: rest =>
    let indices := column_indices group projected_columns
    if indices.length = projected_columns.length then
      project_read file group.offset num_rows (indices.zip projected_columns)
    else project_groups file num_rows projected_columns rest

/-- The function `project` (analyze.cpp, lines 189-258). -/
def project (fs : FileSystem) (metadata : Metadata) (hty_file_path : String)
    (projected_columns : List String) : Except Error (List (List Int)) :=
  match fs.files hty_file_path with
  | none => .error .unable_to_open_file
  | some data =>
    let file := IStream.open_ data
    let num_rows := toInt32 metadata.num_rows
    -- `std::vector<int>(num_rows)`
    if num_rows < 0 then .error .length_error
    else project_groups file num_rows projected_columns metadata.groups

/-! ## Multi-column projection, the variant of temp1.cpp -/

/-- The loop of temp1.cpp, lines 137-150: the indices found in `group` for the
requested names, or the exception thrown at the first name the group lacks. -/
def temp1.column_indices (group : Group) : List String → Except Error (List Nat)
  | [] => .ok []
  | projected_column :: rest =>
    match column_index group.columns projected_column with
    | none => .error .column_not_found_in_same_group
    | some i =>
      match temp1.column_indices group rest with
      | .error e => .error e
      | .ok indices => .ok (i :: indices)

/-- The read loop of temp1.cpp, lines 152-159: the stream is never tested. -/
def temp1.project_read (file : IStream) (group_offset : Int) (num_rows : Int) :
    List Nat → List (List Int)
  | [] => []
  | idx :: rest =>
    let offset := byte_offset group_offset idx num_rows
    let file := file.seekg offset
    let (result_i, file) := file.read (zero_buffer num_rows.toNat) (4 * num_rows.toNat)
    cells_of_bytes result_i :: temp1.project_read file group_offset num_rows rest

/-- The function `project` of temp1.cpp (lines 126-164): the loop over the
groups returns or throws in its first iteration. -/
def temp1.project (fs : FileSystem) (metadata : Metadata) (hty_file_path : String)
    (projected_columns : List String) : Except Error (List (List Int)) :=
  match fs.files hty_file_path with
  | none => .error .unable_to_open_file
  | some data =>
    let file := IStream.open_ data
    let num_rows := toInt32 metadata.num_rows
    -- `std::vector<int>(num_rows)`
    if num_rows < 0 then .error .length_error
    else
      match metadata.groups with
      | [] => .error .columns_not_in_same_group
      | group :: _ =>
        match temp1.column_indices group projected_columns with
        | .error e => .error e
        | .ok column_indices =>
          .ok (temp1.project_read file group.offset num_rows column_indices)

/-! ## Filtering -/

/-- The `float` operations `filter` uses; the binary32 instance is `ieee`. -/
structure FloatOps where
  /-- The type `float`. -/
  F : Type
  /-- `std::memcpy(&a_float, &a, sizeof(float))`. -/
  of_bits : Int → F
  /-- `static_cast<float>(a)`. -/
  of_int : Int → F
  /-- `x > y`. -/
  gt : F → F → Bool
  /-- `x >= y`. -/
  ge : F → F → Bool
  /-- `x < y`. -/
  lt : F → F → Bool
  /-- `x <= y`. -/
  le : F → F → Bool
  /-- `std::abs(x - y) < 1e-6`. -/
  near : F → F → Bool
  /-- `std::abs(x - y) >= 1e-6`. -/
  far : F → F → Bool

/-- The loops of lines 133-145: the declared type of the first column with the
given name whose type is not the empty string. -/
def find_column_type (name : String) : List Group → String
  | [] => ""
  | group :: rest =>
    let column_type :=
      match group.columns.find? (fun c => decide (c.column_name = name)) with
      | some c => c.column_type
      | none => ""
    if column_type ≠ "" then column_type else find_column_type name rest

/-- The lambda `compare` (lines 149-170). -/
def compare (fl : FloatOps) (operation : Int) (column_type : String) (a : Int) (b : fl.F) :
    Except Error Bool :=
  let a_float := if column_type = "float" then fl.of_bits a else fl.of_int a
  match operation with
  | 0 => .ok (fl.gt a_float b)
  | 1 => .ok (fl.ge a_float b)
  | 2 => .ok (fl.lt a_float b)
  | 3 => .ok (fl.le a_float b)
  | 4 => .ok (fl.near a_float b)
  | 5 => .ok (fl.far a_float b)
  | _ => .error .invalid_operation

/-- The loop of lines 173-179, from row `i` on. -/
def filter_loop (cmp : Int → Except Error Bool) : List Int → Nat → Except Error (List Int)
  | [], _ => .ok []
  | a :: rest, i =>
    match cmp a with
    | .error e => .error e
    | .ok keep =>
      match filter_loop cmp rest (i + 1) with
      | .error e => .error e
      | .ok result => .ok (if keep then toInt32 i :: result else result)

/-- The function `filter` (analyze.cpp, lines 125-184). -/
def filter (fl : FloatOps) (fs : FileSystem) (metadata : Metadata) (hty_file_path : String)
    (filtered_column : String) (operation : Int) (filtered_value : fl.F) :
    Except Error (List Int) :=
  match project_single_column fs metadata hty_file_path filtered_column with
  | .error e => .error e
  | .ok column_data =>
    let column_type := find_column_type filtered_column metadata.groups
    filter_loop (fun a => compare fl operation column_type a filtered_value) column_data 0

/-- The inner loop of `project_and_filter` (lines 288-297) for one projected
column: the cells at the filtered indices; an index not below
`all_data[0].size()` (compared as `size_t`) is skipped. -/
def gather (first_size : Nat) (column : List Int) : List Int → Except Error (List Int)
  | [] => .ok []
  | index :: rest =>
    if toSizeT index ≥ first_size then gather first_size column rest
    else
      match column[index.toNat]? with
      | none => .error .index_out_of_bounds
      | some value =>
        match gather first_size column rest with
        | .error e => .error e
        | .ok row => .ok (value :: row)

/-- The outer loop of `project_and_filter` (lines 285-299). -/
def gather_all (first_size : Nat) (filtered_indices : List Int) :
    List (List Int) → Except Error (List (List Int))
  | [] => .ok []
  | column :: rest =>
    match gather first_size column filtered_indices with
    | .error e => .error e
    | .ok row =>
      match gather_all first_size filtered_indices rest with
      | .error e => .error e
      | .ok result => .ok (row :: result)

/-- The function `project_and_filter` (analyze.cpp, lines 263-303). -/
def project_and_filter (fl : FloatOps) (fs : FileSystem) (metadata : Metadata)
    (hty_file_path : String) (projected_columns : List String) (filtered_column : String)
    (op : Int) (value : fl.F) : Except Error (List (List Int)) :=
  match project fs metadata hty_file_path projected_columns with
  | .error e => .error e
  | .ok all_data =>
    match filter fl fs metadata hty_file_path filtered_column op value with
    | .error e => .error e
    | .ok filtered_indices =>
      gather_all (all_data.headD []).length filtered_indices all_data

/-! ## Appending rows -/

/-- The columns of all groups, in group-then-column order. -/
def all_columns (metadata : Metadata) : List ColumnMeta :=
  (metadata.groups.map (·.columns)).flatten

/-- The loop of lines 390-396 over the remaining columns. -/
def read_existing (fs : FileSystem) (metadata : Metadata) (hty_file_path : String) :
    List ColumnMeta → Except Error (List (List Int))
  | [] => .ok []
  | column :: rest =>
    match project_single_column fs metadata hty_file_path column.column_name with
    | .error e => .error e
    | .ok data =>
      match read_existing fs metadata hty_file_path rest with
      | .error e => .error e
      | .ok existing_data => .ok (data :: existing_data)

/-- The loop of lines 417-420: the cell `row[i]` of every new row. -/
def new_cells (i : Nat) : List (List Int) → Except Error (List Int)
  | [] => .ok []
  | row :: rest =>
    match row[i]? with
    | none => .error .index_out_of_bounds
    | some value =>
      match new_cells i rest with
      | .error e => .error e
      | .ok cells => .ok (value :: cells)

/-- The loop of lines 409-421, from column `i` on: the bytes written for the
data region. -/
def write_columns (rows : List (List Int)) : List (List Int) → Nat → Except Error (List Byte)
  | [], _ => .ok []
  | existing :: rest, i =>
    match new_cells i rows with
    | .error e => .error e
    | .ok cells =>
      match write_columns rows rest (i + 1) with
      | .error e => .error e
      | .ok bytes => .ok (bytes_of_cells existing ++ bytes_of_cells cells ++ bytes)

/-- The statement `metadata["num_rows"] = metadata["num_rows"].get<int>() + rows.size();`
(line 399): the sum is formed in `size_t`. -/
def updated_metadata (metadata : Metadata) (rows : List (List Int)) : Metadata :=
  { metadata with
    num_rows := toSizeT (toSizeT (toInt32 metadata.num_rows) + toSizeT rows.length) }

/-- The function `add_row` (analyze.cpp, lines 386-432): the file system after
the call, or the exception it throws. -/
def add_row (json : JsonLib) (fs : FileSystem) (metadata : Metadata) (hty_file_path : String)
    (modified_hty_file_path : String) (rows : List (List Int)) : Except Error FileSystem :=
  match read_existing fs metadata hty_file_path (all_columns metadata) with
  | .error e => .error e
  | .ok existing_data =>
    let metadata := updated_metadata metadata rows
    if fs.writable modified_hty_file_path then
      match write_columns rows existing_data 0 with
      | .error e => .error e
      | .ok data => .ok (fs.store modified_hty_file_path (data ++ write_trailer json metadata))
    else .error .unable_to_open_output_file

/-! ## The converter (csv_to_hty.cpp)

The text of a CSV file is a `String`: the file is taken to be UTF-8 text, and
the bytes of a value are the bytes of its UTF-8 encoding. -/

/-- The struct `Column`. -/
structure Column where
  name : String
  type : String
  data : List Int
  deriving DecidableEq, Repr

/-- The two conversions of the standard library the converter calls. -/
structure StdLib where
  /-- `std::stoi(value)`: the `int`, or the exception thrown. -/
  stoi : String → Except Error Int
  /-- `std::stof(value)` followed by the `memcpy` into an `int`: the bit
  pattern of the `float`, or the exception thrown. -/
  stof : String → Except Error Int

/-- The strings successive calls of `std::getline(stream, s, delim)` return on
a stream holding the given characters, until a call fails. The second argument
is the string being extracted (`none` when no character has been extracted
since the last delimiter): at the end of the stream a call that extracted
characters succeeds, a call that extracted none fails. -/
def getlines (delim : Char) : List Char → Option (List Char) → List String
  | [], none => []
  | [], some current => [String.mk current.reverse]
  | c :: rest, current =>
    if c = delim then String.mk (current.getD []).reverse :: getlines delim rest none
    else getlines delim rest (some (c :: current.getD []))

/-- The type chosen for a column from a value (lines 61-66). -/
def infer_type (value : String) : String :=
  if value.data.contains '.' then "float"
  else if value.data.all (fun c => "0123456789-".data.contains c) then "int"
  else "string"

/-- The bytes of the UTF-8 encoding of a character. -/
def utf8_bytes (c : Char) : List Nat :=
  let n := c.toNat
  if n < 128 then [n]
  else if n < 2048 then [192 + n / 64, 128 + n % 64]
  else if n < 65536 then [224 + n / 4096, 128 + n / 64 % 64, 128 + n % 64]
  else [240 + n / 262144, 128 + n / 4096 % 64, 128 + n / 64 % 64, 128 + n % 64]

/-- The loop of lines 84-85: `static_cast<int>(c)` for each `char` of the
value (`char` is signed). -/
def char_cells (value : String) : List Int :=
  (value.data.map utf8_bytes).flatten.map
    (fun (b : Nat) => if b < 128 then (b : Int) else (b : Int) - 256)

/-- The cells pushed for a value in a column of the given type (lines 70-87). -/
def value_cells (lib : StdLib) (type value : String) : Except Error (List Int) :=
  if type = "float" then
    match lib.stof value with
    | .error e => .error e
    | .ok int_representation => .ok [int_representation]
  else if type = "int" then
    match lib.stoi value with
    | .error e => .error e
    | .ok v => .ok [v]
  else .ok (char_cells value ++ [0])

/-- The body of the inner loop (lines 58-87) on the column it indexes. -/
def store_value (lib : StdLib) (column : Column) (value : String) : Except Error Column :=
  let type := if column.type = "" then infer_type value else column.type
  match value_cells lib type value with
  | .error e => .error e
  | .ok cells => .ok { column with type := type, data := column.data ++ cells }

/-- The inner loop (lines 56-89) on the fields of one line, from `col_index`
on. -/
def read_fields (lib : StdLib) : List Column → List String → Nat → Except Error (List Column)
  | columns, [], _ => .ok columns
  | columns, value :: rest, col_index =>
    match columns[col_index]? with
    | none => .error .index_out_of_bounds
    | some column =>
      match store_value lib column value with
      | .error e => .error e
      | .ok column' => read_fields lib (columns.set col_index column') rest (col_index + 1)

/-- The outer loop (lines 51-91) on the data lines. -/
def read_rows (lib : StdLib) : List Column → List String → Except Error (List Column)
  | columns, [] => .ok columns
  | columns, line :: rest =>
    match read_fields lib columns (getlines ',' line.data none) 0 with
    | .error e => .error e
    | .ok columns' => read_rows lib columns' rest

/-- The columns created from the header (lines 40-48), given the lines of the
file. -/
def read_header : List String → List Column
  | [] => []
  | line :: _ => (getlines ',' line.data none).map (fun column_name => ⟨column_name, "", []⟩)

/-- The function `convert_from_csv_to_hty` (csv_to_hty.cpp, lines 25-138):
`csv_files` gives the text of each CSV file that can be opened. The counter
`num_rows` is an `int`; the keys `num_groups` and `num_columns` of the document
are not part of `Metadata`, and the value `null` the key `columns` has when
there is no column is the empty list. When either file cannot be opened the
function prints a message and returns. -/
def convert_from_csv_to_hty (json : JsonLib) (lib : StdLib) (csv_files : String → Option String)
    (fs : FileSystem) (csv_file_path hty_file_path : String) : Except Error FileSystem :=
  match csv_files csv_file_path with
  | none => .ok fs
  | some text =>
    let lines := getlines '\n' text.data none
    match read_rows lib (read_header lines) (lines.drop 1) with
    | .error e => .error e
    | .ok columns =>
      let num_rows := toInt32 (lines.drop 1).length
      let metadata : Metadata :=
        ⟨num_rows, [⟨0, columns.map (fun col => ⟨col.name, col.type⟩)⟩]⟩
      if fs.writable hty_file_path then
        .ok (fs.store hty_file_path
          ((columns.map (fun col => bytes_of_cells col.data)).flatten
            ++ write_trailer json metadata))
      else .ok fs

/-- The values the row loop meets for column `j`, in order: field `j` of each
line that has one. -/
def observed (lines : List String) (j : Nat) : List String :=
  lines.filterMap (fun line => (getlines ',' line.data none)[j]?)

/-- The digit a character stands for, if it is one of `0` to `9`. -/
def digit_value (c : Char) : Option Nat :=
  let i := "0123456789".data.indexOf c
  if i < 10 then some i else none

/-- The number a sequence of decimal digits denotes, continuing from `acc`. -/
def digits_value : List Char → Nat → Option Nat
  | [], acc => some acc
  | c :: rest, acc =>
    match digit_value c with
    | none => none
    | some d => digits_value rest (10 * acc + d)

/-- The integer a decimal literal denotes: an optional `-` followed by one or
more digits, read in base ten; `none` for any other text. -/
def int_literal (value : String) : Option Int :=
  match value.data with
  | [] => none
  | c :: rest =>
    if c = '-' then
      if rest = [] then none else (digits_value rest 0).map (fun n => -(n : Int))
    else (digits_value (c :: rest) 0).map (fun n => (n : Int))

/-! ## The type `float`

IEEE-754 binary32 arithmetic with the default rounding (to nearest, ties to
even), as the comparisons of `filter` use it.  Every finite binary32 number is
an integer multiple of `2^-149`, so a finite value is kept as that integer. -/

/-- The unit of the finite values: `2^149` units make 1. -/
def float_unit : Nat := 2 ^ 149

/-- A value of type `float`: the finite number `m * 2^-149`, an infinity, or a
NaN.  The sign of a zero is not kept (no operation below tells `-0.0` from
`0.0`). -/
inductive Float32 where
  | finite (m : Int)
  | infinity (negative : Bool)
  | nan
  deriving DecidableEq, Repr

/-- The number of halvings that bring `n` below `2^24`: the exponent, in units,
of the last place of the binary32 numbers around `n` units. -/
def exponent_shift : Nat → Nat → Nat
  | 0, _ => 0
  | fuel + 1, n => if n < 16777216 then 0 else exponent_shift fuel (n / 2) + 1

/-- Rounding of a magnitude of `n` units to the nearest number with a 24-bit
significand, ties to the even significand. -/
def round_magnitude (n : Nat) : Nat :=
  let j := exponent_shift n n
  let q := n / 2 ^ j
  let r := n % 2 ^ j
  let q' := if 2 ^ j < 2 * r ∨ (2 * r = 2 ^ j ∧ q % 2 = 1) then q + 1 else q
  q' * 2 ^ j

/-- Rounding of the exact result `m` units to `float`: a magnitude that rounds
to `2^128` or more overflows to an infinity. -/
def Float32.round (m : Int) : Float32 :=
  let n := round_magnitude m.natAbs
  if 2 ^ 128 * float_unit ≤ n then .infinity (decide (m < 0))
  else .finite (if m < 0 then -(n : Int) else (n : Int))

/-- The `float` whose object representation is that of the `int` `a`
(`std::memcpy(&a_float, &a, sizeof(float))`): sign bit, 8 exponent bits, 23
fraction bits. -/
def Float32.of_bits (a : Int) : Float32 :=
  let u := (a % 4294967296).toNat
  let negative := decide (2147483648 ≤ u)
  let e := u / 8388608 % 256
  let f := u % 8388608
  if e = 255 then (if f = 0 then .infinity negative else .nan)
  else
    let n : Nat := if e = 0 then f else (8388608 + f) * 2 ^ (e - 1)
    .finite (if negative then -(n : Int) else (n : Int))

/-- The conversion `static_cast<float>(a)` of an `int`. -/
def Float32.of_int (a : Int) : Float32 := Float32.round (a * (float_unit : Int))

/-- The difference `x - y` in `float`. -/
def Float32.sub : Float32 → Float32 → Float32
  | .finite x, .finite y => Float32.round (x - y)
  | .nan, _ => .nan
  | _, .nan => .nan
  | .infinity s, .finite _ => .infinity s
  | .finite _, .infinity s => .infinity (!s)
  | .infinity s, .infinity t => if s = t then .nan else .infinity s

/-- The absolute value `std::abs(x)` of a `float`. -/
def Float32.abs : Float32 → Float32
  | .finite m => .finite (m.natAbs : Int)
  | .infinity _ => .infinity false
  | .nan => .nan

/-- The comparison `x < y` of two `float`s. -/
def Float32.lt : Float32 → Float32 → Bool
  | .finite x, .finite y => decide (x < y)
  | .nan, _ => false
  | _, .nan => false
  | .infinity s, .finite _ => s
  | .finite _, .infinity s => !s
  | .infinity s, .infinity t => s && !t

/-- The comparison `x <= y` of two `float`s. -/
def Float32.le : Float32 → Float32 → Bool
  | .finite x, .finite y => decide (x ≤ y)
  | .nan, _ => false
  | _, .nan => false
  | .infinity s, .finite _ => s
  | .finite _, .infinity s => !s
  | .infinity s, .infinity t => s || !t

/-- The `double` constant `1e-6`, that is `4722366482869645 * 2^-72`, in units
of `2^-149`. -/
def double_epsilon : Int := ((4722366482869645 * 2 ^ 77 : Nat) : Int)

/-- The comparison `x < 1e-6` of a `float` (converted to `double`, exactly)
with the `double` constant. -/
def Float32.lt_epsilon : Float32 → Bool
  | .finite m => decide (m < double_epsilon)
  | .infinity s => s
  | .nan => false

/-- The comparison `x >= 1e-6` of a `float` with the `double` constant. -/
def Float32.ge_epsilon : Float32 → Bool
  | .finite m => decide (double_epsilon ≤ m)
  | .infinity s => !s
  | .nan => false

/-- The `float` operations of the program, in IEEE-754 binary32. -/
def ieee : FloatOps where
  F := Float32
  of_bits := Float32.of_bits
  of_int := Float32.of_int
  gt := fun x y => Float32.lt y x
  ge := fun x y => Float32.le y x
  lt := Float32.lt
  le := Float32.le
  near := fun x y => Float32.lt_epsilon (Float32.abs (Float32.sub x y))
  far := fun x y => Float32.ge_epsilon (Float32.abs (Float32.sub x y))

/-- The rational number a finite `float` stands for (0 for the others). -/
def Float32.toRat : Float32 → ℚ
  | .finite m => (m : ℚ) / (float_unit : ℚ)
  | _ => 0

/-! ## Reading the file directly -/

/-- The exact numeric value of a cell the specification compares: for a
column declared `float` the number its bit pattern encodes, otherwise the
stored integer. -/
def cell_value (column_type : String) (a : Int) : ℚ :=
  if column_type = "float" then (Float32.of_bits a).toRat else (a : ℚ)

/-- The 4-byte integer stored at byte offset `p` of a file, if the file holds
four bytes there. -/
def int_at (data : List Byte) (p : Nat) : Option Int :=
  match (data.drop p).take 4 with
  | [b0, b1, b2, b3] => some (int_of_bytes b0 b1 b2 b3)
  | _ => none

/-- The group contains a column of the given name. -/
def has_column (group : Group) (name : String) : Prop :=
  ∃ c ∈ group.columns, c.column_name = name

/-- The group contains every one of the given names. -/
def has_all_columns (group : Group) (names : List String) : Prop :=
  ∀ name ∈ names, has_column group name

/-- The file holds the `n` cells of a column that starts at `offset`: the
seek and the read of `4 * n` bytes both succeed. -/
def column_readable (data : List Byte) (offset : Int) (n : Nat) : Prop :=
  0 ≤ offset ∧ (n = 0 ∨ offset.toNat + 4 * n ≤ data.length)

/-- The cells of column `i` in a column-major region whose columns have `n`
rows and start at offset 0. -/
def column_cells (data : List Byte) (n i : Nat) : List Int :=
  cells_of_bytes ((data.drop (i * n * 4)).take (4 * n))

/-- The cells the new rows supply for column `i`. -/
def appended_cells (rows : List (List Int)) (i : Nat) : List Int :=
  rows.map (fun row => row.getD i 0)

/-! ## Sample data

A small file used to instantiate the theorems: three rows of the columns
`id` and `salary`, one group at offset 0. -/

/-- The group of the sample document. -/
def sample_group : Group := ⟨0, [⟨"id", "int"⟩, ⟨"salary", "float"⟩]⟩

/-- The sample document. -/
def sample_metadata : Metadata := ⟨3, [sample_group]⟩

/-- A document with two groups of one column each, two rows: column `a` at
offset 0, column `b` at offset 8. -/
def two_group_metadata : Metadata :=
  ⟨2, [⟨0, [⟨"a", "int"⟩]⟩, ⟨8, [⟨"b", "int"⟩]⟩]⟩

/-- A stand-in for the JSON library on the sample documents: a document with
the schema of `sample_metadata` or of `two_group_metadata` and `num_rows` from
0 to 15 has a two-byte text (a tag for the schema, then the row count). -/
def sample_json : JsonLib where
  dump := fun m =>
    if 0 ≤ m.num_rows ∧ m.num_rows < 16 then
      if m.groups = sample_metadata.groups then [byteOf 123, byteOf (48 + m.num_rows.toNat)]
      else if m.groups = two_group_metadata.groups then
        [byteOf 91, byteOf (48 + m.num_rows.toNat)]
      else []
    else []
  parse := fun text =>
    match text with
    | [b0, b1] =>
      if 48 ≤ b1.val ∧ b1.val < 64 then
        if b0.val = 123 then some ⟨(b1.val - 48 : Nat), sample_metadata.groups⟩
        else if b0.val = 91 then some ⟨(b1.val - 48 : Nat), two_group_metadata.groups⟩
        else none
      else none
    | _ => none

/-- The data region of the sample file: `id` = 1, 2, 3, then the bit patterns
of the `salary` values 50000.0, 49000.0, 51000.0. -/
def sample_data : List Byte :=
  bytes_of_cells [1, 2, 3] ++ bytes_of_cells [1195593728, 1195337728, 1195849728]

/-- The sample file. -/
def sample_file : List Byte := sample_data ++ write_trailer sample_json sample_metadata

/-- A file system holding the sample file at `test/test.hty`. -/
def sample_fs : FileSystem where
  files := fun p => if p = "test/test.hty" then some sample_file else none
  writable := fun _ => true

/-- A file system whose file `test/short.hty` carries the sample trailer but
only the `id` column: the `salary` column the document declares is missing. -/
def truncated_fs : FileSystem where
  files := fun p =>
    if p = "test/short.hty" then
      some (bytes_of_cells [1, 2, 3] ++ write_trailer sample_json sample_metadata)
    else none
  writable := fun _ => true

/-- A file system holding a two-group file at `test/two.hty`: `a` = 1, 2 and
`b` = 10, 20. -/
def two_group_fs : FileSystem where
  files := fun p =>
    if p = "test/two.hty" then
      some (bytes_of_cells [1, 2] ++ bytes_of_cells [10, 20]
        ++ write_trailer sample_json two_group_metadata)
    else none
  writable := fun _ => true

/-- One new row for the sample file: `id` = 4, `salary` = 48000.0. -/
def sample_rows : List (List Int) := [[4, 1195081728]]

/-- The file `add_row` writes for the sample file and `sample_rows`. -/
def sample_modified_file : List Byte :=
  bytes_of_cells [1, 2, 3, 4]
    ++ bytes_of_cells [1195593728, 1195337728, 1195849728, 1195081728]
    ++ write_trailer sample_json ⟨4, sample_metadata.groups⟩

/-- The sample file system after that `add_row`. -/
def sample_modified_fs : FileSystem :=
  sample_fs.store "test/modified_test.hty" sample_modified_file

/-- The file `add_row` writes for the two-group file and the new row
`a` = 3, `b` = 30. -/
def two_group_modified_file : List Byte :=
  bytes_of_cells [1, 2, 3] ++ bytes_of_cells [10, 20, 30]
    ++ write_trailer sample_json ⟨3, two_group_metadata.groups⟩

/-- The two-group file system after that `add_row`. -/
def two_group_modified_fs : FileSystem :=
  two_group_fs.store "test/two_modified.hty" two_group_modified_file

/-- The sample schema with no rows. -/
def empty_metadata : Metadata := ⟨0, [sample_group]⟩

/-- A file system holding a file of the sample schema with no rows at
`test/empty.hty`: the file is its trailer. -/
def empty_fs : FileSystem where
  files := fun p =>
    if p = "test/empty.hty" then some (write_trailer sample_json empty_metadata) else none
  writable := fun _ => true

/-- A file system holding a file of the sample schema at `test/big.hty` whose
`id` cells are 16777217, 16777219 and 3: the first two are not values of the
type `float`. -/
def big_fs : FileSystem where
  files := fun p =>
    if p = "test/big.hty" then
      some (bytes_of_cells [16777217, 16777219, 3]
        ++ bytes_of_cells [1195593728, 1195337728, 1195849728]
        ++ write_trailer sample_json sample_metadata)
    else none
  writable := fun _ => true

/-- A file system with three damaged files: `test/tiny.hty` has two bytes,
`test/long.hty` is the four bytes of the length 9, `test/negative.hty` the four
bytes of the length -1. -/
def corrupt_fs : FileSystem where
  files := fun p =>
    if p = "test/tiny.hty" then some [byteOf 123, byteOf 125]
    else if p = "test/long.hty" then some (int_bytes 9)
    else if p = "test/negative.hty" then some (int_bytes (-1))
    else none
  writable := fun _ => true

/-- A stand-in for `std::stoi` and `std::stof` on the values of the sample
CSV files. -/
def sample_stdlib : StdLib where
  stoi := fun value =>
    if value = "1" then .ok 1
    else if value = "2" then .ok 2
    else if value = "3" then .ok 3
    else .error .invalid_argument
  stof := fun value =>
    if value = "50000.0" then .ok 1195593728
    else if value = "49000.0" then .ok 1195337728
    else if value = "51000.0" then .ok 1195849728
    else if value = "1.5" then .ok 1069547520
    else if value = "2" then .ok 1073741824
    else .error .invalid_argument

/-- Three CSV files: the table of the sample file; a column whose first value
has a decimal point and whose second has none; a column of names. -/
def sample_csv_files : String → Option String := fun p =>
  if p = "test/test.csv" then some "id,salary\n1,50000.0\n2,49000.0\n3,51000.0\n"
  else if p = "test/mixed.csv" then some "x\n1.5\n2\n"
  else if p = "test/names.csv" then some "name\nbob\n"
  else none

/-- The document of a table with the `int` columns `a` and `b` and two rows. -/
def table_metadata : Metadata := ⟨2, [⟨0, [⟨"a", "int"⟩, ⟨"b", "int"⟩]⟩]⟩

/-- A stand-in for the JSON library on documents with the schema of
`table_metadata` and `num_rows` from 0 to 15: a two-byte text (a tag, then
the row count). -/
def table_json : JsonLib where
  dump := fun m =>
    if 0 ≤ m.num_rows ∧ m.num_rows < 16 ∧ m.groups = table_metadata.groups then
      [byteOf 40, byteOf (48 + m.num_rows.toNat)]
    else []
  parse := fun text =>
    match text with
    | [b0, b1] =>
      if 48 ≤ b1.val ∧ b1.val < 64 ∧ b0.val = 40 then
        some ⟨(b1.val - 48 : Nat), table_metadata.groups⟩
      else none
    | _ => none

/-- A CSV file with the columns `a` and `b` and the rows `(1, 2)` and
`(3, 1)`. -/
def table_csv_files : String → Option String := fun p =>
  if p = "test/table.csv" then some "a,b\n1,2\n3,1\n" else none

/-! ## Machine integers: lemmas -/

theorem toInt32_of_int {x : Int} (h1 : -2147483648 ≤ x) (h2 : x < 2147483648) :
    toInt32 x = x := by
  unfold toInt32
  simp only
  split <;> omega

theorem toInt32_range (x : Int) : -2147483648 ≤ toInt32 x ∧ toInt32 x < 2147483648 := by
  unfold toInt32
  simp only
  split <;> omega

theorem toInt32_idem (x : Int) : toInt32 (toInt32 x) = toInt32 x :=
  toInt32_of_int (toInt32_range x).1 (toInt32_range x).2

theorem int_of_bytes_int_bytes (v : Int) :
    int_of_bytes (byteOf (v % 4294967296).toNat) (byteOf ((v % 4294967296).toNat / 256))
      (byteOf ((v % 4294967296).toNat / 65536)) (byteOf ((v % 4294967296).toNat / 16777216))
      = toInt32 v := by
  unfold int_of_bytes byteOf toInt32
  simp only
  have h0 : 0 ≤ v % 4294967296 := Int.emod_nonneg _ (by decide)
  have h1 : v % 4294967296 < 4294967296 := Int.emod_lt_of_pos _ (by decide)
  generalize hu : (v % 4294967296).toNat = u
  have hu' : (u : Int) = v % 4294967296 := by omega
  have hsum : u % 256 + 256 * (u / 256 % 256) + 65536 * (u / 65536 % 256)
      + 16777216 * (u / 16777216 % 256) = u := by omega
  rw [hsum, hu']
  have : v % 4294967296 % 4294967296 = v % 4294967296 := Int.emod_emod_of_dvd _ (by decide)
  rw [this]

theorem cells_of_bytes_int_bytes (v : Int) (rest : List Byte) :
    cells_of_bytes (int_bytes v ++ rest) = toInt32 v :: cells_of_bytes rest := by
  show cells_of_bytes (_ :: _ :: _ :: _ :: rest) = _
  simp only [cells_of_bytes, int_of_bytes_int_bytes]

theorem int_bytes_length (v : Int) : (int_bytes v).length = 4 := rfl

theorem toInt64_range (x : Int) :
    -9223372036854775808 ≤ toInt64 x ∧ toInt64 x < 9223372036854775808 := by
  unfold toInt64
  simp only
  split <;> omega

theorem toInt64_modEq (x : Int) : toInt64 x ≡ x [ZMOD 18446744073709551616] := by
  unfold toInt64 Int.ModEq
  simp only
  split <;> omega

theorem toSizeT_modEq (x : Int) : toSizeT x ≡ x [ZMOD 18446744073709551616] := by
  unfold toSizeT Int.ModEq
  omega

/-- The offset arithmetic is exact whenever the mathematical offset fits in
64 bits. -/
theorem byte_offset_exact (group_offset : Int) (i : Nat) (num_rows : Int)
    (hlo : -9223372036854775808 ≤ group_offset + i * num_rows * 4)
    (hhi : group_offset + i * num_rows * 4 < 9223372036854775808) :
    byte_offset group_offset i num_rows = group_offset + i * num_rows * 4 := by
  have hmod : byte_offset group_offset i num_rows ≡ group_offset + i * num_rows * 4
      [ZMOD 18446744073709551616] := by
    unfold byte_offset
    exact (toInt64_modEq _).trans
      (Int.ModEq.add (toInt64_modEq _)
        ((toInt64_modEq _).trans
          (Int.ModEq.mul_right 4
            ((toSizeT_modEq _).trans
              ((toInt64_modEq _).trans
                (Int.ModEq.mul (toInt64_modEq _) (toInt64_modEq _)))))))
  have hr := toInt64_range
    (toInt64 group_offset + toInt64 (toSizeT (toInt64 (toInt64 i * toInt64 num_rows)) * 4))
  have hb : byte_offset group_offset i num_rows
      = toInt64 (toInt64 group_offset
          + toInt64 (toSizeT (toInt64 (toInt64 i * toInt64 num_rows)) * 4)) := rfl
  rw [← hb] at hr
  unfold Int.ModEq at hmod
  generalize byte_offset group_offset i num_rows = a at hmod hr
  generalize group_offset + i * num_rows * 4 = b at hmod hlo hhi
  omega

/-! ## Cells: lemmas -/

theorem int_at_none_of_short {data : List Byte} {p : Nat} (h : data.length < p + 4) :
    int_at data p = none := by
  unfold int_at
  split
  · rename_i heq
    have hl := congrArg List.length heq
    simp only [List.length_take, List.length_drop, List.length_cons, List.length_nil] at hl
    omega
  · rfl

theorem cells_of_bytes_short {bytes : List Byte} (h : bytes.length < 4) :
    cells_of_bytes bytes = [] := by
  match bytes, h with
  | [], _ => rfl
  | [_], _ => rfl
  | [_, _], _ => rfl
  | [_, _, _], _ => rfl
  | _ :: _ :: _ :: _ :: rest, h => simp only [List.length_cons] at h; omega

theorem short_of_no_chunk {bytes : List Byte}
    (h : ∀ (b0 b1 b2 b3 : Byte) (rest : List Byte), bytes = b0 :: b1 :: b2 :: b3 :: rest → False) :
    bytes.length < 4 := by
  match bytes, h with
  | [], _ => simp
  | [_], _ => simp
  | [_, _], _ => simp
  | [_, _, _], _ => simp
  | b0 :: b1 :: b2 :: b3 :: rest, h => exact absurd rfl (h b0 b1 b2 b3 rest)

theorem cells_of_bytes_length (bytes : List Byte) :
    (cells_of_bytes bytes).length = bytes.length / 4 := by
  induction bytes using cells_of_bytes.induct with
  | case1 b0 b1 b2 b3 rest ih =>
    simp only [cells_of_bytes, List.length_cons, ih]
    omega
  | case2 bytes h =>
    have hs := short_of_no_chunk h
    rw [cells_of_bytes_short hs, List.length_nil]
    omega

theorem cells_of_bytes_getElem? (bytes : List Byte) (k : Nat) :
    (cells_of_bytes bytes)[k]? = int_at bytes (4 * k) := by
  induction bytes using cells_of_bytes.induct generalizing k with
  | case1 b0 b1 b2 b3 rest ih =>
    cases k with
    | zero => simp [cells_of_bytes, int_at]
    | succ k =>
      have h4 : 4 * (k + 1) = 4 * k + 4 := by omega
      simp only [cells_of_bytes, List.getElem?_cons_succ, ih k, int_at, h4]
      rfl
  | case2 bytes h =>
    have hs := short_of_no_chunk h
    rw [cells_of_bytes_short hs, int_at_none_of_short (by omega)]
    rfl

theorem bytes_of_cells_length (cells : List Int) :
    (bytes_of_cells cells).length = 4 * cells.length := by
  induction cells with
  | nil => rfl
  | cons v rest ih =>
    simp only [bytes_of_cells, List.map_cons, List.flatten_cons, List.length_append,
      int_bytes_length, List.length_cons] at ih ⊢
    omega

theorem cells_of_bytes_append (cells : List Int) (rest : List Byte) :
    cells_of_bytes (bytes_of_cells cells ++ rest) = cells.map toInt32 ++ cells_of_bytes rest := by
  induction cells with
  | nil => rfl
  | cons v tl ih =>
    have : bytes_of_cells (v :: tl) ++ rest = int_bytes v ++ (bytes_of_cells tl ++ rest) := by
      simp [bytes_of_cells]
    rw [this, cells_of_bytes_int_bytes, ih]
    rfl

/-- The integer at an offset depends only on the four bytes there. -/
theorem int_at_congr (data data' : List Byte) (p p' : Nat)
    (h : (data.drop p).take 4 = (data'.drop p').take 4) : int_at data p = int_at data' p' := by
  unfold int_at
  rw [h]

theorem int_at_some_bound {data : List Byte} {p : Nat} {v : Int} (h : int_at data p = some v) :
    p + 4 ≤ data.length := by
  unfold int_at at h
  have hl : ((data.drop p).take 4).length = min 4 (data.length - p) := by simp
  split at h
  · rename_i heq
    rw [heq] at hl
    simp only [List.length_cons, List.length_nil] at hl
    omega
  · cases h

/-! ## Streams: lemmas -/

theorem seekg_ok (data : List Byte) (pos : Nat) (offset : Int) (h : 0 ≤ offset) :
    IStream.seekg ⟨data, pos, false⟩ offset = ⟨data, offset.toNat, false⟩ := by
  have : ¬ offset < 0 := by omega
  simp [IStream.seekg, this]

theorem seekg_neg (data : List Byte) (pos : Nat) (offset : Int) (h : offset < 0) :
    IStream.seekg ⟨data, pos, false⟩ offset = ⟨data, pos, true⟩ := by
  simp [IStream.seekg, h]

theorem read_ok (data buf : List Byte) (pos n : Nat) :
    IStream.read ⟨data, pos, false⟩ buf n
      = ((data.drop pos).take n ++ buf.drop ((data.drop pos).take n).length,
          ⟨data, pos + ((data.drop pos).take n).length,
            decide (((data.drop pos).take n).length < n)⟩) := by
  simp [IStream.read]

theorem read_failed (data buf : List Byte) (pos n : Nat) :
    IStream.read ⟨data, pos, true⟩ buf n = (buf, ⟨data, pos, true⟩) := by
  simp [IStream.read]

/-- Reading `mid.length` bytes at the start of `mid` inside `pre ++ mid ++ post`
fills the buffer with `mid` and leaves the stream good. -/
theorem read_window (pre mid post buf : List Byte) :
    IStream.read ⟨pre ++ mid ++ post, pre.length, false⟩ buf mid.length
      = (mid ++ buf.drop mid.length, ⟨pre ++ mid ++ post, pre.length + mid.length, false⟩) := by
  rw [read_ok]
  have h : List.take mid.length (List.drop pre.length (pre ++ mid ++ post)) = mid := by
    rw [List.append_assoc, List.drop_left, List.take_left]
  rw [h]
  simp

/-! ## The trailer codec -/

/-- The function `extract_metadata` on a file that ends with a text of the
length its last four bytes encode. -/
theorem extract_metadata_eq (json : JsonLib) (unwritten : Int) (fs : FileSystem)
    (path : String) (D S : List Byte) (b0 b1 b2 b3 : Byte)
    (hfile : fs.files path = some (D ++ S ++ [b0, b1, b2, b3]))
    (hlen : int_of_bytes b0 b1 b2 b3 = S.length) :
    extract_metadata json fs path unwritten =
      match json.parse S with
      | none => .error .parse_error
      | some metadata => .ok metadata := by
  unfold extract_metadata
  rw [hfile]
  have hsz : ((D ++ S ++ [b0, b1, b2, b3]).length : Int) - 4 = ((D ++ S).length : Nat) := by
    simp only [List.length_append, List.length_cons, List.length_nil]
    omega
  have h1 : (IStream.open_ate (D ++ S ++ [b0, b1, b2, b3])).seekg
      (((D ++ S ++ [b0, b1, b2, b3]).length : Int) - 4)
      = ⟨D ++ S ++ [b0, b1, b2, b3], (D ++ S).length, false⟩ := by
    rw [hsz, IStream.open_ate, seekg_ok _ _ _ (by omega), Int.toNat_ofNat]
  have h2 : IStream.read ⟨D ++ S ++ [b0, b1, b2, b3], (D ++ S).length, false⟩
      (int_bytes unwritten) 4
      = ([b0, b1, b2, b3], ⟨D ++ S ++ [b0, b1, b2, b3], (D ++ S).length + 4, false⟩) := by
    have := read_window (D ++ S) [b0, b1, b2, b3] [] (int_bytes unwritten)
    simpa [int_bytes] using this
  have hoff : ((D ++ S ++ [b0, b1, b2, b3]).length : Int) - (S.length : Int) - 4
      = (D.length : Nat) := by
    simp only [List.length_append, List.length_cons, List.length_nil]
    omega
  have h3 : IStream.seekg ⟨D ++ S ++ [b0, b1, b2, b3], (D ++ S).length + 4, false⟩
      (((D ++ S ++ [b0, b1, b2, b3]).length : Int) - (S.length : Int) - 4)
      = ⟨D ++ S ++ [b0, b1, b2, b3], D.length, false⟩ := by
    rw [hoff, seekg_ok _ _ _ (by omega), Int.toNat_ofNat]
  have h4 : IStream.read ⟨D ++ S ++ [b0, b1, b2, b3], D.length, false⟩
      (List.replicate S.length (0 : Byte)) S.length
      = (S, ⟨D ++ S ++ [b0, b1, b2, b3], D.length + S.length, false⟩) := by
    have := read_window D S [b0, b1, b2, b3] (List.replicate S.length (0 : Byte))
    simpa using this
  have hnn : ¬ ((S.length : Int) < 0) := by omega
  simp only [IStream.open_ate] at h1
  simp only [IStream.open_ate, h1, h2, List.getD_cons_zero, List.getD_cons_succ, hlen, h3,
    Int.toNat_ofNat, h4, hnn, if_false]

/-- A file that ends with the trailer of `M` decodes to `M`. -/
theorem extract_metadata_of_trailer (json : JsonLib) (unwritten : Int) (fs : FileSystem)
    (path : String) (D : List Byte) (M : Metadata)
    (hL : (json.dump M).length < 2147483648)
    (hparse : json.parse (json.dump M) = some M)
    (hfile : fs.files path = some (D ++ write_trailer json M)) :
    extract_metadata json fs path unwritten = .ok M := by
  have hsize : toInt32 ((json.dump M).length : Int) = (json.dump M).length :=
    toInt32_of_int (by omega) (by omega)
  have hfile' : fs.files path = some (D ++ json.dump M ++
      [byteOf ((json.dump M).length % 4294967296 : Int).toNat,
       byteOf (((json.dump M).length % 4294967296 : Int).toNat / 256),
       byteOf (((json.dump M).length % 4294967296 : Int).toNat / 65536),
       byteOf (((json.dump M).length % 4294967296 : Int).toNat / 16777216)]) := by
    rw [hfile, write_trailer]
    simp only [hsize, List.append_assoc]
    rfl
  rw [extract_metadata_eq json unwritten fs path D (json.dump M) _ _ _ _ hfile'
    (by rw [int_of_bytes_int_bytes, hsize]), hparse]

/-- Claim C1 (trailer round trip): for every data region `D` and every
document `M` whose serialised form is shorter than `2^31` bytes and is parsed
back to `M` by the JSON library, `extract_metadata` on the file
`D ++ dump M ++ (length as a 4-byte int)` returns `M`, and that file is the
data region followed by what the writers append (`write_trailer`). -/
theorem extract_metadata_write_trailer (json : JsonLib) (unwritten : Int)
    (fs : FileSystem) (path : String)
    (D : List Byte) (M : Metadata)
    (hL : (json.dump M).length < 2147483648)
    (hparse : json.parse (json.dump M) = some M)
    (hfile : fs.files path = some (D ++ json.dump M ++ int_bytes (json.dump M).length)) :
    D ++ write_trailer json M = D ++ json.dump M ++ int_bytes (json.dump M).length
      ∧ extract_metadata json fs path unwritten = .ok M := by
  have hw : D ++ write_trailer json M
      = D ++ json.dump M ++ int_bytes (json.dump M).length := by
    rw [write_trailer, toInt32_of_int (by omega) (by omega), List.append_assoc]
  exact ⟨hw, extract_metadata_of_trailer json unwritten fs path D M hL hparse
    (by rw [hfile, hw])⟩

/-- Claim C1 at the sample file. -/
theorem extract_metadata_write_trailer_witness :
    (sample_json.dump sample_metadata).length < 2147483648
      ∧ sample_json.parse (sample_json.dump sample_metadata) = some sample_metadata
      ∧ sample_fs.files "test/test.hty"
          = some (sample_data ++ sample_json.dump sample_metadata
              ++ int_bytes (sample_json.dump sample_metadata).length)
      ∧ extract_metadata sample_json sample_fs "test/test.hty" 0 = .ok sample_metadata :=
  ⟨by decide, by decide, by decide,
    (extract_metadata_write_trailer sample_json 0 sample_fs "test/test.hty" sample_data
      sample_metadata (by decide) (by decide) (by decide)).2⟩

/-! ## Column lookup -/

theorem column_index_eq_none {columns : List ColumnMeta} {name : String} :
    column_index columns name = none ↔ ∀ c ∈ columns, c.column_name ≠ name := by
  induction columns with
  | nil => simp [column_index]
  | cons c rest ih =>
    by_cases hc : c.column_name = name
    · simp [column_index, hc]
    · simp [column_index, hc, ih]

theorem column_index_first {columns cpre cpost : List ColumnMeta} {c : ColumnMeta}
    {name : String} (hcols : columns = cpre ++ c :: cpost)
    (hcpre : ∀ c' ∈ cpre, c'.column_name ≠ name) (hc : c.column_name = name) :
    column_index columns name = some cpre.length := by
  subst hcols
  induction cpre with
  | nil => simp [column_index, hc]
  | cons d rest ih =>
    have hd : d.column_name ≠ name := hcpre d (List.mem_cons_self _ _)
    have := ih (fun c' h => hcpre c' (List.mem_cons_of_mem _ h))
    simp [column_index, hd, this]

theorem column_index_some_iff {columns : List ColumnMeta} {name : String} :
    (∃ i, column_index columns name = some i) ↔ ∃ c ∈ columns, c.column_name = name := by
  constructor
  · rintro ⟨i, hi⟩
    by_contra hne
    have : column_index columns name = none :=
      column_index_eq_none.mpr (fun c hc heq => hne ⟨c, hc, heq⟩)
    rw [this] at hi
    cases hi
  · rintro ⟨c, hc, heq⟩
    cases h : column_index columns name with
    | some i => exact ⟨i, rfl⟩
    | none => exact absurd heq (column_index_eq_none.mp h c hc)

theorem column_index_lt {columns : List ColumnMeta} {name : String} {i : Nat}
    (h : column_index columns name = some i) : i < columns.length := by
  induction columns generalizing i with
  | nil => simp [column_index] at h
  | cons c rest ih =>
    by_cases hc : c.column_name = name
    · simp [column_index, hc] at h
      subst h
      simp
    · simp only [column_index, hc, if_false, Option.map_eq_some'] at h
      obtain ⟨j, hj, rfl⟩ := h
      have := ih hj
      simp only [List.length_cons]
      omega

/-! ## Reading one column -/

theorem zero_buffer_length (n : Nat) : (zero_buffer n).length = 4 * n := by
  simp [zero_buffer]

/-- The buffer a column read leaves always holds `num_rows` cells. -/
theorem read_column_length (data : List Byte) (pos : Nat) (offset : Int) (n : Nat) :
    (cells_of_bytes
      ((IStream.seekg ⟨data, pos, false⟩ offset).read (zero_buffer n) (4 * n)).1).length = n := by
  rw [cells_of_bytes_length]
  by_cases h : offset < 0
  · rw [seekg_neg _ _ _ h, read_failed, zero_buffer_length]
    omega
  · rw [seekg_ok _ _ _ (by omega), read_ok]
    simp only [List.length_append, List.length_drop, List.length_take, zero_buffer_length]
    omega

/-- A cell of the buffer whose four bytes the file holds is the integer stored
there. -/
theorem read_column_getElem? (data : List Byte) (pos : Nat) (offset : Int) (n k : Nat) (v : Int)
    (hoff : 0 ≤ offset) (hk : k < n) (hv : int_at data (offset.toNat + 4 * k) = some v) :
    (cells_of_bytes
      ((IStream.seekg ⟨data, pos, false⟩ offset).read (zero_buffer n) (4 * n)).1)[k]? = some v := by
  have hb := int_at_some_bound hv
  rw [cells_of_bytes_getElem?, seekg_ok _ _ _ hoff, read_ok, ← hv]
  apply int_at_congr
  have hlen : 4 * k + 4 ≤ (List.take (4 * n) (List.drop offset.toNat data)).length := by
    simp only [List.length_take, List.length_drop]
    omega
  rw [List.drop_append_of_le_length (by omega), List.take_append_of_le_length (by
    simp only [List.length_drop]; omega)]
  rw [List.drop_take, List.take_take, List.drop_drop]
  congr 1
  omega

/-- Groups without the requested column are passed over. -/
theorem project_single_column_scan_skip (file : IStream) (num_rows : Int) (name : String)
    (pre rest : List Group) (hpre : ∀ g ∈ pre, ∀ c ∈ g.columns, c.column_name ≠ name) :
    project_single_column_scan file num_rows name (pre ++ rest)
      = project_single_column_scan file num_rows name rest := by
  induction pre with
  | nil => rfl
  | cons g tl ih =>
    have hg : column_index g.columns name = none :=
      column_index_eq_none.mpr (hpre g (List.mem_cons_self _ _))
    simp only [List.cons_append, project_single_column_scan, hg]
    exact ih (fun g' h => hpre g' (List.mem_cons_of_mem _ h))

/-- The result of `project_single_column` when the first match is column `i`
of group `g`. -/
theorem project_single_column_eq (fs : FileSystem) (metadata : Metadata) (path name : String)
    (data : List Byte) (pre post : List Group) (g : Group) (i : Nat)
    (hfile : fs.files path = some data)
    (hgroups : metadata.groups = pre ++ g :: post)
    (hpre : ∀ g' ∈ pre, ∀ c ∈ g'.columns, c.column_name ≠ name)
    (hidx : column_index g.columns name = some i)
    (hn : 0 ≤ toInt32 metadata.num_rows) :
    project_single_column fs metadata path name
      = .ok (cells_of_bytes
          ((IStream.seekg ⟨data, 0, false⟩
              (byte_offset g.offset i (toInt32 metadata.num_rows))).read
            (zero_buffer (toInt32 metadata.num_rows).toNat)
            (4 * (toInt32 metadata.num_rows).toNat)).1) := by
  have hnn : ¬ toInt32 metadata.num_rows < 0 := by omega
  unfold project_single_column
  rw [hfile]
  simp only [hgroups, project_single_column_scan_skip _ _ _ _ _ hpre,
    project_single_column_scan, hidx, hnn, if_false, IStream.open_]

/-- Claim C8: `project_single_column` takes the first column named `name` in
scan order (group `g` after the groups `pre` that lack the name, column
`cpre.length` of `g`); with a non-negative row count `n` (as the `int` the
program reads) it returns exactly `n` cells, and cell `k` is the 4-byte
integer stored at byte offset `g.offset + i*n*4 + 4*k` whenever the file
(shorter than `2^63` bytes) holds four bytes there. -/
theorem project_single_column_first_match (fs : FileSystem) (metadata : Metadata)
    (path name : String) (data : List Byte) (pre post : List Group) (g : Group)
    (cpre cpost : List ColumnMeta) (c : ColumnMeta)
    (hfile : fs.files path = some data)
    (hsize : (data.length : Int) < 9223372036854775808)
    (hgroups : metadata.groups = pre ++ g :: post)
    (hpre : ∀ g' ∈ pre, ∀ c' ∈ g'.columns, c'.column_name ≠ name)
    (hcols : g.columns = cpre ++ c :: cpost)
    (hcpre : ∀ c' ∈ cpre, c'.column_name ≠ name)
    (hc : c.column_name = name)
    (hn : 0 ≤ toInt32 metadata.num_rows) :
    ∃ cells, project_single_column fs metadata path name = .ok cells
      ∧ cells.length = (toInt32 metadata.num_rows).toNat
      ∧ ∀ (k : Nat) (v : Int), k < (toInt32 metadata.num_rows).toNat →
          0 ≤ g.offset + cpre.length * toInt32 metadata.num_rows * 4 →
          int_at data
            (g.offset + cpre.length * toInt32 metadata.num_rows * 4 + 4 * k).toNat = some v →
          cells[k]? = some v := by
  have hidx := column_index_first hcols hcpre hc
  refine ⟨_, project_single_column_eq fs metadata path name data pre post g _ hfile hgroups
    hpre hidx hn, read_column_length _ _ _ _, ?_⟩
  intro k v hk hX hv
  have hb := int_at_some_bound hv
  have hex : byte_offset g.offset cpre.length (toInt32 metadata.num_rows)
      = g.offset + cpre.length * toInt32 metadata.num_rows * 4 :=
    byte_offset_exact _ _ _ (by omega) (by omega)
  rw [hex]
  apply read_column_getElem? _ _ _ _ _ _ hX hk
  rw [← hv]
  congr 1
  omega

/-- Claim C8 at the sample file: the `salary` column is column 1 of the only
group. -/
theorem project_single_column_first_match_witness :
    project_single_column sample_fs sample_metadata "test/test.hty" "salary"
        = .ok [1195593728, 1195337728, 1195849728]
      ∧ ∃ cells, project_single_column sample_fs sample_metadata "test/test.hty" "salary"
          = .ok cells
        ∧ cells.length = (toInt32 sample_metadata.num_rows).toNat
        ∧ ∀ (k : Nat) (v : Int), k < (toInt32 sample_metadata.num_rows).toNat →
            0 ≤ (0 : Int) + ([⟨"id", "int"⟩] : List ColumnMeta).length
              * toInt32 sample_metadata.num_rows * 4 →
            int_at sample_file
              ((0 : Int) + ([⟨"id", "int"⟩] : List ColumnMeta).length
                * toInt32 sample_metadata.num_rows * 4 + 4 * k).toNat = some v →
            cells[k]? = some v :=
  ⟨by decide,
    project_single_column_first_match sample_fs sample_metadata "test/test.hty" "salary"
      sample_file [] [] sample_group [⟨"id", "int"⟩] []
      ⟨"salary", "float"⟩ (by decide) (by decide) (by decide) (by simp) (by decide)
      (by decide) (by decide) (by decide)⟩

theorem project_single_column_scan_not_found_iff (file : IStream) (num_rows : Int)
    (name : String) (groups : List Group) :
    project_single_column_scan file num_rows name groups = .error .column_not_found
      ↔ ∀ g ∈ groups, ∀ c ∈ g.columns, c.column_name ≠ name := by
  induction groups with
  | nil => simp [project_single_column_scan]
  | cons g rest ih =>
    cases h : column_index g.columns name with
    | none =>
      have hg := column_index_eq_none.mp h
      simp only [project_single_column_scan, h, ih, List.mem_cons, forall_eq_or_imp]
      exact ⟨fun hr => ⟨hg, hr⟩, fun hr => hr.2⟩
    | some i =>
      obtain ⟨c, hc, heq⟩ := column_index_some_iff.mp ⟨i, h⟩
      simp only [project_single_column_scan, h]
      constructor
      · intro hr
        split at hr <;> cases hr
      · intro hr
        exact absurd heq (hr g (List.mem_cons_self _ _) c hc)

/-- Claim C9: on a file that can be opened, `project_single_column` fails with
"Column not found" if and only if no column of any group has the requested
name. -/
theorem project_single_column_not_found_iff (fs : FileSystem) (metadata : Metadata)
    (path name : String) (data : List Byte) (hfile : fs.files path = some data) :
    project_single_column fs metadata path name = .error .column_not_found
      ↔ ∀ g ∈ metadata.groups, ∀ c ∈ g.columns, c.column_name ≠ name := by
  unfold project_single_column
  rw [hfile]
  exact project_single_column_scan_not_found_iff _ _ _ _

/-- Claim C9 at the sample file: `bonus` is not a column, `salary` is. -/
theorem project_single_column_not_found_iff_witness :
    sample_fs.files "test/test.hty" = some sample_file
      ∧ project_single_column sample_fs sample_metadata "test/test.hty" "bonus"
          = .error .column_not_found
      ∧ project_single_column sample_fs sample_metadata "test/test.hty" "salary"
          ≠ .error .column_not_found :=
  ⟨by decide,
    (project_single_column_not_found_iff sample_fs sample_metadata "test/test.hty" "bonus"
      sample_file (by decide)).mpr (by decide),
    by decide⟩

/-- Claim C10 fails on the code: the file `test/short.hty` holds 6 bytes from
offset 12, where the three `salary` cells (12 bytes) should start;
`project_single_column` still returns three cells (the six bytes that are
there, zero-padded), while `project` on the same input fails with "Failed to
read data for column salary". -/
theorem project_single_column_truncated_read :
    truncated_fs.files "test/short.hty"
        = some (bytes_of_cells [1, 2, 3] ++ write_trailer sample_json sample_metadata)
      ∧ (bytes_of_cells [1, 2, 3] ++ write_trailer sample_json sample_metadata).length - 12 < 12
      ∧ project_single_column truncated_fs sample_metadata "test/short.hty" "salary"
          = .ok [144251, 0, 0]
      ∧ project truncated_fs sample_metadata "test/short.hty" ["salary"]
          = .error (.failed_to_read "salary") := by
  decide

/-! ## Multi-column projection: lemmas -/

theorem has_column_iff (g : Group) (name : String) :
    has_column g name ↔ ∃ i, column_index g.columns name = some i :=
  column_index_some_iff.symm

theorem column_indices_length_le (g : Group) (names : List String) :
    (column_indices g names).length ≤ names.length :=
  List.length_filterMap_le _ _

/-- The test `column_indices.size() == projected_columns.size()` holds exactly
when the group contains every requested name. -/
theorem column_indices_length_eq_iff (g : Group) (names : List String) :
    (column_indices g names).length = names.length ↔ has_all_columns g names := by
  induction names with
  | nil => simp [column_indices, has_all_columns]
  | cons x xs ih =>
    have hle := column_indices_length_le g xs
    cases h : column_index g.columns x with
    | none =>
      have hx : ¬ has_column g x := by
        rw [has_column_iff, h]
        simp
      have hlen : (column_indices g (x :: xs)).length = (column_indices g xs).length := by
        simp [column_indices, List.filterMap_cons, h]
      constructor
      · intro heq
        rw [hlen, List.length_cons] at heq
        omega
      · intro hall
        exact absurd (hall x (List.mem_cons_self _ _)) hx
    | some i =>
      have hx : has_column g x := (has_column_iff g x).mpr ⟨i, h⟩
      have hlen : (column_indices g (x :: xs)).length = (column_indices g xs).length + 1 := by
        simp [column_indices, List.filterMap_cons, h]
      rw [hlen, List.length_cons]
      constructor
      · intro heq
        have := ih.mp (by omega)
        intro name hname
        rcases List.mem_cons.mp hname with rfl | hmem
        · exact hx
        · exact this name hmem
      · intro hall
        have := ih.mpr (fun name hname => hall name (List.mem_cons_of_mem _ hname))
        omega

/-- When the group contains every requested name, the index list pairs each
name with the index of its first column. -/
theorem column_indices_zip (g : Group) (names : List String) (hall : has_all_columns g names) :
    (column_indices g names).zip names
      = names.map (fun name => ((column_index g.columns name).getD 0, name)) := by
  induction names with
  | nil => rfl
  | cons x xs ih =>
    obtain ⟨i, hi⟩ := (has_column_iff g x).mp (hall x (List.mem_cons_self _ _))
    have hxs := ih (fun name hname => hall name (List.mem_cons_of_mem _ hname))
    have hci : column_indices g (x :: xs) = i :: column_indices g xs := by
      simp [column_indices, List.filterMap_cons, hi]
    rw [hci, List.zip_cons_cons, hxs, List.map_cons, hi]
    rfl

/-- The read loop of `project` succeeds exactly when every column is readable,
and then yields the cells stored at each offset. -/
theorem project_read_ok_iff (data : List Byte) (group_offset : Int) (num_rows : Int)
    (pairs : List (Nat × String)) (pos : Nat) (res : List (List Int)) :
    project_read ⟨data, pos, false⟩ group_offset num_rows pairs = .ok res
      ↔ (∀ p ∈ pairs,
            column_readable data (byte_offset group_offset p.1 num_rows) num_rows.toNat)
        ∧ res = pairs.map (fun p => cells_of_bytes
            ((data.drop (byte_offset group_offset p.1 num_rows).toNat).take
              (4 * num_rows.toNat))) := by
  induction pairs generalizing pos res with
  | nil =>
    simp only [project_read, List.not_mem_nil, false_implies, implies_true, List.map_nil,
      true_and, Except.ok.injEq]
    exact eq_comm
  | cons p rest ih =>
    obtain ⟨idx, name⟩ := p
    simp only [List.mem_cons, forall_eq_or_imp, List.map_cons]
    by_cases hneg : byte_offset group_offset idx num_rows < 0
    · have hnr : ¬ column_readable data (byte_offset group_offset idx num_rows) num_rows.toNat :=
        fun h => absurd h.1 (by omega)
      simp only [project_read, seekg_neg _ _ _ hneg, if_true, hnr, false_and]
      simp
    · rw [project_read, seekg_ok _ _ _ (by omega), read_ok]
      simp only [Bool.false_eq_true, if_false, decide_eq_true_eq]
      by_cases hshort : (List.take (4 * num_rows.toNat)
          (List.drop (byte_offset group_offset idx num_rows).toNat data)).length
            < 4 * num_rows.toNat
      · have hnr : ¬ column_readable data (byte_offset group_offset idx num_rows)
            num_rows.toNat := by
          rintro ⟨_, h | h⟩
          · rw [h] at hshort
            simp at hshort
          · simp only [List.length_take, List.length_drop] at hshort
            omega
        simp only [hshort, if_true, hnr, false_and]
        simp
      · have hr : column_readable data (byte_offset group_offset idx num_rows)
            num_rows.toNat := by
          refine ⟨by omega, ?_⟩
          simp only [List.length_take, List.length_drop] at hshort
          omega
        have hfull : (List.take (4 * num_rows.toNat)
            (List.drop (byte_offset group_offset idx num_rows).toNat data)).length
              = 4 * num_rows.toNat := by
          have := List.length_take_le (4 * num_rows.toNat)
            (List.drop (byte_offset group_offset idx num_rows).toNat data)
          omega
        have hbuf : List.drop (List.take (4 * num_rows.toNat)
            (List.drop (byte_offset group_offset idx num_rows).toNat data)).length
              (zero_buffer num_rows.toNat) = [] := by
          rw [hfull]
          exact List.drop_eq_nil_of_le (by rw [zero_buffer_length])
        simp only [hshort, if_false, hr, true_and, hbuf, List.append_nil, decide_False]
        cases hrec : project_read
            ⟨data, (byte_offset group_offset idx num_rows).toNat
              + (List.take (4 * num_rows.toNat)
                  (List.drop (byte_offset group_offset idx num_rows).toNat data)).length, false⟩
            group_offset num_rows rest with
        | error e =>
          constructor
          · intro h
            cases h
          · rintro ⟨hall, _⟩
            have := hrec.symm.trans ((ih _ _).mpr ⟨hall, rfl⟩)
            cases this
        | ok tl =>
          have htl := (ih _ _).mp hrec
          simp only [Except.ok.injEq]
          constructor
          · intro h
            subst h
            exact ⟨htl.1, by rw [htl.2]⟩
          · rintro ⟨_, h⟩
            rw [h, htl.2]

theorem column_index_split {columns : List ColumnMeta} {name : String} {i : Nat}
    (h : column_index columns name = some i) :
    ∃ cpre c cpost, columns = cpre ++ c :: cpost ∧ (∀ c' ∈ cpre, c'.column_name ≠ name)
      ∧ c.column_name = name ∧ i = cpre.length := by
  induction columns generalizing i with
  | nil => simp [column_index] at h
  | cons d rest ih =>
    by_cases hd : d.column_name = name
    · simp only [column_index, hd, if_true, Option.some.injEq] at h
      exact ⟨[], d, rest, rfl, by simp, hd, h.symm⟩
    · simp only [column_index, hd, if_false, Option.map_eq_some'] at h
      obtain ⟨j, hj, rfl⟩ := h
      obtain ⟨cpre, c, cpost, hcols, hcpre, hc, hlen⟩ := ih hj
      refine ⟨d :: cpre, c, cpost, by rw [hcols]; rfl, ?_, hc, by simp [hlen]⟩
      intro c' hc'
      rcases List.mem_cons.mp hc' with rfl | hmem
      · exact hd
      · exact hcpre c' hmem

/-- Groups that lack one of the requested names are passed over. -/
theorem project_groups_skip (file : IStream) (num_rows : Int) (names : List String)
    (pre rest : List Group) (hpre : ∀ g ∈ pre, ¬ has_all_columns g names) :
    project_groups file num_rows names (pre ++ rest)
      = project_groups file num_rows names rest := by
  induction pre with
  | nil => rfl
  | cons g tl ih =>
    have hg : ¬ (column_indices g names).length = names.length := fun h =>
      hpre g (List.mem_cons_self _ _) ((column_indices_length_eq_iff g names).mp h)
    simp only [List.cons_append, project_groups, hg, if_false]
    exact ih (fun g' h => hpre g' (List.mem_cons_of_mem _ h))

/-- The first group that contains every requested name is the one read. -/
theorem project_groups_hit (file : IStream) (num_rows : Int) (names : List String)
    (g : Group) (post : List Group) (hg : has_all_columns g names) :
    project_groups file num_rows names (g :: post)
      = project_read file g.offset num_rows
          (names.map (fun name => ((column_index g.columns name).getD 0, name))) := by
  have hlen := (column_indices_length_eq_iff g names).mpr hg
  simp only [project_groups, hlen, if_true, column_indices_zip g names hg]

theorem project_of_open (fs : FileSystem) (metadata : Metadata) (path : String)
    (names : List String) (data : List Byte) (hfile : fs.files path = some data)
    (hn : 0 ≤ toInt32 metadata.num_rows) :
    project fs metadata path names
      = project_groups ⟨data, 0, false⟩ (toInt32 metadata.num_rows) names metadata.groups := by
  have hnn : ¬ toInt32 metadata.num_rows < 0 := by omega
  simp only [project, hfile, hnn, if_false, IStream.open_]

theorem project_ok_nonneg (fs : FileSystem) (metadata : Metadata) (path : String)
    (names : List String) (res : List (List Int))
    (hres : project fs metadata path names = .ok res) : 0 ≤ toInt32 metadata.num_rows := by
  by_contra hneg
  have hlt : toInt32 metadata.num_rows < 0 := by omega
  unfold project at hres
  cases hf : fs.files path with
  | none => simp [hf] at hres
  | some data => simp [hf, hlt] at hres

/-- Claim C5: when `project` returns a table, with `g` the first group in
metadata order that contains every requested name, the table has one column
per requested name in the order of the names, and column `k` holds exactly
`num_rows` cells read from byte offset `g.offset + idx*num_rows*4`, where
`idx` is the index of the first column of `g` named `names[k]`.  (The offsets
of the group are assumed to fit the 64-bit type they are computed in.) -/
theorem project_first_group (fs : FileSystem) (metadata : Metadata) (path : String)
    (names : List String) (data : List Byte) (pre post : List Group) (g : Group)
    (res : List (List Int))
    (hfile : fs.files path = some data)
    (hgroups : metadata.groups = pre ++ g :: post)
    (hpre : ∀ g' ∈ pre, ¬ has_all_columns g' names)
    (hg : has_all_columns g names)
    (hlo : -9223372036854775808 ≤ g.offset)
    (hhi : g.offset + g.columns.length * toInt32 metadata.num_rows * 4 < 9223372036854775808)
    (hres : project fs metadata path names = .ok res) :
    res.length = names.length
      ∧ ∀ (k : Nat) (name : String), names[k]? = some name →
          ∃ (idx : Nat) (cells : List Int) (cpre : List ColumnMeta) (c : ColumnMeta)
              (cpost : List ColumnMeta),
            g.columns = cpre ++ c :: cpost ∧ (∀ c' ∈ cpre, c'.column_name ≠ name)
              ∧ c.column_name = name ∧ idx = cpre.length
              ∧ res[k]? = some cells
              ∧ cells.length = (toInt32 metadata.num_rows).toNat
              ∧ 0 ≤ g.offset + idx * toInt32 metadata.num_rows * 4
              ∧ cells = cells_of_bytes
                  ((data.drop (g.offset + idx * toInt32 metadata.num_rows * 4).toNat).take
                    (4 * (toInt32 metadata.num_rows).toNat)) := by
  have hn := project_ok_nonneg fs metadata path names res hres
  rw [project_of_open fs metadata path names data hfile hn, hgroups,
    project_groups_skip _ _ _ _ _ hpre, project_groups_hit _ _ _ _ _ hg,
    project_read_ok_iff] at hres
  obtain ⟨hread, hmap⟩ := hres
  refine ⟨by rw [hmap]; simp, ?_⟩
  intro k name hk
  obtain ⟨idx, hidx⟩ := (has_column_iff g name).mp (hg name (List.getElem?_mem hk))
  obtain ⟨cpre, c, cpost, hcols, hcpre, hc, hlen⟩ := column_index_split hidx
  have hlt := column_index_lt hidx
  have hmul : (idx : Int) * toInt32 metadata.num_rows
      ≤ (g.columns.length : Int) * toInt32 metadata.num_rows :=
    Int.mul_le_mul_of_nonneg_right (by omega) hn
  have hmul0 : 0 ≤ (idx : Int) * toInt32 metadata.num_rows :=
    Int.mul_nonneg (by omega) hn
  have hex : byte_offset g.offset idx (toInt32 metadata.num_rows)
      = g.offset + idx * toInt32 metadata.num_rows * 4 :=
    byte_offset_exact _ _ _ (by omega) (by omega)
  have hr := hread ((column_index g.columns name).getD 0, name)
    (List.mem_map.mpr ⟨name, List.getElem?_mem hk, rfl⟩)
  simp only [hidx, Option.getD_some] at hr
  have hcell : res[k]? = some (cells_of_bytes
      ((data.drop (byte_offset g.offset idx (toInt32 metadata.num_rows)).toNat).take
        (4 * (toInt32 metadata.num_rows).toNat))) := by
    rw [hmap, List.getElem?_map, List.getElem?_map, hk]
    simp only [Option.map_some', hidx, Option.getD_some]
  rw [hex] at hcell hr
  refine ⟨idx, _, cpre, c, cpost, hcols, hcpre, hc, hlen, hcell, ?_, hr.1, rfl⟩
  rw [cells_of_bytes_length, List.length_take, List.length_drop]
  rcases hr.2 with h0 | hle
  · rw [h0]
    simp
  · omega

theorem sample_group_has_all :
    has_all_columns sample_group ["salary", "id"] := by
  intro name hname
  simp only [List.mem_cons, List.mem_singleton, List.not_mem_nil, or_false] at hname
  rcases hname with rfl | rfl
  · exact ⟨⟨"salary", "float"⟩, by simp [sample_group], rfl⟩
  · exact ⟨⟨"id", "int"⟩, by simp [sample_group], rfl⟩

/-- Claim C5 at the sample file, for the names `salary`, `id`. -/
theorem project_first_group_witness :
    project sample_fs sample_metadata "test/test.hty" ["salary", "id"]
        = .ok [[1195593728, 1195337728, 1195849728], [1, 2, 3]]
      ∧ ([[1195593728, 1195337728, 1195849728], [1, 2, 3]] : List (List Int)).length
          = ["salary", "id"].length
      ∧ ∀ (k : Nat) (name : String), ["salary", "id"][k]? = some name →
          ∃ (idx : Nat) (cells : List Int) (cpre : List ColumnMeta) (c : ColumnMeta)
              (cpost : List ColumnMeta),
            sample_group.columns = cpre ++ c :: cpost ∧ (∀ c' ∈ cpre, c'.column_name ≠ name)
              ∧ c.column_name = name ∧ idx = cpre.length
              ∧ ([[1195593728, 1195337728, 1195849728], [1, 2, 3]] : List (List Int))[k]?
                  = some cells
              ∧ cells.length = (toInt32 sample_metadata.num_rows).toNat
              ∧ 0 ≤ sample_group.offset + idx * toInt32 sample_metadata.num_rows * 4
              ∧ cells = cells_of_bytes
                  ((sample_file.drop
                      (sample_group.offset + idx * toInt32 sample_metadata.num_rows * 4).toNat).take
                    (4 * (toInt32 sample_metadata.num_rows).toNat)) :=
  ⟨by decide,
    project_first_group sample_fs sample_metadata "test/test.hty" ["salary", "id"]
      sample_file [] [] sample_group
      [[1195593728, 1195337728, 1195849728], [1, 2, 3]]
      (by decide) (by decide) (by simp) sample_group_has_all
      (by decide) (by decide) (by decide)⟩

theorem project_groups_none (file : IStream) (num_rows : Int) (names : List String)
    (groups : List Group) (hnone : ∀ g ∈ groups, ¬ has_all_columns g names) :
    project_groups file num_rows names groups = .error .columns_not_in_same_group := by
  have := project_groups_skip file num_rows names groups [] hnone
  rw [List.append_nil] at this
  rw [this]
  rfl

/-- Claim C6: if no single group contains all requested names, `project` never
returns a table, and on a file that can be opened, with a non-negative row
count, the exception is "Columns not found in the same group"; conversely,
when `g` is the first group containing all names and the file (shorter than
`2^63` bytes) holds the `num_rows` cells of every requested column of `g`,
`project` returns a table. -/
theorem project_group_containment (fs : FileSystem) (metadata : Metadata) (path : String)
    (names : List String) :
    ((∀ g ∈ metadata.groups, ¬ has_all_columns g names) →
        (∀ res, project fs metadata path names ≠ .ok res)
        ∧ (∀ data, fs.files path = some data → 0 ≤ toInt32 metadata.num_rows →
            project fs metadata path names = .error .columns_not_in_same_group))
    ∧ (∀ (data : List Byte) (pre post : List Group) (g : Group),
        fs.files path = some data →
        (data.length : Int) < 9223372036854775808 →
        0 ≤ toInt32 metadata.num_rows →
        metadata.groups = pre ++ g :: post →
        (∀ g' ∈ pre, ¬ has_all_columns g' names) →
        has_all_columns g names →
        (∀ name ∈ names, ∀ idx, column_index g.columns name = some idx →
          0 ≤ g.offset + idx * toInt32 metadata.num_rows * 4
          ∧ g.offset + idx * toInt32 metadata.num_rows * 4 + 4 * toInt32 metadata.num_rows
              ≤ data.length) →
        ∃ res, project fs metadata path names = .ok res) := by
  constructor
  · intro hnone
    have herr : ∀ data, fs.files path = some data → 0 ≤ toInt32 metadata.num_rows →
        project fs metadata path names = .error .columns_not_in_same_group := by
      intro data hfile hn
      rw [project_of_open fs metadata path names data hfile hn]
      exact project_groups_none _ _ _ _ hnone
    refine ⟨?_, herr⟩
    intro res hres
    have hn := project_ok_nonneg fs metadata path names res hres
    cases hf : fs.files path with
    | none => simp [project, hf] at hres
    | some data =>
      rw [herr data hf hn] at hres
      cases hres
  · intro data pre post g hfile hsize hn hgroups hpre hg hbytes
    rw [project_of_open fs metadata path names data hfile hn, hgroups,
      project_groups_skip _ _ _ _ _ hpre, project_groups_hit _ _ _ _ _ hg]
    refine ⟨_, (project_read_ok_iff data g.offset (toInt32 metadata.num_rows) _ 0 _).mpr
      ⟨?_, rfl⟩⟩
    intro p hp
    obtain ⟨name, hname, rfl⟩ := List.mem_map.mp hp
    obtain ⟨idx, hidx⟩ := (has_column_iff g name).mp (hg name hname)
    obtain ⟨h0, hlen⟩ := hbytes name hname idx hidx
    have hex : byte_offset g.offset idx (toInt32 metadata.num_rows)
        = g.offset + idx * toInt32 metadata.num_rows * 4 :=
      byte_offset_exact _ _ _ (by omega) (by omega)
    simp only [hidx, Option.getD_some, hex]
    exact ⟨h0, Or.inr (by omega)⟩

/-- Claim C6 at the sample file: `id` and `bonus` are in no common group, so
the call fails with the group error; `salary` and `id` are in the only group
and the file holds their cells, so the call returns a table. -/
theorem project_group_containment_witness :
    project sample_fs sample_metadata "test/test.hty" ["id", "bonus"]
        = .error .columns_not_in_same_group
      ∧ ∃ res, project sample_fs sample_metadata "test/test.hty" ["salary", "id"] = .ok res :=
  ⟨((project_group_containment sample_fs sample_metadata "test/test.hty" ["id", "bonus"]).1
      (by
        intro g hg hall
        simp only [sample_metadata, List.mem_singleton] at hg
        subst hg
        obtain ⟨c, hc, hname⟩ := hall "bonus" (by simp)
        simp only [sample_group, List.mem_cons, List.mem_singleton, List.not_mem_nil,
          or_false] at hc
        rcases hc with rfl | rfl <;> simp at hname)).2 sample_file (by decide) (by decide),
    (project_group_containment sample_fs sample_metadata "test/test.hty" ["salary", "id"]).2
      sample_file [] [] sample_group (by decide) (by decide) (by decide) (by decide) (by simp)
      sample_group_has_all
      (by
        intro name hname idx hidx
        simp only [List.mem_cons, List.mem_singleton, List.not_mem_nil, or_false] at hname
        rcases hname with rfl | rfl
        · have h1 : column_index sample_group.columns "salary" = some 1 := by decide
          rw [h1] at hidx
          cases hidx
          decide
        · have h0 : column_index sample_group.columns "id" = some 0 := by decide
          rw [h0] at hidx
          cases hidx
          decide)⟩

/-! ## Projection with a filter -/

/-- Claim C7 fails on the code: in the two-group file, `a` lies only in the
first group and `b` only in the second, so no group contains the projected
name `a` together with the filter column `b`; `project_and_filter` does not
fail, for any behaviour of the `float` comparisons it returns the cells of `a`
at the rows where `b < value`. -/
theorem project_and_filter_across_groups (fl : FloatOps) (value : fl.F) :
    (∀ g ∈ two_group_metadata.groups, ¬ has_all_columns g ["a", "b"])
      ∧ project_and_filter fl two_group_fs two_group_metadata "test/two.hty" ["a"] "b" 2 value
          = .ok [(if fl.lt (fl.of_int 10) value then [1] else [])
                  ++ (if fl.lt (fl.of_int 20) value then [2] else [])] := by
  constructor
  · intro g hg hall
    simp only [two_group_metadata, List.mem_cons, List.mem_singleton, List.not_mem_nil,
      or_false] at hg
    rcases hg with rfl | rfl
    · obtain ⟨c, hc, hname⟩ := hall "b" (by simp)
      simp only [List.mem_singleton] at hc
      subst hc
      simp at hname
    · obtain ⟨c, hc, hname⟩ := hall "a" (by simp)
      simp only [List.mem_singleton] at hc
      subst hc
      simp at hname
  · have hp : project two_group_fs two_group_metadata "test/two.hty" ["a"] = .ok [[1, 2]] := by
      decide
    have hc : project_single_column two_group_fs two_group_metadata "test/two.hty" "b"
        = .ok [10, 20] := by decide
    have ht : find_column_type "b" two_group_metadata.groups = "int" := by decide
    have hne : ¬ ("int" = "float") := by decide
    simp only [project_and_filter, hp, filter, hc, ht, filter_loop, compare, hne, if_false]
    cases fl.lt (fl.of_int 10) value <;> cases fl.lt (fl.of_int 20) value <;> decide

/-! ## Appending rows -/

theorem store_files_self (fs : FileSystem) (path : String) (bytes : List Byte) :
    (fs.store path bytes).files path = some bytes := by
  simp [FileSystem.store]

/-- What a successful `add_row` has done. -/
theorem add_row_ok (json : JsonLib) (fs fs' : FileSystem) (metadata : Metadata)
    (src dst : String) (rows : List (List Int))
    (hadd : add_row json fs metadata src dst rows = .ok fs') :
    ∃ existing_data data,
      read_existing fs metadata src (all_columns metadata) = .ok existing_data
      ∧ write_columns rows existing_data 0 = .ok data
      ∧ fs' = fs.store dst (data ++ write_trailer json (updated_metadata metadata rows)) := by
  unfold add_row at hadd
  cases hre : read_existing fs metadata src (all_columns metadata) with
  | error e => simp [hre] at hadd
  | ok existing_data =>
    simp only [hre] at hadd
    by_cases hw : fs.writable dst = true
    · simp only [hw, if_true] at hadd
      cases hwc : write_columns rows existing_data 0 with
      | error e => simp [hwc] at hadd
      | ok data =>
        simp only [hwc, Except.ok.injEq] at hadd
        exact ⟨existing_data, data, rfl, hwc, hadd.symm⟩
    · simp [hw] at hadd

/-- The row count `add_row` stores, when the old count is a non-negative `int`
and the number of rows fits `size_t`. -/
theorem updated_metadata_num_rows (metadata : Metadata) (rows : List (List Int))
    (h0 : 0 ≤ metadata.num_rows) (h1 : metadata.num_rows < 2147483648)
    (hlen : (rows.length : Int) < 9223372036854775808) :
    (updated_metadata metadata rows).num_rows = metadata.num_rows + rows.length := by
  simp only [updated_metadata, toInt32_of_int (by omega : -2147483648 ≤ metadata.num_rows) h1,
    toSizeT]
  omega

theorem updated_metadata_int (metadata : Metadata) (rows : List (List Int)) :
    toInt32 (updated_metadata metadata rows).num_rows
      = toInt32 (toInt32 metadata.num_rows + rows.length) := by
  simp only [updated_metadata, toSizeT]
  generalize toInt32 metadata.num_rows = a
  generalize (rows.length : Int) = b
  unfold toInt32
  simp only
  split <;> split <;> omega

/-- Claim C4: when `add_row` succeeds, `extract_metadata` decodes a document
from the file it wrote; the `int` the program reads from its `num_rows` is the
old `int` plus the number of new rows (the comparison `main` asserts), and
when the old `num_rows` is a non-negative `int` the decoded `num_rows` is
exactly the old `num_rows` plus the number of new rows.  (The JSON library is
assumed to parse its own output for the new document, shorter than `2^31`
bytes, back to it.) -/
theorem add_row_num_rows (json : JsonLib) (unwritten : Int)
    (fs fs' : FileSystem) (metadata : Metadata)
    (src dst : String) (rows : List (List Int))
    (hL : (json.dump (updated_metadata metadata rows)).length < 2147483648)
    (hparse : json.parse (json.dump (updated_metadata metadata rows))
      = some (updated_metadata metadata rows))
    (hadd : add_row json fs metadata src dst rows = .ok fs') :
    ∃ modified_metadata, extract_metadata json fs' dst unwritten = .ok modified_metadata
      ∧ toInt32 modified_metadata.num_rows = toInt32 (toInt32 metadata.num_rows + rows.length)
      ∧ (0 ≤ metadata.num_rows → metadata.num_rows < 2147483648 →
          (rows.length : Int) < 9223372036854775808 →
          modified_metadata.num_rows = metadata.num_rows + rows.length) := by
  obtain ⟨existing_data, data, _, _, hfs⟩ := add_row_ok json fs fs' metadata src dst rows hadd
  refine ⟨updated_metadata metadata rows, ?_, updated_metadata_int metadata rows,
    updated_metadata_num_rows metadata rows⟩
  apply extract_metadata_of_trailer json unwritten fs' dst data _ hL hparse
  rw [hfs, store_files_self]

theorem add_row_sample :
    add_row sample_json sample_fs sample_metadata "test/test.hty" "test/modified_test.hty"
      sample_rows = .ok sample_modified_fs := by
  rfl

/-- Claim C4 at the sample file with one new row. -/
theorem add_row_num_rows_witness :
    add_row sample_json sample_fs sample_metadata "test/test.hty" "test/modified_test.hty"
        sample_rows = .ok sample_modified_fs
      ∧ ∃ modified_metadata,
          extract_metadata sample_json sample_modified_fs "test/modified_test.hty" 0
            = .ok modified_metadata
          ∧ modified_metadata.num_rows = sample_metadata.num_rows + sample_rows.length := by
  obtain ⟨m, hm, _, hexact⟩ := add_row_num_rows sample_json 0 sample_fs sample_modified_fs
    sample_metadata "test/test.hty" "test/modified_test.hty" sample_rows (by decide)
    (by decide) add_row_sample
  exact ⟨add_row_sample, m, hm, hexact (by decide) (by decide) (by decide)⟩

/-! ## Appending to a single-group file -/

/-- A read that the file can satisfy fills the buffer with the file's bytes. -/
theorem read_full (data : List Byte) (pos : Nat) (offset : Int) (n : Nat)
    (h0 : 0 ≤ offset) (hlen : offset.toNat + 4 * n ≤ data.length) :
    ((IStream.seekg ⟨data, pos, false⟩ offset).read (zero_buffer n) (4 * n)).1
      = (data.drop offset.toNat).take (4 * n) := by
  rw [seekg_ok _ _ _ h0, read_ok]
  have hfull : (List.take (4 * n) (List.drop offset.toNat data)).length = 4 * n := by
    simp only [List.length_take, List.length_drop]
    omega
  have hz : List.drop (4 * n) (zero_buffer n) = [] :=
    List.drop_eq_nil_of_le (by rw [zero_buffer_length])
  simp only [hfull, hz, List.append_nil]

theorem int_of_bytes_range (b0 b1 b2 b3 : Byte) :
    -2147483648 ≤ int_of_bytes b0 b1 b2 b3 ∧ int_of_bytes b0 b1 b2 b3 < 2147483648 := by
  unfold int_of_bytes
  exact toInt32_range _

theorem cells_of_bytes_range (bytes : List Byte) :
    ∀ v ∈ cells_of_bytes bytes, -2147483648 ≤ v ∧ v < 2147483648 := by
  induction bytes using cells_of_bytes.induct with
  | case1 b0 b1 b2 b3 rest ih =>
    intro v hv
    simp only [cells_of_bytes, List.mem_cons] at hv
    cases hv with
    | inl h => rw [h]; exact int_of_bytes_range b0 b1 b2 b3
    | inr h => exact ih v h
  | case2 bytes h =>
    rw [cells_of_bytes_short (short_of_no_chunk h)]
    simp

theorem map_toInt32_of_range (cells : List Int)
    (h : ∀ v ∈ cells, -2147483648 ≤ v ∧ v < 2147483648) : cells.map toInt32 = cells := by
  induction cells with
  | nil => rfl
  | cons v rest ih =>
    rw [List.map_cons, toInt32_of_int (h v (List.mem_cons_self _ _)).1
      (h v (List.mem_cons_self _ _)).2, ih (fun w hw => h w (List.mem_cons_of_mem _ hw))]

/-- Cells written and read back are unchanged when they are `int` values. -/
theorem cells_of_bytes_bytes_of_cells (cells : List Int)
    (h : ∀ v ∈ cells, -2147483648 ≤ v ∧ v < 2147483648) :
    cells_of_bytes (bytes_of_cells cells) = cells := by
  have := cells_of_bytes_append cells []
  rw [List.append_nil] at this
  rw [this, map_toInt32_of_range cells h]
  simp [cells_of_bytes]

theorem bytes_of_cells_append (xs ys : List Int) :
    bytes_of_cells (xs ++ ys) = bytes_of_cells xs ++ bytes_of_cells ys := by
  simp [bytes_of_cells]

/-- With pairwise distinct names, the column at position `i` is found at `i`. -/
theorem column_index_of_getElem? (columns : List ColumnMeta)
    (hnd : (columns.map (·.column_name)).Nodup) (i : Nat) (c : ColumnMeta)
    (hi : columns[i]? = some c) : column_index columns c.column_name = some i := by
  induction columns generalizing i with
  | nil => simp at hi
  | cons d rest ih =>
    rw [List.map_cons, List.nodup_cons] at hnd
    cases i with
    | zero =>
      simp only [List.getElem?_cons_zero, Option.some.injEq] at hi
      subst hi
      simp [column_index]
    | succ j =>
      simp only [List.getElem?_cons_succ] at hi
      have hmem : c.column_name ∈ rest.map (·.column_name) :=
        List.mem_map.mpr ⟨c, List.getElem?_mem hi, rfl⟩
      have hne : ¬ d.column_name = c.column_name := fun h => hnd.1 (h ▸ hmem)
      simp [column_index, hne, ih hnd.2 j hi]

theorem read_existing_eq (fs : FileSystem) (metadata : Metadata) (path : String)
    (F : ColumnMeta → List Int) (columns : List ColumnMeta)
    (h : ∀ c ∈ columns, project_single_column fs metadata path c.column_name = .ok (F c)) :
    read_existing fs metadata path columns = .ok (columns.map F) := by
  induction columns with
  | nil => rfl
  | cons c rest ih =>
    simp only [read_existing, h c (List.mem_cons_self _ _),
      ih (fun d hd => h d (List.mem_cons_of_mem _ hd)), List.map_cons]

theorem new_cells_eq (i : Nat) (rows : List (List Int)) (h : ∀ row ∈ rows, i < row.length) :
    new_cells i rows = .ok (appended_cells rows i) := by
  induction rows with
  | nil => rfl
  | cons row rest ih =>
    have hi := h row (List.mem_cons_self _ _)
    have hget : row[i]? = some (row.getD i 0) := by
      rw [List.getD_eq_getElem?_getD, List.getElem?_eq_getElem hi]
      rfl
    simp only [new_cells, hget, ih (fun r hr => h r (List.mem_cons_of_mem _ hr)),
      appended_cells, List.map_cons]

/-- The data region `add_row` writes: for each column in turn, the existing
cells followed by the cells of the new rows. -/
theorem write_columns_range (rows : List (List Int)) (E : Nat → List Int) (m k : Nat)
    (hrows : ∀ row ∈ rows, k + m ≤ row.length) :
    write_columns rows ((List.range' k m).map E) k
      = .ok (((List.range' k m).map
          (fun j => bytes_of_cells (E j ++ appended_cells rows j))).flatten) := by
  induction m generalizing k with
  | zero => rfl
  | succ m ih =>
    have hnew := new_cells_eq k rows (fun row hr => by have := hrows row hr; omega)
    have hrec := ih (k + 1) (fun row hr => by have := hrows row hr; omega)
    simp only [List.range'_succ, List.map_cons, write_columns, hnew, hrec,
      List.flatten_cons, bytes_of_cells_append, List.append_assoc]

/-- In a concatenation of chunks of `w` bytes each, the bytes at `i * w` are
chunk `i`. -/
theorem flatten_chunk (chunk : Nat → List Byte) (w m k i : Nat) (rest : List Byte)
    (hw : ∀ j, k ≤ j → j < k + m → (chunk j).length = w) (hi : i < m) :
    ((((List.range' k m).map chunk).flatten ++ rest).drop (i * w)).take w = chunk (k + i) := by
  induction m generalizing k i with
  | zero => omega
  | succ m ih =>
    have hk : (chunk k).length = w := hw k (by omega) (by omega)
    simp only [List.range'_succ, List.map_cons, List.flatten_cons, List.append_assoc]
    cases i with
    | zero =>
      rw [Nat.zero_mul, List.drop_zero, List.take_left' hk]
      rfl
    | succ i =>
      have hdrop : (i + 1) * w = (chunk k).length + i * w := by
        rw [hk, Nat.add_mul, Nat.one_mul, Nat.add_comm]
      rw [hdrop, List.drop_append, ih (k + 1) i (fun j h1 h2 => hw j (by omega) (by omega))
        (by omega)]
      congr 1
      omega

theorem flatten_chunk_length (chunk : Nat → List Byte) (w m k : Nat)
    (hw : ∀ j, k ≤ j → j < k + m → (chunk j).length = w) :
    (((List.range' k m).map chunk).flatten).length = m * w := by
  induction m generalizing k with
  | zero => simp
  | succ m ih =>
    simp only [List.range'_succ, List.map_cons, List.flatten_cons, List.length_append,
      hw k (by omega) (by omega), ih (k + 1) (fun j h1 h2 => hw j (by omega) (by omega))]
    rw [Nat.add_mul, Nat.one_mul, Nat.add_comm]

/-- With pairwise distinct names, mapping over the columns by the index found
for their names is mapping over the positions. -/
theorem map_by_index {β : Type} (columns : List ColumnMeta)
    (hnd : (columns.map (·.column_name)).Nodup) (G : Nat → β) :
    columns.map (fun c => G ((column_index columns c.column_name).getD 0))
      = (List.range columns.length).map G := by
  apply List.ext_getElem?
  intro i
  rw [List.getElem?_map, List.getElem?_map]
  by_cases hi : i < columns.length
  · rw [List.getElem?_range hi, List.getElem?_eq_getElem hi]
    have := column_index_of_getElem? columns hnd i columns[i] (List.getElem?_eq_getElem hi)
    simp [this]
  · rw [List.getElem?_eq_none (by omega), List.getElem?_eq_none (by simp; omega)]
    rfl

/-- Offsets in a group that starts at offset 0. -/
theorem byte_offset_single (i n C : Nat) (hi : i < C)
    (hbound : ((C * n * 4 : Nat) : Int) < 9223372036854775808) :
    byte_offset 0 i (n : Int) = ((i * n * 4 : Nat) : Int) ∧ i * n * 4 + 4 * n ≤ C * n * 4 := by
  have hmul : i * n + n ≤ C * n := by
    rw [← Nat.succ_mul]
    exact Nat.mul_le_mul_right n hi
  have hin : ((i * n : Nat) : Int) = (i : Int) * (n : Int) := Int.ofNat_mul i n
  refine ⟨?_, by omega⟩
  rw [byte_offset_exact 0 i n (by rw [← hin]; omega) (by rw [← hin]; omega), ← hin]
  omega

theorem column_cells_length (data : List Byte) (n i : Nat)
    (h : i * n * 4 + 4 * n ≤ data.length) : (column_cells data n i).length = n := by
  rw [column_cells, cells_of_bytes_length, List.length_take, List.length_drop]
  omega

/-- The function `project_single_column` on a file with one group at offset 0
and pairwise distinct column names that holds all cells of the group. -/
theorem project_single_column_single_group (fs : FileSystem) (metadata : Metadata)
    (path : String) (data : List Byte) (g : Group) (n i : Nat) (c : ColumnMeta)
    (hfile : fs.files path = some data) (hgroups : metadata.groups = [g])
    (hoff : g.offset = 0) (hnd : (g.columns.map (·.column_name)).Nodup)
    (hN : metadata.num_rows = (n : Int)) (hn : (n : Int) < 2147483648)
    (hdata : g.columns.length * n * 4 ≤ data.length)
    (hbound : ((g.columns.length * n * 4 : Nat) : Int) < 9223372036854775808)
    (hi : g.columns[i]? = some c) :
    project_single_column fs metadata path c.column_name = .ok (column_cells data n i) := by
  have hlt : i < g.columns.length := by
    obtain ⟨h, _⟩ := List.getElem?_eq_some.mp hi
    exact h
  have ht : toInt32 metadata.num_rows = (n : Int) := by
    rw [hN]
    exact toInt32_of_int (by omega) hn
  obtain ⟨hex, hle⟩ := byte_offset_single i n g.columns.length hlt hbound
  rw [project_single_column_eq fs metadata path c.column_name data [] [] g i hfile
    (by rw [hgroups]; rfl) (by simp) (column_index_of_getElem? g.columns hnd i c hi)
    (by rw [ht]; omega), ht, hoff, hex]
  rw [Int.toNat_ofNat, read_full _ _ _ _ (by omega) (by rw [Int.toNat_ofNat]; omega),
    Int.toNat_ofNat]
  rfl

/-- The function `project` for all columns of a file with one group at offset
0 and pairwise distinct column names that holds all cells of the group. -/
theorem project_single_group (fs : FileSystem) (metadata : Metadata)
    (path : String) (data : List Byte) (g : Group) (n : Nat)
    (hfile : fs.files path = some data) (hgroups : metadata.groups = [g])
    (hoff : g.offset = 0) (hnd : (g.columns.map (·.column_name)).Nodup)
    (hN : metadata.num_rows = (n : Int)) (hn : (n : Int) < 2147483648)
    (hdata : g.columns.length * n * 4 ≤ data.length)
    (hbound : ((g.columns.length * n * 4 : Nat) : Int) < 9223372036854775808) :
    project fs metadata path (g.columns.map (·.column_name))
      = .ok ((List.range g.columns.length).map (column_cells data n)) := by
  have ht : toInt32 metadata.num_rows = (n : Int) := by
    rw [hN]
    exact toInt32_of_int (by omega) hn
  have hall : has_all_columns g (g.columns.map (·.column_name)) := by
    intro name hname
    obtain ⟨c, hc, rfl⟩ := List.mem_map.mp hname
    exact ⟨c, hc, rfl⟩
  have hoffs : ∀ idx, idx < g.columns.length →
      byte_offset g.offset idx (n : Int) = ((idx * n * 4 : Nat) : Int)
        ∧ idx * n * 4 + 4 * n ≤ data.length := by
    intro idx hidx
    obtain ⟨hex, hle⟩ := byte_offset_single idx n g.columns.length hidx hbound
    rw [hoff]
    exact ⟨hex, by omega⟩
  rw [project_of_open fs metadata path _ data hfile (by rw [ht]; omega), hgroups,
    project_groups_hit _ _ _ _ _ hall, ht]
  rw [(project_read_ok_iff data g.offset (n : Int) _ 0 _).mpr ⟨?_, rfl⟩]
  · rw [List.map_map, List.map_map]
    have := map_by_index g.columns hnd (fun idx => cells_of_bytes
      ((data.drop (byte_offset g.offset idx (n : Int)).toNat).take (4 * ((n : Int)).toNat)))
    simp only [Function.comp_def]
    rw [this]
    congr 1
    apply List.map_congr_left
    intro idx hidx
    rw [(hoffs idx (List.mem_range.mp hidx)).1, Int.toNat_ofNat, Int.toNat_ofNat]
    rfl
  · intro p hp
    obtain ⟨name, hname, rfl⟩ := List.mem_map.mp hp
    obtain ⟨idx, hidx⟩ := (has_column_iff g name).mp (hall name hname)
    obtain ⟨hex, hle⟩ := hoffs idx (column_index_lt hidx)
    simp only [hidx, Option.getD_some, hex, Int.toNat_ofNat]
    exact ⟨by omega, Or.inr hle⟩

theorem appended_cells_range (rows : List (List Int)) (i : Nat)
    (hcells : ∀ row ∈ rows, ∀ v ∈ row, -2147483648 ≤ v ∧ v < 2147483648) :
    ∀ v ∈ appended_cells rows i, -2147483648 ≤ v ∧ v < 2147483648 := by
  intro v hv
  obtain ⟨row, hrow, rfl⟩ := List.mem_map.mp hv
  rw [List.getD_eq_getElem?_getD]
  cases h : row[i]? with
  | none => simp
  | some w => exact hcells row hrow w (List.getElem?_mem h)

theorem appended_cells_length (rows : List (List Int)) (i : Nat) :
    (appended_cells rows i).length = rows.length := by
  simp [appended_cells]

/-- Claim C3: for a file whose metadata has a single group at offset 0 with
pairwise distinct column names and whose data region holds `num_rows` cells
per column, and new rows of one `int` cell per column, `add_row` succeeds and,
with `modified_metadata = extract_metadata(dst)` and `all_columns` its
flattened column names, column `i` of `project(modified_metadata, dst,
all_columns)` is column `i` of `project(metadata, src, all_columns)` followed
by `rows[0][i], rows[1][i], ...`.  (The new row count is assumed to fit `int`,
the data region to be shorter than `2^63` bytes, the destination to be
writable, and the JSON library to parse its own output for the new document,
shorter than `2^31` bytes, back to it.) -/
theorem add_row_single_group (json : JsonLib) (unwritten : Int)
    (fs : FileSystem) (metadata : Metadata)
    (src dst : String) (rows : List (List Int)) (file : List Byte) (g : Group)
    (hgroups : metadata.groups = [g]) (hoff : g.offset = 0)
    (hnd : (g.columns.map (·.column_name)).Nodup)
    (hfile : fs.files src = some file)
    (h0 : 0 ≤ metadata.num_rows)
    (hdata : (g.columns.length : Int) * metadata.num_rows * 4 ≤ file.length)
    (hrowlen : ∀ row ∈ rows, row.length = g.columns.length)
    (hcells : ∀ row ∈ rows, ∀ v ∈ row, -2147483648 ≤ v ∧ v < 2147483648)
    (hfit : metadata.num_rows + rows.length < 2147483648)
    (hsize : (g.columns.length : Int) * (metadata.num_rows + rows.length) * 4
      < 9223372036854775808)
    (hw : fs.writable dst = true)
    (hL : (json.dump (updated_metadata metadata rows)).length < 2147483648)
    (hparse : json.parse (json.dump (updated_metadata metadata rows))
      = some (updated_metadata metadata rows)) :
    ∃ (fs' : FileSystem) (modified_metadata : Metadata)
        (original_data modified_data : List (List Int)),
      add_row json fs metadata src dst rows = .ok fs'
        ∧ extract_metadata json fs' dst unwritten = .ok modified_metadata
        ∧ project fs metadata src ((all_columns modified_metadata).map (·.column_name))
            = .ok original_data
        ∧ project fs' modified_metadata dst
            ((all_columns modified_metadata).map (·.column_name)) = .ok modified_data
        ∧ original_data.length = g.columns.length
        ∧ modified_data.length = g.columns.length
        ∧ ∀ i, i < g.columns.length →
            ∃ column, original_data[i]? = some column
              ∧ modified_data[i]? = some (column ++ rows.map (fun row => row.getD i 0)) := by
  obtain ⟨n, hN⟩ := Int.eq_ofNat_of_zero_le h0
  have hn : (n : Int) < 2147483648 := by omega
  have hcn : ((g.columns.length * n : Nat) : Int) = (g.columns.length : Int) * (n : Int) :=
    Int.ofNat_mul _ _
  have hcn' : ((g.columns.length * (n + rows.length) : Nat) : Int)
      = (g.columns.length : Int) * (metadata.num_rows + rows.length) := by
    rw [hN]
    push_cast
    ring
  have hmono : g.columns.length * n ≤ g.columns.length * (n + rows.length) :=
    Nat.mul_le_mul_left _ (by omega)
  have hdataN : g.columns.length * n * 4 ≤ file.length := by
    rw [hN, ← hcn] at hdata
    omega
  have hboundN : ((g.columns.length * n * 4 : Nat) : Int) < 9223372036854775808 := by
    rw [← hcn'] at hsize
    omega
  have hboundN' : ((g.columns.length * (n + rows.length) * 4 : Nat) : Int)
      < 9223372036854775808 := by
    rw [← hcn'] at hsize
    omega
  -- the source columns and the data region written
  have hcols : all_columns metadata = g.columns := by simp [all_columns, hgroups]
  have hgroups' : (updated_metadata metadata rows).groups = [g] := hgroups
  have hcols' : all_columns (updated_metadata metadata rows) = g.columns := by
    simp [all_columns, hgroups']
  have hnum : (updated_metadata metadata rows).num_rows = ((n + rows.length : Nat) : Int) := by
    rw [updated_metadata_num_rows metadata rows h0 (by omega) (by omega), hN]
    push_cast
    rfl
  have hexisting : read_existing fs metadata src g.columns
      = .ok ((List.range g.columns.length).map (column_cells file n)) := by
    rw [read_existing_eq fs metadata src
      (fun c => column_cells file n ((column_index g.columns c.column_name).getD 0))
      g.columns ?_, map_by_index g.columns hnd (column_cells file n)]
    intro c hc
    obtain ⟨i, hi⟩ := List.mem_iff_getElem?.mp hc
    simp only [column_index_of_getElem? g.columns hnd i c hi, Option.getD_some]
    exact project_single_column_single_group fs metadata src file g n i c hfile hgroups hoff
      hnd hN hn hdataN hboundN hi
  have hwrite : write_columns rows ((List.range g.columns.length).map (column_cells file n)) 0
      = .ok (((List.range' 0 g.columns.length).map
          (fun j => bytes_of_cells (column_cells file n j ++ appended_cells rows j))).flatten) := by
    rw [List.range_eq_range']
    exact write_columns_range rows (column_cells file n) g.columns.length 0
      (fun row hr => by rw [hrowlen row hr]; omega)
  have hadd : add_row json fs metadata src dst rows
      = .ok (fs.store dst
          (((List.range' 0 g.columns.length).map
              (fun j => bytes_of_cells (column_cells file n j ++ appended_cells rows j))).flatten
            ++ write_trailer json (updated_metadata metadata rows))) := by
    simp only [add_row, hcols, hexisting, hw, hwrite, if_true]
  have hmeta := extract_metadata_of_trailer json unwritten
    (fs.store dst
      (((List.range' 0 g.columns.length).map
          (fun j => bytes_of_cells (column_cells file n j ++ appended_cells rows j))).flatten
        ++ write_trailer json (updated_metadata metadata rows))) dst _
    (updated_metadata metadata rows) hL hparse (store_files_self _ _ _)
  -- every chunk of the new data region has `4 * (n + rows.length)` bytes
  have hchunk : ∀ j, 0 ≤ j → j < 0 + g.columns.length →
      (bytes_of_cells (column_cells file n j ++ appended_cells rows j)).length
        = 4 * (n + rows.length) := by
    intro j _ hj
    have hle := (byte_offset_single j n g.columns.length (by omega) hboundN).2
    rw [bytes_of_cells_length, List.length_append, appended_cells_length,
      column_cells_length file n j (by omega)]
  have hdlen := flatten_chunk_length
    (fun j => bytes_of_cells (column_cells file n j ++ appended_cells rows j))
    (4 * (n + rows.length)) g.columns.length 0 hchunk
  have horig := project_single_group fs metadata src file g n hfile hgroups hoff hnd hN hn
    hdataN hboundN
  have hmod := project_single_group
    (fs.store dst
      (((List.range' 0 g.columns.length).map
          (fun j => bytes_of_cells (column_cells file n j ++ appended_cells rows j))).flatten
        ++ write_trailer json (updated_metadata metadata rows)))
    (updated_metadata metadata rows) dst _ g (n + rows.length) (store_files_self _ _ _)
    hgroups' hoff hnd hnum (by push_cast; omega)
    (by
      rw [List.length_append, hdlen]
      have : g.columns.length * (n + rows.length) * 4
          = g.columns.length * (4 * (n + rows.length)) := by
        rw [Nat.mul_assoc, Nat.mul_comm (n + rows.length) 4]
      omega)
    hboundN'
  refine ⟨_, _, _, _, hadd, hmeta, by rw [hcols']; exact horig, by rw [hcols']; exact hmod,
    by simp, by simp, ?_⟩
  intro i hi
  refine ⟨column_cells file n i, by simp [List.getElem?_range hi], ?_⟩
  rw [List.getElem?_map, List.getElem?_range hi, Option.map_some']
  congr 1
  have hmul : i * (n + rows.length) * 4 = i * (4 * (n + rows.length)) := by
    rw [Nat.mul_assoc, Nat.mul_comm (n + rows.length) 4]
  rw [column_cells, hmul, flatten_chunk
    (fun j => bytes_of_cells (column_cells file n j ++ appended_cells rows j))
    (4 * (n + rows.length)) g.columns.length 0 i _ hchunk hi, Nat.zero_add]
  apply cells_of_bytes_bytes_of_cells
  intro v hv
  rcases List.mem_append.mp hv with h | h
  · exact cells_of_bytes_range _ v h
  · exact appended_cells_range rows i hcells v h

/-- Claim C3 at the sample file with the new row `(4, 48000.0)`. -/
theorem add_row_single_group_witness :
    project sample_modified_fs ⟨4, sample_metadata.groups⟩ "test/modified_test.hty"
        ["id", "salary"]
        = .ok [[1, 2, 3, 4], [1195593728, 1195337728, 1195849728, 1195081728]]
      ∧ ∃ (fs' : FileSystem) (modified_metadata : Metadata)
          (original_data modified_data : List (List Int)),
        add_row sample_json sample_fs sample_metadata "test/test.hty" "test/modified_test.hty"
            sample_rows = .ok fs'
          ∧ extract_metadata sample_json fs' "test/modified_test.hty" 0 = .ok modified_metadata
          ∧ project sample_fs sample_metadata "test/test.hty"
              ((all_columns modified_metadata).map (·.column_name)) = .ok original_data
          ∧ project fs' modified_metadata "test/modified_test.hty"
              ((all_columns modified_metadata).map (·.column_name)) = .ok modified_data
          ∧ original_data.length = 2
          ∧ modified_data.length = 2
          ∧ ∀ i, i < 2 →
              ∃ column, original_data[i]? = some column
                ∧ modified_data[i]? = some (column ++ sample_rows.map (fun row => row.getD i 0)) :=
  ⟨by decide,
    add_row_single_group sample_json 0 sample_fs sample_metadata "test/test.hty"
      "test/modified_test.hty" sample_rows sample_file sample_group rfl rfl (by decide) (by decide) (by decide)
      (by decide) (by decide) (by decide) (by decide) (by decide) (by decide) (by decide)
      (by decide)⟩

/-- Claim C2 fails on the code: appending the row `(3, 30)` to the two-group
file leaves the second group's offset at 8 although column `a` now occupies 12
bytes, so `project_single_column` on the new file returns `[3, 10, 20]` for
`b`: its first two cells are not the old column `[10, 20]` and its last cell
is not the appended value 30. -/
theorem add_row_two_groups :
    add_row sample_json two_group_fs two_group_metadata "test/two.hty" "test/two_modified.hty"
        [[3, 30]] = .ok two_group_modified_fs
      ∧ extract_metadata sample_json two_group_modified_fs "test/two_modified.hty" 0
          = .ok ⟨3, two_group_metadata.groups⟩
      ∧ project_single_column two_group_fs two_group_metadata "test/two.hty" "b"
          = .ok [10, 20]
      ∧ project_single_column two_group_modified_fs ⟨3, two_group_metadata.groups⟩
          "test/two_modified.hty" "b" = .ok [3, 10, 20] :=
  ⟨rfl, by decide, by decide, by decide⟩

/-! ## Offset arithmetic -/

/-- Claim C17: the byte offset `project_single_column` and `project` compute
for column `i` (`byte_offset`, the one computation both call) is exactly
`group.offset + i * num_rows * 4` as a mathematical integer, for every
non-negative row count, every column index and every group offset (a JSON
integer, so not below `-2^63`) whose result is below `2^63`; consequently the
offsets of three consecutive columns differ by `num_rows * 4`. -/
theorem byte_offset_no_overflow (group_offset : Int) (i : Nat) (num_rows : Int)
    (h0 : 0 ≤ num_rows) (hlo : -9223372036854775808 ≤ group_offset)
    (hhi : group_offset + i * num_rows * 4 < 9223372036854775808) :
    byte_offset group_offset i num_rows = group_offset + i * num_rows * 4
      ∧ (group_offset + (i + 2 : Nat) * num_rows * 4 < 9223372036854775808 →
          byte_offset group_offset (i + 2) num_rows - byte_offset group_offset (i + 1) num_rows
              = num_rows * 4
            ∧ num_rows * 4
              = byte_offset group_offset (i + 1) num_rows - byte_offset group_offset i num_rows) := by
  have hin : 0 ≤ (i : Int) * num_rows := Int.mul_nonneg (by omega) h0
  have h1 : ((i + 1 : Nat) : Int) * num_rows = i * num_rows + num_rows := by
    push_cast
    ring
  have h2 : ((i + 2 : Nat) : Int) * num_rows = i * num_rows + 2 * num_rows := by
    push_cast
    ring
  have hi := byte_offset_exact group_offset i num_rows (by omega) hhi
  refine ⟨hi, ?_⟩
  intro hhi2
  rw [h2] at hhi2
  rw [hi, byte_offset_exact group_offset (i + 1) num_rows (by rw [h1]; omega) (by rw [h1]; omega),
    byte_offset_exact group_offset (i + 2) num_rows (by rw [h2]; omega) (by rw [h2]; omega),
    h1, h2]
  constructor <;> ring

/-- Claim C17 at column 3 of a group at offset 0 with `2^30` rows: the offset
is `3 * 2^32`, not its remainder modulo `2^32`. -/
theorem byte_offset_no_overflow_witness :
    byte_offset 0 3 1073741824 = 12884901888
      ∧ byte_offset 0 3 1073741824 ≠ 12884901888 % 4294967296 := by
  have h := (byte_offset_no_overflow 0 3 1073741824 (by decide) (by decide) (by decide)).1
  refine ⟨by rw [h]; decide, by rw [h]; decide⟩

/-! ## Projection correctness -/

/-- In a group whose cells the file holds, every column's offset is exact and
its cells can be read. -/
theorem byte_offset_in_file (data : List Byte) (group_offset : Int) (idx columns : Nat)
    (num_rows : Int) (h0 : 0 ≤ group_offset) (hn : 0 ≤ num_rows) (hidx : idx < columns)
    (hbytes : group_offset + columns * num_rows * 4 ≤ data.length)
    (hsize : (data.length : Int) < 9223372036854775808) :
    byte_offset group_offset idx num_rows = group_offset + idx * num_rows * 4
      ∧ column_readable data (byte_offset group_offset idx num_rows) num_rows.toNat := by
  have hmul : ((idx : Int) + 1) * num_rows ≤ (columns : Int) * num_rows :=
    Int.mul_le_mul_of_nonneg_right (by omega) hn
  have hexp : ((idx : Int) + 1) * num_rows = idx * num_rows + num_rows := by ring
  have hnn : 0 ≤ (idx : Int) * num_rows := Int.mul_nonneg (by omega) hn
  rw [hexp] at hmul
  have hex := byte_offset_exact group_offset idx num_rows (by omega) (by omega)
  refine ⟨hex, ?_⟩
  rw [hex]
  exact ⟨by omega, Or.inr (by omega)⟩

/-- The cells `project_single_column` returns when the column can be read. -/
theorem project_single_column_readable (fs : FileSystem) (metadata : Metadata)
    (path name : String) (data : List Byte) (pre post : List Group) (g : Group) (i : Nat)
    (hfile : fs.files path = some data)
    (hgroups : metadata.groups = pre ++ g :: post)
    (hpre : ∀ g' ∈ pre, ∀ c ∈ g'.columns, c.column_name ≠ name)
    (hidx : column_index g.columns name = some i)
    (hn : 0 ≤ toInt32 metadata.num_rows)
    (hread : column_readable data (byte_offset g.offset i (toInt32 metadata.num_rows))
      (toInt32 metadata.num_rows).toNat) :
    project_single_column fs metadata path name
      = .ok (cells_of_bytes
          ((data.drop (byte_offset g.offset i (toInt32 metadata.num_rows)).toNat).take
            (4 * (toInt32 metadata.num_rows).toNat))) := by
  rw [project_single_column_eq fs metadata path name data pre post g i hfile hgroups hpre hidx hn]
  rcases hread.2 with hz | hle
  · rw [seekg_ok _ _ _ hread.1, read_ok, hz]
    simp [zero_buffer]
  · rw [read_full _ _ _ _ hread.1 hle]

/-- The table `project` returns for the first group that contains all names,
when every requested column can be read. -/
theorem project_readable (fs : FileSystem) (metadata : Metadata) (path : String)
    (names : List String) (data : List Byte) (pre post : List Group) (g : Group)
    (hfile : fs.files path = some data)
    (hgroups : metadata.groups = pre ++ g :: post)
    (hpre : ∀ g' ∈ pre, ¬ has_all_columns g' names)
    (hg : has_all_columns g names)
    (hn : 0 ≤ toInt32 metadata.num_rows)
    (hread : ∀ name ∈ names, ∀ idx, column_index g.columns name = some idx →
      column_readable data (byte_offset g.offset idx (toInt32 metadata.num_rows))
        (toInt32 metadata.num_rows).toNat) :
    project fs metadata path names
      = .ok (names.map (fun name => cells_of_bytes
          ((data.drop (byte_offset g.offset ((column_index g.columns name).getD 0)
              (toInt32 metadata.num_rows)).toNat).take
            (4 * (toInt32 metadata.num_rows).toNat)))) := by
  rw [project_of_open fs metadata path names data hfile hn, hgroups,
    project_groups_skip _ _ _ _ _ hpre, project_groups_hit _ _ _ _ _ hg]
  rw [(project_read_ok_iff data g.offset (toInt32 metadata.num_rows) _ 0 _).mpr ⟨?_, rfl⟩]
  · rw [List.map_map]
    rfl
  · intro p hp
    obtain ⟨name, hname, rfl⟩ := List.mem_map.mp hp
    obtain ⟨idx, hidx⟩ := (has_column_iff g name).mp (hg name hname)
    simp only [hidx, Option.getD_some]
    exact hread name hname idx hidx

theorem has_all_own_columns (g : Group) :
    has_all_columns g (g.columns.map (·.column_name)) := by
  intro name hname
  obtain ⟨c, hc, rfl⟩ := List.mem_map.mp hname
  exact ⟨c, hc, rfl⟩

/-- Claim C11 (projection correctness): for a single-group file that holds all
the bytes its metadata implies (`num_rows`, as the `int` the program reads,
non-negative; the file shorter than `2^63` bytes), with `all_names` the
group's column names in order and `name` the name of a column, whose first
position in `all_names` is `cpre.length`: both calls return, and row `i` of
`project_single_column(name)` is row `i` of column `index_of(name)` of
`project(all_names)`, for every `i < num_rows`. -/
theorem projection_correctness (fs : FileSystem) (metadata : Metadata) (path name : String)
    (data : List Byte) (g : Group) (cpre cpost : List ColumnMeta) (c : ColumnMeta)
    (hfile : fs.files path = some data)
    (hsize : (data.length : Int) < 9223372036854775808)
    (hgroups : metadata.groups = [g])
    (hn : 0 ≤ toInt32 metadata.num_rows)
    (h0 : 0 ≤ g.offset)
    (hbytes : g.offset + g.columns.length * toInt32 metadata.num_rows * 4 ≤ data.length)
    (hcols : g.columns = cpre ++ c :: cpost)
    (hcpre : ∀ c' ∈ cpre, c'.column_name ≠ name)
    (hc : c.column_name = name) :
    ∃ (cells : List Int) (table : List (List Int)),
      project_single_column fs metadata path name = .ok cells
        ∧ project fs metadata path (g.columns.map (·.column_name)) = .ok table
        ∧ cells.length = (toInt32 metadata.num_rows).toNat
        ∧ table[cpre.length]? = some cells
        ∧ ∀ i, i < (toInt32 metadata.num_rows).toNat →
            ∃ v, cells[i]? = some v ∧ (table[cpre.length]?.bind (·[i]?)) = some v := by
  have hidx := column_index_first hcols hcpre hc
  have hoffs : ∀ idx, idx < g.columns.length →
      column_readable data (byte_offset g.offset idx (toInt32 metadata.num_rows))
        (toInt32 metadata.num_rows).toNat := fun idx hlt =>
    (byte_offset_in_file data g.offset idx g.columns.length _ h0 hn hlt hbytes hsize).2
  have hpsc := project_single_column_readable fs metadata path name data [] [] g cpre.length
    hfile (by rw [hgroups]; rfl) (by simp) hidx hn (hoffs _ (column_index_lt hidx))
  have hproj := project_readable fs metadata path (g.columns.map (·.column_name)) data [] [] g
    hfile (by rw [hgroups]; rfl) (by simp) (has_all_own_columns g) hn
    (fun nm _ idx h => hoffs idx (column_index_lt h))
  have hlen : (cells_of_bytes
      ((data.drop (byte_offset g.offset cpre.length (toInt32 metadata.num_rows)).toNat).take
        (4 * (toInt32 metadata.num_rows).toNat))).length = (toInt32 metadata.num_rows).toNat := by
    have hr := hoffs _ (column_index_lt hidx)
    rw [cells_of_bytes_length, List.length_take, List.length_drop]
    rcases hr.2 with hz | hle
    · rw [hz]
      simp
    · omega
  have htab : (List.map (fun name => cells_of_bytes
        ((data.drop (byte_offset g.offset ((column_index g.columns name).getD 0)
            (toInt32 metadata.num_rows)).toNat).take (4 * (toInt32 metadata.num_rows).toNat)))
        (g.columns.map (·.column_name)))[cpre.length]?
      = some (cells_of_bytes
          ((data.drop (byte_offset g.offset cpre.length (toInt32 metadata.num_rows)).toNat).take
            (4 * (toInt32 metadata.num_rows).toNat))) := by
    have hget : g.columns[cpre.length]? = some c := by
      rw [hcols, List.getElem?_append_right (Nat.le_refl _), Nat.sub_self,
        List.getElem?_cons_zero]
    rw [List.getElem?_map, List.getElem?_map, hget]
    simp only [Option.map_some', hc, hidx, Option.getD_some]
  refine ⟨_, _, hpsc, hproj, hlen, htab, ?_⟩
  intro i hi
  rw [htab]
  have hlt : i < (cells_of_bytes
      ((data.drop (byte_offset g.offset cpre.length (toInt32 metadata.num_rows)).toNat).take
        (4 * (toInt32 metadata.num_rows).toNat))).length := by
    rw [hlen]
    exact hi
  exact ⟨_, List.getElem?_eq_getElem hlt, by simp [List.getElem?_eq_getElem hlt]⟩

/-- Claim C11 at the sample file, for the column `salary`. -/
theorem projection_correctness_witness :
    project_single_column sample_fs sample_metadata "test/test.hty" "salary"
        = .ok [1195593728, 1195337728, 1195849728]
      ∧ project sample_fs sample_metadata "test/test.hty" ["id", "salary"]
        = .ok [[1, 2, 3], [1195593728, 1195337728, 1195849728]]
      ∧ ∃ (cells : List Int) (table : List (List Int)),
        project_single_column sample_fs sample_metadata "test/test.hty" "salary" = .ok cells
          ∧ project sample_fs sample_metadata "test/test.hty"
              (sample_group.columns.map (·.column_name)) = .ok table
          ∧ cells.length = (toInt32 sample_metadata.num_rows).toNat
          ∧ table[1]? = some cells
          ∧ ∀ i, i < (toInt32 sample_metadata.num_rows).toNat →
              ∃ v, cells[i]? = some v ∧ (table[1]?.bind (·[i]?)) = some v :=
  ⟨by decide, by decide,
    projection_correctness sample_fs sample_metadata "test/test.hty" "salary" sample_file
      sample_group [⟨"id", "int"⟩] [] ⟨"salary", "float"⟩ (by decide) (by decide) rfl
      (by decide) (by decide) (by decide) rfl (by decide) rfl⟩

/-! ## Filtering: lemmas -/

theorem compare_valid (fl : FloatOps) (operation : Int) (column_type : String) (a : Int)
    (b : fl.F) (h0 : 0 ≤ operation) (h5 : operation ≤ 5) :
    ∃ keep, compare fl operation column_type a b = .ok keep := by
  have h : operation = 0 ∨ operation = 1 ∨ operation = 2 ∨ operation = 3 ∨ operation = 4
      ∨ operation = 5 := by omega
  rcases h with rfl | rfl | rfl | rfl | rfl | rfl <;> exact ⟨_, rfl⟩

theorem compare_invalid (fl : FloatOps) (operation : Int) (column_type : String) (a : Int)
    (b : fl.F) (h : operation < 0 ∨ 5 < operation) :
    compare fl operation column_type a b = .error .invalid_operation := by
  unfold compare
  generalize (if column_type = "float" then fl.of_bits a else fl.of_int a) = x
  dsimp only
  split <;> first | rfl | omega

/-- The indices `filter_loop` returns: ascending, inside the rows scanned, and
exactly those of the rows the comparison keeps. -/
theorem filter_loop_spec (cmp : Int → Except Error Bool) (cells : List Int) (k : Nat)
    (res : List Int) (hk : k + cells.length ≤ 2147483648)
    (h : filter_loop cmp cells k = .ok res) :
    res.Pairwise (· < ·)
      ∧ (∀ x ∈ res, (k : Int) ≤ x ∧ x < k + cells.length)
      ∧ ∀ (j : Nat) (a : Int), cells[j]? = some a →
          (((k + j : Nat) : Int) ∈ res ↔ cmp a = .ok true) := by
  induction cells generalizing k res with
  | nil =>
    simp only [filter_loop, Except.ok.injEq] at h
    subst h
    simp
  | cons a rest ih =>
    simp only [List.length_cons] at hk
    unfold filter_loop at h
    cases hc : cmp a with
    | error e => simp [hc] at h
    | ok keep =>
      cases hr : filter_loop cmp rest (k + 1) with
      | error e => simp [hc, hr] at h
      | ok res' =>
        simp only [hc, hr, Except.ok.injEq] at h
        obtain ⟨hpw, hrange, hmem⟩ := ih (k + 1) res' (by omega) hr
        have hkk : toInt32 (k : Int) = k := toInt32_of_int (by omega) (by omega)
        have hnot : ((k : Nat) : Int) ∉ res' := fun hin => by
          have := (hrange _ hin).1
          omega
        cases keep with
        | false =>
          simp only [Bool.false_eq_true, if_false] at h
          subst h
          refine ⟨hpw, ?_, ?_⟩
          · intro x hx
            have := hrange x hx
            simp only [List.length_cons]
            omega
          · intro j b hj
            cases j with
            | zero =>
              simp only [List.getElem?_cons_zero, Option.some.injEq] at hj
              subst hj
              simp [hc, hnot]
            | succ j =>
              simp only [List.getElem?_cons_succ] at hj
              have := hmem j b hj
              have he : k + (j + 1) = k + 1 + j := by omega
              rw [he]
              exact this
        | true =>
          simp only [if_true, hkk] at h
          subst h
          refine ⟨?_, ?_, ?_⟩
          · rw [List.pairwise_cons]
            refine ⟨?_, hpw⟩
            intro x hx
            have := (hrange x hx).1
            omega
          · intro x hx
            simp only [List.length_cons]
            rcases List.mem_cons.mp hx with rfl | hx
            · omega
            · have := hrange x hx
              omega
          · intro j b hj
            cases j with
            | zero =>
              simp only [List.getElem?_cons_zero, Option.some.injEq] at hj
              subst hj
              simp [hc]
            | succ j =>
              simp only [List.getElem?_cons_succ] at hj
              have := hmem j b hj
              have he : k + (j + 1) = k + 1 + j := by omega
              rw [he, List.mem_cons]
              constructor
              · rintro (h1 | h1)
                · omega
                · exact this.mp h1
              · intro h1
                exact Or.inr (this.mpr h1)

theorem filter_loop_total (cmp : Int → Except Error Bool) (cells : List Int) (k : Nat)
    (h : ∀ a ∈ cells, ∃ keep, cmp a = .ok keep) :
    ∃ res, filter_loop cmp cells k = .ok res := by
  induction cells generalizing k with
  | nil => exact ⟨[], rfl⟩
  | cons a rest ih =>
    obtain ⟨keep, hk⟩ := h a (List.mem_cons_self _ _)
    obtain ⟨res, hr⟩ := ih (k + 1) (fun b hb => h b (List.mem_cons_of_mem _ hb))
    exact ⟨if keep then toInt32 k :: res else res, by simp only [filter_loop, hk, hr]⟩

theorem project_single_column_scan_length (file_data : List Byte) (num_rows : Int)
    (name : String) (groups : List Group) (cells : List Int)
    (h : project_single_column_scan ⟨file_data, 0, false⟩ num_rows name groups = .ok cells) :
    0 ≤ num_rows ∧ cells.length = num_rows.toNat := by
  induction groups with
  | nil => simp [project_single_column_scan] at h
  | cons g rest ih =>
    unfold project_single_column_scan at h
    cases hi : column_index g.columns name with
    | none =>
      simp only [hi] at h
      exact ih h
    | some i =>
      simp only [hi] at h
      by_cases hneg : num_rows < 0
      · simp [hneg] at h
      · simp only [hneg, if_false, Except.ok.injEq] at h
        subst h
        exact ⟨by omega, read_column_length _ _ _ _⟩

/-- A column `project_single_column` returns has `num_rows` cells. -/
theorem project_single_column_length (fs : FileSystem) (metadata : Metadata)
    (path name : String) (cells : List Int)
    (h : project_single_column fs metadata path name = .ok cells) :
    0 ≤ toInt32 metadata.num_rows ∧ cells.length = (toInt32 metadata.num_rows).toNat := by
  unfold project_single_column at h
  cases hf : fs.files path with
  | none => simp [hf] at h
  | some data =>
    simp only [hf, IStream.open_] at h
    exact project_single_column_scan_length data _ name _ cells h

theorem filter_of_column (fl : FloatOps) (fs : FileSystem) (metadata : Metadata)
    (path column : String) (operation : Int) (threshold : fl.F) (cells : List Int)
    (hcol : project_single_column fs metadata path column = .ok cells) :
    filter fl fs metadata path column operation threshold
      = filter_loop (fun a => compare fl operation (find_column_type column metadata.groups)
          a threshold) cells 0 := by
  simp only [filter, hcol]

set_option maxRecDepth 4000

/-- With an operator code outside 0..5, `filter` throws "Invalid operation"
when the column has a row, and returns no index when it has none. -/
theorem filter_invalid_operation (fl : FloatOps) (fs : FileSystem) (metadata : Metadata)
    (path column : String) (operation : Int) (threshold : fl.F) (cells : List Int)
    (hcol : project_single_column fs metadata path column = .ok cells)
    (hop : operation < 0 ∨ 5 < operation) :
    filter fl fs metadata path column operation threshold
      = if cells = [] then .ok [] else .error .invalid_operation := by
  rw [filter_of_column fl fs metadata path column operation threshold cells hcol]
  cases cells with
  | nil => rfl
  | cons a rest =>
    simp only [filter_loop, compare_invalid fl operation _ a threshold hop]
    rfl

/-- Claim C13 fails on the code: with operator code 7 and the column `salary`
of a file with no rows, `filter` returns the empty list of indices instead of
failing (the operator is only examined when a row is compared); on the sample
file, which has rows, the same call throws "Invalid operation". -/
theorem filter_invalid_operation_no_rows (fl : FloatOps) (threshold : fl.F) :
    project_single_column empty_fs empty_metadata "test/empty.hty" "salary" = .ok []
      ∧ filter fl empty_fs empty_metadata "test/empty.hty" "salary" 7 threshold = .ok []
      ∧ filter fl sample_fs sample_metadata "test/test.hty" "salary" 7 threshold
          = .error .invalid_operation := by
  have he : project_single_column empty_fs empty_metadata "test/empty.hty" "salary" = .ok [] := by
    decide
  have hs : project_single_column sample_fs sample_metadata "test/test.hty" "salary"
      = .ok [1195593728, 1195337728, 1195849728] := by decide
  refine ⟨he, ?_, ?_⟩
  · rw [filter_invalid_operation fl _ _ _ _ 7 threshold [] he (by decide)]
    rfl
  · rw [filter_invalid_operation fl _ _ _ _ 7 threshold _ hs (by decide)]
    rfl

/-! ## Projection with a filter: the gathered table -/

/-- A table `project_groups` returns was read from a group that contains every
requested name. -/
theorem project_groups_ok (file : IStream) (num_rows : Int) (names : List String)
    (groups : List Group) (table : List (List Int))
    (h : project_groups file num_rows names groups = .ok table) :
    ∃ g ∈ groups, has_all_columns g names
      ∧ project_read file g.offset num_rows
          (names.map (fun name => ((column_index g.columns name).getD 0, name))) = .ok table := by
  induction groups with
  | nil => simp [project_groups] at h
  | cons g rest ih =>
    by_cases hlen : (column_indices g names).length = names.length
    · have hg := (column_indices_length_eq_iff g names).mp hlen
      rw [project_groups_hit file num_rows names g rest hg] at h
      exact ⟨g, List.mem_cons_self _ _, hg, h⟩
    · simp only [project_groups, hlen, if_false] at h
      obtain ⟨g', hmem, hg', hread⟩ := ih h
      exact ⟨g', List.mem_cons_of_mem _ hmem, hg', hread⟩

/-- A table `project` returns has one column per requested name, each of
`num_rows` cells. -/
theorem project_ok_shape (fs : FileSystem) (metadata : Metadata) (path : String)
    (names : List String) (table : List (List Int))
    (h : project fs metadata path names = .ok table) :
    table.length = names.length
      ∧ ∀ column ∈ table, column.length = (toInt32 metadata.num_rows).toNat := by
  have hn := project_ok_nonneg fs metadata path names table h
  cases hf : fs.files path with
  | none => simp [project, hf] at h
  | some data =>
    rw [project_of_open fs metadata path names data hf hn] at h
    obtain ⟨g, _, _, hread⟩ := project_groups_ok _ _ _ _ _ h
    obtain ⟨hreadable, htable⟩ := (project_read_ok_iff data g.offset _ _ 0 table).mp hread
    subst htable
    refine ⟨by simp, ?_⟩
    intro column hcol
    obtain ⟨p, hp, rfl⟩ := List.mem_map.mp hcol
    have hr := hreadable p hp
    rw [cells_of_bytes_length, List.length_take, List.length_drop]
    rcases hr.2 with hz | hle
    · rw [hz]
      simp
    · omega

/-- The inner loop of `project_and_filter` on indices that are all inside the
column: none is skipped. -/
theorem gather_in_range (first_size : Nat) (column : List Int) (indices : List Int)
    (hlen : column.length = first_size)
    (hidx : ∀ x ∈ indices, 0 ≤ x ∧ x < first_size) :
    gather first_size column indices
      = .ok (indices.map (fun x => column.getD x.toNat 0)) := by
  induction indices with
  | nil => rfl
  | cons x rest ih =>
    obtain ⟨hx0, hx1⟩ := hidx x (List.mem_cons_self _ _)
    have hrest := ih (fun y hy => hidx y (List.mem_cons_of_mem _ hy))
    have hsz : ¬ toSizeT x ≥ first_size := by
      unfold toSizeT
      omega
    have hlt : x.toNat < column.length := by omega
    have hget : column[x.toNat]? = some (column.getD x.toNat 0) := by
      rw [List.getD_eq_getElem?_getD, List.getElem?_eq_getElem hlt]
      rfl
    simp only [gather, hsz, if_false, hget, hrest, List.map_cons]

theorem gather_all_in_range (first_size : Nat) (indices : List Int) (table : List (List Int))
    (hlen : ∀ column ∈ table, column.length = first_size)
    (hidx : ∀ x ∈ indices, 0 ≤ x ∧ x < first_size) :
    gather_all first_size indices table
      = .ok (table.map (fun column => indices.map (fun x => column.getD x.toNat 0))) := by
  induction table with
  | nil => rfl
  | cons column rest ih =>
    simp only [gather_all, gather_in_range first_size column indices
      (hlen column (List.mem_cons_self _ _)) hidx,
      ih (fun c hc => hlen c (List.mem_cons_of_mem _ hc)), List.map_cons]

/-- The indices a successful `filter` returns: ascending and inside the rows. -/
theorem filter_ok_range (fl : FloatOps) (fs : FileSystem) (metadata : Metadata)
    (path column : String) (operation : Int) (threshold : fl.F) (indices : List Int)
    (h : filter fl fs metadata path column operation threshold = .ok indices) :
    indices.Pairwise (· < ·) ∧ ∀ x ∈ indices, 0 ≤ x ∧ x < (toInt32 metadata.num_rows).toNat := by
  cases hcol : project_single_column fs metadata path column with
  | error e => simp [filter, hcol] at h
  | ok cells =>
    rw [filter_of_column fl fs metadata path column operation threshold cells hcol] at h
    obtain ⟨hn, hlen⟩ := project_single_column_length fs metadata path column cells hcol
    have hr := toInt32_range metadata.num_rows
    obtain ⟨hpw, hrange, _⟩ := filter_loop_spec _ cells 0 indices (by omega) h
    refine ⟨hpw, ?_⟩
    intro x hx
    have := hrange x hx
    omega

/-- What a successful `project_and_filter` returns, in terms of the table of
`project` and the indices of `filter`. -/
theorem project_and_filter_ok (fl : FloatOps) (fs : FileSystem) (metadata : Metadata)
    (path : String) (names : List String) (column : String) (operation : Int)
    (threshold : fl.F) (result : List (List Int))
    (h : project_and_filter fl fs metadata path names column operation threshold = .ok result) :
    ∃ (table : List (List Int)) (indices : List Int),
      project fs metadata path names = .ok table
        ∧ filter fl fs metadata path column operation threshold = .ok indices
        ∧ result = table.map (fun col => indices.map (fun x => col.getD x.toNat 0)) := by
  unfold project_and_filter at h
  cases hp : project fs metadata path names with
  | error e => simp [hp] at h
  | ok table =>
    cases hfl : filter fl fs metadata path column operation threshold with
    | error e => simp [hp, hfl] at h
    | ok indices =>
      simp only [hp, hfl] at h
      obtain ⟨_, hcols⟩ := project_ok_shape fs metadata path names table hp
      obtain ⟨_, hrange⟩ := filter_ok_range fl fs metadata path column operation threshold
        indices hfl
      refine ⟨table, indices, rfl, rfl, ?_⟩
      cases table with
      | nil =>
        simp only [gather_all, Except.ok.injEq] at h
        rw [← h]
        rfl
      | cons first rest =>
        have hfirst : ((first :: rest).headD []).length = (toInt32 metadata.num_rows).toNat :=
          hcols first (List.mem_cons_self _ _)
        rw [hfirst, gather_all_in_range _ indices (first :: rest) hcols hrange] at h
        exact (Except.ok.inj h).symm

/-- Claim C15: when `project_and_filter` succeeds, `project` and `filter`
succeed on the same arguments, the result has one column per entry of
`project_names` in the same order, the filter's indices are ascending, and for
every column `c` and position `k`,
`result[c][k] = project(...)[c][filter(...)[k]]`; every result column has as
many cells as there are filtered indices. -/
theorem project_and_filter_gather (fl : FloatOps) (fs : FileSystem) (metadata : Metadata)
    (path : String) (names : List String) (column : String) (operation : Int)
    (threshold : fl.F) (result : List (List Int))
    (h : project_and_filter fl fs metadata path names column operation threshold = .ok result) :
    ∃ (table : List (List Int)) (indices : List Int),
      project fs metadata path names = .ok table
        ∧ filter fl fs metadata path column operation threshold = .ok indices
        ∧ table.length = names.length
        ∧ result.length = names.length
        ∧ indices.Pairwise (· < ·)
        ∧ ∀ (c : Nat) (col : List Int), table[c]? = some col →
            ∃ row, result[c]? = some row
              ∧ row.length = indices.length
              ∧ ∀ (k : Nat) (x : Int), indices[k]? = some x →
                  ∃ v, row[k]? = some v ∧ col[x.toNat]? = some v := by
  obtain ⟨table, indices, hp, hfl, hres⟩ :=
    project_and_filter_ok fl fs metadata path names column operation threshold result h
  obtain ⟨hlen, hcols⟩ := project_ok_shape fs metadata path names table hp
  obtain ⟨hpw, hrange⟩ := filter_ok_range fl fs metadata path column operation threshold
    indices hfl
  refine ⟨table, indices, hp, hfl, hlen, by rw [hres, List.length_map, hlen], hpw, ?_⟩
  intro c col hc
  refine ⟨indices.map (fun x => col.getD x.toNat 0), ?_, by simp, ?_⟩
  · rw [hres, List.getElem?_map, hc]
    rfl
  · intro k x hk
    have hx := hrange x (List.getElem?_mem hk)
    have hcl := hcols col (List.getElem?_mem hc)
    have hlt : x.toNat < col.length := by omega
    refine ⟨col.getD x.toNat 0, ?_, ?_⟩
    · rw [List.getElem?_map, hk]
      rfl
    · rw [List.getD_eq_getElem?_getD, List.getElem?_eq_getElem hlt]
      rfl

/-- Claim C15 at the sample file: both columns at the rows with `salary`
below 50000.0. -/
theorem project_and_filter_gather_witness :
    project_and_filter ieee sample_fs sample_metadata "test/test.hty" ["id", "salary"] "salary"
        2 (Float32.finite (50000 * float_unit)) = .ok [[2], [1195337728]]
      ∧ ∃ (table : List (List Int)) (indices : List Int),
        project sample_fs sample_metadata "test/test.hty" ["id", "salary"] = .ok table
          ∧ filter ieee sample_fs sample_metadata "test/test.hty" "salary" 2
              (Float32.finite (50000 * float_unit)) = .ok indices
          ∧ table.length = ["id", "salary"].length
          ∧ ([[2], [1195337728]] : List (List Int)).length = ["id", "salary"].length
          ∧ indices.Pairwise (· < ·)
          ∧ ∀ (c : Nat) (col : List Int), table[c]? = some col →
              ∃ row, ([[2], [1195337728]] : List (List Int))[c]? = some row
                ∧ row.length = indices.length
                ∧ ∀ (k : Nat) (x : Int), indices[k]? = some x →
                    ∃ v, row[k]? = some v ∧ col[x.toNat]? = some v :=
  ⟨by decide,
    project_and_filter_gather ieee sample_fs sample_metadata "test/test.hty" ["id", "salary"]
      "salary" 2 (Float32.finite (50000 * float_unit)) [[2], [1195337728]] (by decide)⟩

/-! ## The concrete scenario -/

/-- Cells read inside a prefix of the file do not depend on what follows. -/
theorem cells_window_append (pre rest : List Byte) (offset n : Nat)
    (h : offset + n ≤ pre.length) :
    ((pre ++ rest).drop offset).take n = (pre.drop offset).take n := by
  rw [List.drop_append_of_le_length (by omega),
    List.take_append_of_le_length (by rw [List.length_drop]; omega)]

/-- Claim C18 (concrete scenario): for a file whose data region is the sample
one (columns `id` = 1, 2, 3 and `salary` = the bit patterns of 50000.0,
49000.0, 51000.0, one group at offset 0), whatever follows the data region,
`filter("salary", 2, 50000.0)` returns the row indices `[1]` and
`project(["id"])` returns `[[1, 2, 3]]`. -/
theorem concrete_scenario (fs : FileSystem) (path : String) (rest : List Byte)
    (hfile : fs.files path = some (sample_data ++ rest)) :
    (Float32.of_bits 1195593728 = .finite (50000 * float_unit)
        ∧ Float32.of_bits 1195337728 = .finite (49000 * float_unit)
        ∧ Float32.of_bits 1195849728 = .finite (51000 * float_unit))
      ∧ filter ieee fs sample_metadata path "salary" 2 (Float32.finite (50000 * float_unit))
          = .ok [1]
      ∧ project fs sample_metadata path ["id"] = .ok [[1, 2, 3]] := by
  have hn : 0 ≤ toInt32 sample_metadata.num_rows := by decide
  have hrows : (toInt32 sample_metadata.num_rows).toNat = 3 := by decide
  have hlen : sample_data.length = 24 := by decide
  have hsalary : project_single_column fs sample_metadata path "salary"
      = .ok [1195593728, 1195337728, 1195849728] := by
    have hb : byte_offset sample_group.offset 1 (toInt32 sample_metadata.num_rows) = 12 := by
      decide
    rw [project_single_column_readable fs sample_metadata path "salary" _ [] [] sample_group 1
      hfile rfl (by simp) (by decide) hn
      (by rw [hb, hrows]; exact ⟨by decide, Or.inr (by rw [List.length_append, hlen]; omega)⟩),
      hb, hrows]
    have hw := cells_window_append sample_data rest 12 12 (by rw [hlen])
    have h12 : (12 : Int).toNat = 12 := rfl
    rw [h12, hw]
    decide
  have hid : project fs sample_metadata path ["id"] = .ok [[1, 2, 3]] := by
    have hb : byte_offset sample_group.offset 0 (toInt32 sample_metadata.num_rows) = 0 := by
      decide
    have hall : has_all_columns sample_group ["id"] := by
      intro name hname
      simp only [List.mem_singleton] at hname
      subst hname
      exact ⟨⟨"id", "int"⟩, by simp [sample_group], rfl⟩
    have hi : column_index sample_group.columns "id" = some 0 := by decide
    rw [project_readable fs sample_metadata path ["id"] _ [] [] sample_group hfile rfl
      (by simp) hall hn
      (by
        intro name hname idx hidx
        simp only [List.mem_singleton] at hname
        subst hname
        rw [hi] at hidx
        cases hidx
        rw [hb, hrows]
        exact ⟨by decide, Or.inr (by rw [List.length_append, hlen]; simp; omega)⟩)]
    simp only [List.map_cons, List.map_nil, hi, Option.getD_some, hb, hrows]
    have hw := cells_window_append sample_data rest 0 12 (by rw [hlen]; omega)
    have h0 : (0 : Int).toNat = 0 := rfl
    rw [h0, hw]
    decide
  refine ⟨⟨by decide, by decide, by decide⟩, ?_, hid⟩
  rw [filter_of_column ieee fs sample_metadata path "salary" 2 _ _ hsalary]
  decide

/-- Claim C18 at the sample file system. -/
theorem concrete_scenario_witness :
    sample_fs.files "test/test.hty"
        = some (sample_data ++ write_trailer sample_json sample_metadata)
      ∧ filter ieee sample_fs sample_metadata "test/test.hty" "salary" 2
          (Float32.finite (50000 * float_unit)) = .ok [1]
      ∧ project sample_fs sample_metadata "test/test.hty" ["id"] = .ok [[1, 2, 3]] :=
  ⟨by decide,
    (concrete_scenario sample_fs "test/test.hty" (write_trailer sample_json sample_metadata)
      (by decide)).2⟩

/-! ## The type `float`: lemmas -/

theorem exponent_shift_le (fuel n t : Nat) (h : n / 2 ^ t < 16777216) :
    exponent_shift fuel n ≤ t := by
  induction fuel generalizing n t with
  | zero => simp [exponent_shift]
  | succ fuel ih =>
    unfold exponent_shift
    by_cases hn : n < 16777216
    · simp [hn]
    · simp only [hn, if_false]
      cases t with
      | zero =>
        simp only [Nat.pow_zero, Nat.div_one] at h
        omega
      | succ t =>
        have : n / 2 / 2 ^ t < 16777216 := by
          rw [Nat.div_div_eq_div_mul, ← Nat.pow_succ']
          exact h
        have := ih (n / 2) t this
        omega

theorem exponent_shift_spec (fuel n : Nat) (h : n < 2 ^ (24 + fuel)) :
    n / 2 ^ exponent_shift fuel n < 16777216 := by
  induction fuel generalizing n with
  | zero =>
    simp only [exponent_shift, Nat.pow_zero, Nat.div_one]
    exact h
  | succ fuel ih =>
    unfold exponent_shift
    by_cases hn : n < 16777216
    · simp [hn]
    · simp only [hn, if_false]
      have h2 : n / 2 < 2 ^ (24 + fuel) := by
        apply Nat.div_lt_of_lt_mul
        rw [← Nat.pow_succ']
        exact h
      have := ih (n / 2) h2
      rw [Nat.pow_succ', ← Nat.div_div_eq_div_mul]
      exact this

theorem exponent_shift_self_spec (n : Nat) : n / 2 ^ exponent_shift n n < 16777216 := by
  apply exponent_shift_spec
  calc n < 2 ^ n := Nat.lt_two_pow n
    _ ≤ 2 ^ (24 + n) := Nat.pow_le_pow_right (by decide) (by omega)

/-- A magnitude that is a multiple of its last place is not changed by
rounding. -/
theorem round_magnitude_of_dvd (n : Nat) (h : 2 ^ exponent_shift n n ∣ n) :
    round_magnitude n = n := by
  unfold round_magnitude
  have hr : n % 2 ^ exponent_shift n n = 0 := Nat.mod_eq_zero_of_dvd h
  have hpos : 0 < 2 ^ exponent_shift n n := Nat.pow_pos (by decide)
  simp only [hr]
  have hc : ¬ (2 ^ exponent_shift n n < 2 * 0
      ∨ (2 * 0 = 2 ^ exponent_shift n n ∧ n / 2 ^ exponent_shift n n % 2 = 1)) := by
    omega
  rw [if_neg hc]
  exact Nat.div_mul_cancel h

theorem round_magnitude_dvd (n : Nat) : 2 ^ exponent_shift n n ∣ round_magnitude n := by
  unfold round_magnitude
  exact Dvd.intro_left _ rfl

theorem round_finite (m : Int) (hfix : round_magnitude m.natAbs = m.natAbs)
    (hbound : m.natAbs < 2 ^ 128 * float_unit) : Float32.round m = .finite m := by
  unfold Float32.round
  simp only [hfix]
  rw [if_neg (by omega)]
  congr 1
  split <;> omega

theorem round_finite_inv (m : Int) (h : Float32.round m = .finite m) :
    round_magnitude m.natAbs = m.natAbs := by
  unfold Float32.round at h
  simp only at h
  split at h
  · cases h
  · have h' := Float32.finite.inj h
    split at h' <;> omega

/-- An `int` of magnitude at most `2^24` converts to `float` exactly. -/
theorem of_int_exact (a : Int) (hlo : -16777216 ≤ a) (hhi : a ≤ 16777216) :
    Float32.of_int a = .finite (a * float_unit) := by
  unfold Float32.of_int
  have habs : (a * (float_unit : Int)).natAbs = a.natAbs * float_unit := by
    rw [Int.natAbs_mul, Int.natAbs_ofNat]
  have hk : a.natAbs ≤ 16777216 := by omega
  have hU : float_unit = 2 ^ 149 := rfl
  apply round_finite
  · rw [habs]
    apply round_magnitude_of_dvd
    by_cases hlt : a.natAbs < 16777216
    · have hj : exponent_shift (a.natAbs * float_unit) (a.natAbs * float_unit) ≤ 149 := by
        apply exponent_shift_le
        rw [hU, Nat.mul_div_cancel _ (Nat.pow_pos (by decide))]
        exact hlt
      exact Dvd.dvd.mul_left (hU ▸ Nat.pow_dvd_pow 2 hj) _
    · have hk' : a.natAbs = 2 ^ 24 := by omega
      have hn : a.natAbs * float_unit = 2 ^ 173 := by
        rw [hk', hU, ← Nat.pow_add]
      rw [hn]
      have hj : exponent_shift (2 ^ 173) (2 ^ 173) ≤ 150 := by
        apply exponent_shift_le
        rw [Nat.pow_div (by decide) (by decide)]
        decide
      exact Nat.pow_dvd_pow 2 (by omega)
  · rw [habs, hU]
    calc a.natAbs * 2 ^ 149 ≤ 16777216 * 2 ^ 149 := Nat.mul_le_mul_right _ hk
      _ < 2 ^ 128 * 2 ^ 149 := by
        apply Nat.mul_lt_mul_of_pos_right _ (Nat.pow_pos (by decide))
        decide

/-- No `float` lies between the `double` constant `1e-6` and the real number
`10^-6`. -/
theorem no_float_in_gap (n : Nat) (hfix : round_magnitude n = n)
    (hlo : 4722366482869645 * 2 ^ 77 ≤ n) (hhi : n * 1000000 < 2 ^ 149) : False := by
  have hn_lo : 2 ^ 24 * 2 ^ 105 ≤ n := le_trans (by decide) hlo
  have hn_hi : n < 2 ^ 106 * 2 ^ 24 := by
    have : n * 1000000 < 2 ^ 106 * 2 ^ 24 * 1000000 := lt_of_lt_of_le hhi (by decide)
    exact Nat.lt_of_mul_lt_mul_right this
  have hspec := exponent_shift_self_spec n
  have hle : exponent_shift n n ≤ 106 :=
    exponent_shift_le n n 106 (Nat.div_lt_of_lt_mul hn_hi)
  have hge : 106 ≤ exponent_shift n n := by
    by_contra hlt
    have hj : exponent_shift n n ≤ 105 := by omega
    have hpow : 2 ^ exponent_shift n n ≤ 2 ^ 105 := Nat.pow_le_pow_right (by decide) hj
    have : 16777216 ≤ n / 2 ^ exponent_shift n n := by
      rw [Nat.le_div_iff_mul_le (Nat.pow_pos (by decide))]
      calc 16777216 * 2 ^ exponent_shift n n ≤ 16777216 * 2 ^ 105 :=
            Nat.mul_le_mul_left _ hpow
        _ ≤ n := hn_lo
    omega
  have hj : exponent_shift n n = 106 := by omega
  have hdvd := round_magnitude_dvd n
  rw [hfix, hj] at hdvd
  obtain ⟨c, hc⟩ := hdvd
  subst hc
  have h1 : c * 1000000 < 2 ^ 43 := by
    have : 2 ^ 106 * (c * 1000000) < 2 ^ 106 * 2 ^ 43 := by
      rw [← Nat.mul_assoc]
      exact lt_of_lt_of_le hhi (by decide)
    exact Nat.lt_of_mul_lt_mul_left this
  have h2 : 4722366482869645 ≤ 2 ^ 29 * c := by
    have : 2 ^ 77 * 4722366482869645 ≤ 2 ^ 77 * (2 ^ 29 * c) := by
      rw [← Nat.mul_assoc, Nat.mul_comm (2 ^ 77) 4722366482869645]
      exact le_trans hlo (by
        rw [show (2 : Nat) ^ 106 = 2 ^ 77 * 2 ^ 29 by decide])
    exact Nat.le_of_mul_le_mul_left this (Nat.pow_pos (by decide))
  norm_num at h1 h2
  omega

theorem double_epsilon_eq : double_epsilon = ((4722366482869645 * 2 ^ 77 : Nat) : Int) := rfl

/-- For finite floats whose difference is a `float`, the test
`std::abs(x - y) < 1e-6` decides the exact inequality `|x - y| < 10^-6`
(written in units of `2^-149`). -/
theorem near_exact (x y : Int) (hrep : Float32.round (x - y) = .finite (x - y)) :
    ieee.near (Float32.finite x) (Float32.finite y) = true
      ↔ (x - y).natAbs * 1000000 < 2 ^ 149 := by
  have hfix := round_finite_inv (x - y) hrep
  show Float32.lt_epsilon (Float32.abs (Float32.sub (Float32.finite x) (Float32.finite y)))
    = true ↔ _
  simp only [Float32.sub, hrep, Float32.abs, Float32.lt_epsilon, decide_eq_true_eq,
    double_epsilon_eq]
  constructor
  · intro h
    have h' : (x - y).natAbs < 4722366482869645 * 2 ^ 77 := by exact_mod_cast h
    calc (x - y).natAbs * 1000000 < 4722366482869645 * 2 ^ 77 * 1000000 :=
          Nat.mul_lt_mul_of_pos_right h' (by decide)
      _ ≤ 2 ^ 149 := by decide
  · intro h
    by_contra hge
    have hge' : 4722366482869645 * 2 ^ 77 ≤ (x - y).natAbs := by
      have : ¬ (((x - y).natAbs : Int) < ((4722366482869645 * 2 ^ 77 : Nat) : Int)) := hge
      have : ¬ ((x - y).natAbs < 4722366482869645 * 2 ^ 77) := by exact_mod_cast this
      omega
    exact no_float_in_gap _ hfix hge' h

theorem float_unit_pos : (0 : ℚ) < (float_unit : ℚ) := by
  have : 0 < float_unit := Nat.pow_pos (by decide)
  exact_mod_cast this

theorem toRat_lt (x y : Int) :
    (Float32.finite x).toRat < (Float32.finite y).toRat ↔ x < y := by
  simp only [Float32.toRat]
  rw [div_lt_div_iff_of_pos_right float_unit_pos]
  exact Int.cast_lt

theorem toRat_near (x y : Int) :
    |(Float32.finite x).toRat - (Float32.finite y).toRat| < 1 / 1000000
      ↔ (x - y).natAbs * 1000000 < 2 ^ 149 := by
  simp only [Float32.toRat]
  rw [← sub_div, abs_div, abs_of_pos float_unit_pos, div_lt_div_iff₀ float_unit_pos (by norm_num),
    one_mul]
  have habs : |((x : ℚ) - (y : ℚ))| = (((x - y).natAbs : Nat) : ℚ) := by
    rw [← Int.cast_sub, ← Int.cast_abs, Int.abs_eq_natAbs, Int.cast_natCast]
  rw [habs]
  have hU : (float_unit : ℚ) = ((2 ^ 149 : Nat) : ℚ) := rfl
  rw [hU]
  norm_cast

/-! ## Filtering and the exact values -/

/-- What `filter` returns for a valid operator: the positions of the rows the
comparison keeps. -/
theorem filter_mem (fl : FloatOps) (fs : FileSystem) (metadata : Metadata)
    (path column : String) (operation : Int) (threshold : fl.F) (cells : List Int)
    (hcol : project_single_column fs metadata path column = .ok cells)
    (h0 : 0 ≤ operation) (h5 : operation ≤ 5) :
    ∃ result, filter fl fs metadata path column operation threshold = .ok result
      ∧ ∀ (i : Nat) (a : Int), cells[i]? = some a →
          ((i : Int) ∈ result
            ↔ compare fl operation (find_column_type column metadata.groups) a threshold
                = .ok true) := by
  obtain ⟨hn, hlen⟩ := project_single_column_length fs metadata path column cells hcol
  have hr := toInt32_range metadata.num_rows
  obtain ⟨result, hres⟩ := filter_loop_total
    (fun a => compare fl operation (find_column_type column metadata.groups) a threshold)
    cells 0 (fun a _ => compare_valid fl operation _ a threshold h0 h5)
  obtain ⟨_, _, hmem⟩ := filter_loop_spec _ cells 0 result (by omega) hres
  refine ⟨result, by rw [filter_of_column fl fs metadata path column operation threshold cells
    hcol, hres], ?_⟩
  intro i a hi
  have := hmem i a hi
  rw [Nat.zero_add] at this
  exact this

/-- The exact value of a cell whose conversion to `float` is the finite float
`mx` (in units of `2^-149`), an integer cell being at most `2^24` in
magnitude. -/
theorem cell_value_of_finite (column_type : String) (a mx : Int)
    (hx : (if column_type = "float" then Float32.of_bits a else Float32.of_int a)
      = Float32.finite mx)
    (hint : column_type ≠ "float" → -16777216 ≤ a ∧ a ≤ 16777216) :
    cell_value column_type a = (Float32.finite mx).toRat := by
  unfold cell_value
  by_cases hf : column_type = "float"
  · rw [if_pos hf] at hx ⊢
    rw [hx]
  · rw [if_neg hf] at hx ⊢
    obtain ⟨hlo, hhi⟩ := hint hf
    rw [of_int_exact a hlo hhi] at hx
    injection hx with hx
    subst hx
    simp only [Float32.toRat]
    have hU := float_unit_pos
    push_cast
    field_simp

/-- Claim C14 does not hold for every column: in the file `test/big.hty` the
`id` cells are the integers 16777217, 16777219 and 3, which `filter` converts
to `float` before comparing (16777217 becomes 16777216.0 and 16777219 becomes
16777220.0). With operator 4 and the threshold 16777216.0 row 0 is returned
although its exact value differs from the threshold by 1; with operator 2 and
the threshold 16777220.0 row 1 is not returned although 16777219 is below the
threshold. -/
theorem filter_rounds_large_integers :
    project_single_column big_fs sample_metadata "test/big.hty" "id"
        = .ok [16777217, 16777219, 3]
      ∧ find_column_type "id" sample_metadata.groups = "int"
      ∧ filter ieee big_fs sample_metadata "test/big.hty" "id" 4
          (Float32.finite (16777216 * float_unit)) = .ok [0]
      ∧ ¬ (|cell_value "int" 16777217 - (Float32.finite (16777216 * float_unit)).toRat|
            < 1 / 1000000)
      ∧ filter ieee big_fs sample_metadata "test/big.hty" "id" 2
          (Float32.finite (16777220 * float_unit)) = .ok [0, 2]
      ∧ cell_value "int" 16777219 < (Float32.finite (16777220 * float_unit)).toRat := by
  have hU := float_unit_pos
  have h1 : (Float32.finite (16777216 * float_unit)).toRat = 16777216 := by
    simp only [Float32.toRat]
    push_cast
    field_simp
  have h2 : (Float32.finite (16777220 * float_unit)).toRat = 16777220 := by
    simp only [Float32.toRat]
    push_cast
    field_simp
  refine ⟨by decide, by decide, by decide, ?_, by decide, ?_⟩
  · rw [h1]
    unfold cell_value
    rw [if_neg (by decide)]
    norm_num
  · rw [h2]
    unfold cell_value
    rw [if_neg (by decide)]
    norm_num

/-- Claim C14, amended: for an existing column and a finite threshold `v`,
`filter` with operator 2 and with operator 4 returns index lists `below` and
`equal` such that, for every row `i` whose cell converts to a finite `float`
exactly (a `float` cell that is not an infinity or a NaN, or an integer cell of
magnitude at most `2^24`): `i` is in `below` iff `value(col,i) < v`, and,
when the difference `value(col,i) - v` is itself a `float`, `i` is in `equal`
iff `|value(col,i) - v| < 1e-6`; the values and the bound are exact
rationals. -/
theorem filter_exact_values (fs : FileSystem) (metadata : Metadata) (path column : String)
    (mv : Int) (cells : List Int)
    (hcol : project_single_column fs metadata path column = .ok cells) :
    ∃ below equal,
      filter ieee fs metadata path column 2 (Float32.finite mv) = .ok below
        ∧ filter ieee fs metadata path column 4 (Float32.finite mv) = .ok equal
        ∧ ∀ (i : Nat) (a mx : Int), cells[i]? = some a →
            (if find_column_type column metadata.groups = "float" then Float32.of_bits a
              else Float32.of_int a) = Float32.finite mx →
            (find_column_type column metadata.groups ≠ "float"
              → -16777216 ≤ a ∧ a ≤ 16777216) →
            (((i : Int) ∈ below
                ↔ cell_value (find_column_type column metadata.groups) a
                    < (Float32.finite mv).toRat)
              ∧ (Float32.round (mx - mv) = Float32.finite (mx - mv) →
                  ((i : Int) ∈ equal
                    ↔ |cell_value (find_column_type column metadata.groups) a
                        - (Float32.finite mv).toRat| < 1 / 1000000))) := by
  obtain ⟨below, hb, hbm⟩ := filter_mem ieee fs metadata path column 2 (Float32.finite mv)
    cells hcol (by decide) (by decide)
  obtain ⟨equal, he, hem⟩ := filter_mem ieee fs metadata path column 4 (Float32.finite mv)
    cells hcol (by decide) (by decide)
  refine ⟨below, equal, hb, he, ?_⟩
  intro i a mx hi hx hint
  rw [cell_value_of_finite _ a mx hx hint]
  have hx' : (if find_column_type column metadata.groups = "float" then ieee.of_bits a
      else ieee.of_int a) = (Float32.finite mx : ieee.F) := hx
  constructor
  · rw [hbm i a hi, toRat_lt]
    have hc : compare ieee 2 (find_column_type column metadata.groups) a (Float32.finite mv)
        = .ok (Float32.lt (Float32.finite mx) (Float32.finite mv)) := by
      simp only [compare, hx']
      rfl
    rw [hc]
    simp [Float32.lt]
  · intro hrep
    rw [hem i a hi, toRat_near, ← near_exact mx mv hrep]
    have hc : compare ieee 4 (find_column_type column metadata.groups) a (Float32.finite mv)
        = .ok (ieee.near (Float32.finite mx) (Float32.finite mv)) := by
      simp only [compare, hx']
    rw [hc]
    simp

/-- Claim C14 at the sample file and the threshold 50000.0: row 1 (49000.0) is
the one below it, row 0 (50000.0) the one equal to it. -/
theorem filter_exact_values_witness :
    project_single_column sample_fs sample_metadata "test/test.hty" "salary"
        = .ok [1195593728, 1195337728, 1195849728]
      ∧ filter ieee sample_fs sample_metadata "test/test.hty" "salary" 2
          (Float32.finite (50000 * float_unit)) = .ok [1]
      ∧ filter ieee sample_fs sample_metadata "test/test.hty" "salary" 4
          (Float32.finite (50000 * float_unit)) = .ok [0]
      ∧ Float32.of_bits 1195337728 = Float32.finite (49000 * float_unit)
      ∧ Float32.round (49000 * float_unit - 50000 * float_unit)
          = Float32.finite (49000 * float_unit - 50000 * float_unit)
      ∧ ∃ below equal,
        filter ieee sample_fs sample_metadata "test/test.hty" "salary" 2
            (Float32.finite (50000 * float_unit)) = .ok below
          ∧ filter ieee sample_fs sample_metadata "test/test.hty" "salary" 4
              (Float32.finite (50000 * float_unit)) = .ok equal
          ∧ ∀ (i : Nat) (a mx : Int),
              ([1195593728, 1195337728, 1195849728] : List Int)[i]? = some a →
              (if find_column_type "salary" sample_metadata.groups = "float"
                then Float32.of_bits a else Float32.of_int a) = Float32.finite mx →
              (find_column_type "salary" sample_metadata.groups ≠ "float"
                → -16777216 ≤ a ∧ a ≤ 16777216) →
              (((i : Int) ∈ below
                  ↔ cell_value (find_column_type "salary" sample_metadata.groups) a
                      < (Float32.finite (50000 * float_unit)).toRat)
                ∧ (Float32.round (mx - 50000 * float_unit)
                      = Float32.finite (mx - 50000 * float_unit) →
                    ((i : Int) ∈ equal
                      ↔ |cell_value (find_column_type "salary" sample_metadata.groups) a
                          - (Float32.finite (50000 * float_unit)).toRat| < 1 / 1000000))) :=
  ⟨by decide, by decide, by decide, by decide, by decide,
    filter_exact_values sample_fs sample_metadata "test/test.hty" "salary"
      (50000 * float_unit) [1195593728, 1195337728, 1195849728] (by decide)⟩

/-! ## Damaged trailers -/

theorem seekg_failed (data : List Byte) (pos : Nat) (offset : Int) :
    IStream.seekg ⟨data, pos, true⟩ offset = ⟨data, pos, true⟩ := by
  simp [IStream.seekg]

/-- On a file shorter than four bytes the seek to `size - 4` fails and nothing
is read, so `metadata_size` keeps the value `unwritten` it held (as an `int`);
every later seek and read does nothing, and the text handed to the JSON
library is that many zero bytes. -/
theorem extract_metadata_short (json : JsonLib) (unwritten : Int) (fs : FileSystem)
    (path : String) (data : List Byte) (hfile : fs.files path = some data)
    (hshort : data.length < 4) :
    extract_metadata json fs path unwritten
      = if toInt32 unwritten < 0 then .error .length_error
        else
          match json.parse (List.replicate (toInt32 unwritten).toNat (0 : Byte)) with
          | none => .error .parse_error
          | some metadata => .ok metadata := by
  unfold extract_metadata
  rw [hfile]
  have h1 : (IStream.open_ate data).seekg ((data.length : Int) - 4)
      = ⟨data, data.length, true⟩ := by
    rw [IStream.open_ate, seekg_neg _ _ _ (by omega)]
  have hsize : int_of_bytes ((int_bytes unwritten).getD 0 0) ((int_bytes unwritten).getD 1 0)
      ((int_bytes unwritten).getD 2 0) ((int_bytes unwritten).getD 3 0) = toInt32 unwritten := by
    simp only [int_bytes, List.getD_cons_zero, List.getD_cons_succ]
    exact int_of_bytes_int_bytes unwritten
  simp only [IStream.open_ate] at h1
  simp only [IStream.open_ate, h1, read_failed, hsize, seekg_failed]

/-- A stored length below zero: the string of that size cannot be created. -/
theorem extract_metadata_negative (json : JsonLib) (unwritten : Int) (fs : FileSystem)
    (path : String) (D : List Byte) (b0 b1 b2 b3 : Byte)
    (hfile : fs.files path = some (D ++ [b0, b1, b2, b3]))
    (hneg : int_of_bytes b0 b1 b2 b3 < 0) :
    extract_metadata json fs path unwritten = .error .length_error := by
  unfold extract_metadata
  rw [hfile]
  have hsz : ((D ++ [b0, b1, b2, b3]).length : Int) - 4 = (D.length : Nat) := by
    simp only [List.length_append, List.length_cons, List.length_nil]
    omega
  have h1 : (IStream.open_ate (D ++ [b0, b1, b2, b3])).seekg
      (((D ++ [b0, b1, b2, b3]).length : Int) - 4)
      = ⟨D ++ [b0, b1, b2, b3], D.length, false⟩ := by
    rw [hsz, IStream.open_ate, seekg_ok _ _ _ (by omega), Int.toNat_ofNat]
  have h2 : IStream.read ⟨D ++ [b0, b1, b2, b3], D.length, false⟩ (int_bytes unwritten) 4
      = ([b0, b1, b2, b3], ⟨D ++ [b0, b1, b2, b3], D.length + 4, false⟩) := by
    have := read_window D [b0, b1, b2, b3] [] (int_bytes unwritten)
    simpa [int_bytes] using this
  simp only [IStream.open_ate] at h1
  simp only [IStream.open_ate, h1, h2, List.getD_cons_zero, List.getD_cons_succ, hneg, if_true]

/-- A stored length above `size - 4`: the seek to `size - L - 4` fails, nothing
is read, and the text handed to the JSON library is `L` zero bytes. -/
theorem extract_metadata_too_long (json : JsonLib) (unwritten : Int) (fs : FileSystem)
    (path : String) (D : List Byte) (b0 b1 b2 b3 : Byte)
    (hfile : fs.files path = some (D ++ [b0, b1, b2, b3]))
    (hlong : (D.length : Int) < int_of_bytes b0 b1 b2 b3) :
    extract_metadata json fs path unwritten =
      match json.parse (List.replicate (int_of_bytes b0 b1 b2 b3).toNat (0 : Byte)) with
      | none => .error .parse_error
      | some metadata => .ok metadata := by
  unfold extract_metadata
  rw [hfile]
  have hsz : ((D ++ [b0, b1, b2, b3]).length : Int) - 4 = (D.length : Nat) := by
    simp only [List.length_append, List.length_cons, List.length_nil]
    omega
  have h1 : (IStream.open_ate (D ++ [b0, b1, b2, b3])).seekg
      (((D ++ [b0, b1, b2, b3]).length : Int) - 4)
      = ⟨D ++ [b0, b1, b2, b3], D.length, false⟩ := by
    rw [hsz, IStream.open_ate, seekg_ok _ _ _ (by omega), Int.toNat_ofNat]
  have h2 : IStream.read ⟨D ++ [b0, b1, b2, b3], D.length, false⟩ (int_bytes unwritten) 4
      = ([b0, b1, b2, b3], ⟨D ++ [b0, b1, b2, b3], D.length + 4, false⟩) := by
    have := read_window D [b0, b1, b2, b3] [] (int_bytes unwritten)
    simpa [int_bytes] using this
  have h3 : IStream.seekg ⟨D ++ [b0, b1, b2, b3], D.length + 4, false⟩
      (((D ++ [b0, b1, b2, b3]).length : Int) - int_of_bytes b0 b1 b2 b3 - 4)
      = ⟨D ++ [b0, b1, b2, b3], D.length + 4, true⟩ := by
    rw [seekg_neg]
    simp only [List.length_append, List.length_cons, List.length_nil]
    omega
  have hnn : ¬ (int_of_bytes b0 b1 b2 b3 < 0) := by omega
  simp only [IStream.open_ate] at h1
  simp only [IStream.open_ate, h1, h2, List.getD_cons_zero, List.getD_cons_succ]
  rw [h3, if_neg hnn, read_failed]

/-- Claim C16: on an openable file, `extract_metadata` throws and returns no
document in each of these cases, for every value `unwritten` the local
`metadata_size` holds before the read. If the file is shorter than 4 bytes,
nothing is read and it throws `std::length_error` when that value is negative
(as an `int`) and the JSON parse error otherwise. If the file has 4 bytes or
more and its last four bytes encode `L`, it throws `std::length_error` when
`L` is negative and the JSON parse error when `L` exceeds `file_size - 4`.
(The JSON library is assumed to reject every text that consists of zero bytes
only, the empty text included: that is the text it is handed in these
cases.) -/
theorem extract_metadata_damaged_trailer (json : JsonLib) (unwritten : Int) (fs : FileSystem)
    (path : String) (data : List Byte) (hfile : fs.files path = some data)
    (hreject : ∀ k, json.parse (List.replicate k (0 : Byte)) = none) :
    (data.length < 4 →
        extract_metadata json fs path unwritten
          = if toInt32 unwritten < 0 then .error .length_error else .error .parse_error)
      ∧ (∀ (D : List Byte) (b0 b1 b2 b3 : Byte), data = D ++ [b0, b1, b2, b3] →
          (int_of_bytes b0 b1 b2 b3 < 0 →
            extract_metadata json fs path unwritten = .error .length_error)
          ∧ ((D.length : Int) < int_of_bytes b0 b1 b2 b3 →
            extract_metadata json fs path unwritten = .error .parse_error))
      ∧ ((data.length < 4
            ∨ ∃ (D : List Byte) (b0 b1 b2 b3 : Byte), data = D ++ [b0, b1, b2, b3]
                ∧ (int_of_bytes b0 b1 b2 b3 < 0 ∨ (D.length : Int) < int_of_bytes b0 b1 b2 b3)) →
          ∀ metadata, extract_metadata json fs path unwritten ≠ .ok metadata) := by
  have hshort : data.length < 4 →
      extract_metadata json fs path unwritten
        = if toInt32 unwritten < 0 then .error .length_error else .error .parse_error := by
    intro h
    rw [extract_metadata_short json unwritten fs path data hfile h, hreject]
  have hlong : ∀ (D : List Byte) (b0 b1 b2 b3 : Byte), data = D ++ [b0, b1, b2, b3] →
      (int_of_bytes b0 b1 b2 b3 < 0 →
        extract_metadata json fs path unwritten = .error .length_error)
      ∧ ((D.length : Int) < int_of_bytes b0 b1 b2 b3 →
        extract_metadata json fs path unwritten = .error .parse_error) := by
    intro D b0 b1 b2 b3 hdata
    subst hdata
    refine ⟨fun hneg => extract_metadata_negative json unwritten fs path D b0 b1 b2 b3 hfile hneg,
      fun h => ?_⟩
    rw [extract_metadata_too_long json unwritten fs path D b0 b1 b2 b3 hfile h, hreject]
  refine ⟨hshort, hlong, ?_⟩
  rintro (h | ⟨D, b0, b1, b2, b3, hdata, h | h⟩) metadata heq
  · rw [hshort h] at heq
    split at heq <;> cases heq
  · rw [(hlong D b0 b1 b2 b3 hdata).1 h] at heq
    cases heq
  · rw [(hlong D b0 b1 b2 b3 hdata).2 h] at heq
    cases heq

theorem sample_json_rejects_zeros (k : Nat) :
    sample_json.parse (List.replicate k (0 : Byte)) = none := by
  match k with
  | 0 => rfl
  | 1 => rfl
  | 2 => rfl
  | _ + 3 => rfl

/-- Claim C16 at three damaged files: the two-byte file with the values 7 and
-1 in the unwritten length, and the files that hold only the lengths -1 and
9. -/
theorem extract_metadata_damaged_trailer_witness :
    corrupt_fs.files "test/tiny.hty" = some [byteOf 123, byteOf 125]
      ∧ extract_metadata sample_json corrupt_fs "test/tiny.hty" 7 = .error .parse_error
      ∧ extract_metadata sample_json corrupt_fs "test/tiny.hty" (-1) = .error .length_error
      ∧ extract_metadata sample_json corrupt_fs "test/negative.hty" 7 = .error .length_error
      ∧ extract_metadata sample_json corrupt_fs "test/long.hty" 7 = .error .parse_error
      ∧ ((([byteOf 123, byteOf 125] : List Byte).length < 4 →
            extract_metadata sample_json corrupt_fs "test/tiny.hty" 7
              = if toInt32 7 < 0 then .error .length_error else .error .parse_error)
          ∧ (∀ (D : List Byte) (b0 b1 b2 b3 : Byte),
              [byteOf 123, byteOf 125] = D ++ [b0, b1, b2, b3] →
              (int_of_bytes b0 b1 b2 b3 < 0 →
                extract_metadata sample_json corrupt_fs "test/tiny.hty" 7
                  = .error .length_error)
              ∧ ((D.length : Int) < int_of_bytes b0 b1 b2 b3 →
                extract_metadata sample_json corrupt_fs "test/tiny.hty" 7
                  = .error .parse_error))
          ∧ (((([byteOf 123, byteOf 125] : List Byte).length < 4)
                ∨ ∃ (D : List Byte) (b0 b1 b2 b3 : Byte),
                    [byteOf 123, byteOf 125] = D ++ [b0, b1, b2, b3]
                    ∧ (int_of_bytes b0 b1 b2 b3 < 0
                      ∨ (D.length : Int) < int_of_bytes b0 b1 b2 b3)) →
              ∀ metadata,
                extract_metadata sample_json corrupt_fs "test/tiny.hty" 7 ≠ .ok metadata)) :=
  ⟨rfl, by decide, by decide, by decide, by decide,
    extract_metadata_damaged_trailer sample_json 7 corrupt_fs "test/tiny.hty"
      [byteOf 123, byteOf 125] rfl sample_json_rejects_zeros⟩

/-! ## The converter: lemmas -/

theorem infer_type_cases (value : String) :
    infer_type value = "float" ∨ infer_type value = "int" ∨ infer_type value = "string" := by
  unfold infer_type
  split
  · exact Or.inl rfl
  · split
    · exact Or.inr (Or.inl rfl)
    · exact Or.inr (Or.inr rfl)

theorem infer_type_ne_empty (value : String) : infer_type value ≠ "" := by
  rcases infer_type_cases value with h | h | h <;> rw [h] <;> decide

/-- The rule of lines 61-66 in words: `float` if the value contains a `.`,
otherwise `int` if each of its characters is a digit or `-`, otherwise
`string`. -/
theorem infer_type_spec (value : String) :
    infer_type value =
      if '.' ∈ value.data then "float"
      else if ∀ c ∈ value.data, c ∈ "0123456789-".data then "int"
      else "string" := by
  unfold infer_type
  simp only [List.all_eq_true, List.contains, List.elem_iff]

theorem store_value_ok (lib : StdLib) (column column' : Column) (value : String)
    (h : store_value lib column value = .ok column') :
    column'.name = column.name
      ∧ column'.type = (if column.type = "" then infer_type value else column.type)
      ∧ ∃ cells, value_cells lib column'.type value = .ok cells
          ∧ column'.data = column.data ++ cells := by
  unfold store_value at h
  cases hv : value_cells lib (if column.type = "" then infer_type value else column.type) value with
  | error e => simp [hv] at h
  | ok cells =>
    simp only [hv, Except.ok.injEq] at h
    subst h
    exact ⟨rfl, rfl, cells, hv, rfl⟩

theorem store_value_type_ne_empty (lib : StdLib) (column column' : Column) (value : String)
    (h : store_value lib column value = .ok column') : column'.type ≠ "" := by
  rw [(store_value_ok lib column column' value h).2.1]
  split
  · exact infer_type_ne_empty value
  · assumption

/-- One line of the row loop: field `j - col_index` goes to column `j`, the
other columns are unchanged. -/
theorem read_fields_ok (lib : StdLib) (fields : List String) (columns columns' : List Column)
    (col_index : Nat) (h : read_fields lib columns fields col_index = .ok columns') :
    columns'.length = columns.length
      ∧ ∀ (j : Nat) (c : Column), columns[j]? = some c →
          ∃ c', columns'[j]? = some c'
            ∧ if col_index ≤ j then
                match fields[j - col_index]? with
                | none => c' = c
                | some value => store_value lib c value = .ok c'
              else c' = c := by
  induction fields generalizing columns col_index with
  | nil =>
    simp only [read_fields, Except.ok.injEq] at h
    subst h
    refine ⟨rfl, fun j c hj => ⟨c, hj, ?_⟩⟩
    simp
  | cons value rest ih =>
    unfold read_fields at h
    cases hk : columns[col_index]? with
    | none => simp [hk] at h
    | some column =>
      cases hs : store_value lib column value with
      | error e => simp [hk, hs] at h
      | ok column1 =>
        simp only [hk, hs] at h
        obtain ⟨hlen, hcols⟩ := ih (columns.set col_index column1) (col_index + 1) h
        refine ⟨by rw [hlen, List.length_set], ?_⟩
        intro j c hj
        have hjlt : j < columns.length := (List.getElem?_eq_some_iff.mp hj).1
        by_cases hjk : j = col_index
        · subst hjk
          rw [hk] at hj
          injection hj with hj
          subst hj
          have hset : (columns.set j column1)[j]? = some column1 := by
            rw [List.getElem?_set_self hjlt]
          obtain ⟨c', hc', hif⟩ := hcols j column1 hset
          rw [if_neg (by omega)] at hif
          subst hif
          refine ⟨c', hc', ?_⟩
          rw [if_pos (Nat.le_refl _), Nat.sub_self, List.getElem?_cons_zero]
          exact hs
        · have hset : (columns.set col_index column1)[j]? = some c := by
            rw [List.getElem?_set_ne (fun h => hjk h.symm)]
            exact hj
          obtain ⟨c', hc', hif⟩ := hcols j c hset
          refine ⟨c', hc', ?_⟩
          by_cases hle : col_index ≤ j
          · rw [if_pos hle]
            rw [if_pos (by omega)] at hif
            have he : j - col_index = (j - (col_index + 1)) + 1 := by omega
            rw [he, List.getElem?_cons_succ]
            exact hif
          · rw [if_neg hle]
            rw [if_neg (by omega)] at hif
            exact hif

theorem observed_cons (line : String) (rest : List String) (j : Nat) :
    observed (line :: rest) j
      = match (getlines ',' line.data none)[j]? with
        | none => observed rest j
        | some value => value :: observed rest j := by
  unfold observed
  rw [List.filterMap_cons]
  cases (getlines ',' line.data none)[j]? <;> rfl

/-- The row loop on one column: its name is unchanged; its type, when it had
none, is the type inferred from the first value met for it; its data is
extended by the cells of every value met, all encoded with the final type. -/
theorem read_rows_ok (lib : StdLib) (lines : List String) (columns columns' : List Column)
    (h : read_rows lib columns lines = .ok columns') :
    columns'.length = columns.length
      ∧ ∀ (j : Nat) (c : Column), columns[j]? = some c →
          ∃ c', columns'[j]? = some c'
            ∧ c'.name = c.name
            ∧ c'.type = (if c.type = ""
                then ((observed lines j).head?.map infer_type).getD "" else c.type)
            ∧ ∃ cellss,
                List.Forall₂ (fun value cells => value_cells lib c'.type value = .ok cells)
                  (observed lines j) cellss
                ∧ c'.data = c.data ++ cellss.flatten := by
  induction lines generalizing columns with
  | nil =>
    simp only [read_rows, Except.ok.injEq] at h
    subst h
    refine ⟨rfl, fun j c hj => ⟨c, hj, rfl, ?_, [], ?_, ?_⟩⟩
    · by_cases hc : c.type = ""
      · rw [if_pos hc, hc]
        rfl
      · rw [if_neg hc]
    · simp [observed]
    · simp
  | cons line rest ih =>
    unfold read_rows at h
    cases hf : read_fields lib columns (getlines ',' line.data none) 0 with
    | error e => simp [hf] at h
    | ok columns1 =>
      simp only [hf] at h
      obtain ⟨hlen1, hcols1⟩ := read_fields_ok lib _ columns columns1 0 hf
      obtain ⟨hlen, hcols⟩ := ih columns1 h
      refine ⟨by rw [hlen, hlen1], ?_⟩
      intro j c hj
      obtain ⟨c1, hc1, hif⟩ := hcols1 j c hj
      rw [if_pos (Nat.zero_le _), Nat.sub_zero] at hif
      obtain ⟨c', hc', hname, htype, cellss, hall, hdata⟩ := hcols j c1 hc1
      refine ⟨c', hc', ?_⟩
      rw [observed_cons]
      cases hv : (getlines ',' line.data none)[j]? with
      | none =>
        rw [hv] at hif
        simp only at hif
        subst hif
        exact ⟨hname, htype, cellss, hall, hdata⟩
      | some value =>
        rw [hv] at hif
        simp only at hif
        obtain ⟨hname1, htype1, cells, hcells, hdata1⟩ := store_value_ok lib c c1 value hif
        have hne := store_value_type_ne_empty lib c c1 value hif
        rw [if_neg hne] at htype
        refine ⟨by rw [hname, hname1], ?_, cells :: cellss, ?_, ?_⟩
        · rw [htype, htype1]
          simp
        · exact List.Forall₂.cons (by rw [htype]; exact hcells) hall
        · rw [hdata, hdata1, List.flatten_cons, List.append_assoc]

theorem read_header_fresh (lines : List String) (c : Column) (h : c ∈ read_header lines) :
    c.type = "" ∧ c.data = [] := by
  cases lines with
  | nil => simp [read_header] at h
  | cons line rest =>
    simp only [read_header, List.mem_map] at h
    obtain ⟨name, _, rfl⟩ := h
    exact ⟨rfl, rfl⟩

/-- In a concatenation of chunks of `w` bytes each, the bytes at `i * w` are
chunk `i`. -/
theorem flatten_uniform_chunk (chunks : List (List Byte)) (w i : Nat) (rest chunk : List Byte)
    (hw : ∀ c ∈ chunks, c.length = w) (hi : chunks[i]? = some chunk) :
    ((chunks.flatten ++ rest).drop (i * w)).take w = chunk := by
  induction chunks generalizing i with
  | nil => simp at hi
  | cons first others ih =>
    have hfirst : first.length = w := hw first (List.mem_cons_self _ _)
    cases i with
    | zero =>
      simp only [List.getElem?_cons_zero, Option.some.injEq] at hi
      subst hi
      rw [Nat.zero_mul, List.drop_zero, List.flatten_cons, List.append_assoc,
        List.take_left' hfirst]
    | succ i =>
      simp only [List.getElem?_cons_succ] at hi
      have hdrop : (i + 1) * w = first.length + i * w := by
        rw [hfirst, Nat.add_mul, Nat.one_mul, Nat.add_comm]
      rw [List.flatten_cons, List.append_assoc, hdrop, ← List.drop_drop, List.drop_left]
      exact ih i (fun c hc => hw c (List.mem_cons_of_mem _ hc)) hi

theorem flatten_uniform_length (chunks : List (List Byte)) (w : Nat)
    (hw : ∀ c ∈ chunks, c.length = w) : chunks.flatten.length = chunks.length * w := by
  induction chunks with
  | nil => simp
  | cons first others ih =>
    rw [List.flatten_cons, List.length_append, hw first (List.mem_cons_self _ _),
      ih (fun c hc => hw c (List.mem_cons_of_mem _ hc)), List.length_cons, Nat.add_mul,
      Nat.one_mul, Nat.add_comm]

/-- What the converter writes when the CSV file opens, the row loop ends with
`columns` and the output file can be created. -/
theorem convert_ok (json : JsonLib) (lib : StdLib) (csv_files : String → Option String)
    (fs : FileSystem) (csv_path hty_path text : String) (columns : List Column)
    (hcsv : csv_files csv_path = some text)
    (hrows : read_rows lib (read_header (getlines '\n' text.data none))
      ((getlines '\n' text.data none).drop 1) = .ok columns)
    (hout : fs.writable hty_path = true) :
    convert_from_csv_to_hty json lib csv_files fs csv_path hty_path
      = .ok (fs.store hty_path
          ((columns.map (fun col => bytes_of_cells col.data)).flatten
            ++ write_trailer json
                ⟨toInt32 ((getlines '\n' text.data none).drop 1).length,
                  [⟨0, columns.map (fun col => ⟨col.name, col.type⟩)⟩]⟩)) := by
  unfold convert_from_csv_to_hty
  simp only [hcsv, hrows, hout, if_true]

/-- Claim C20: when the row loop of the converter ends normally with the
columns `columns` (the header being the first of `lines`, the data lines the
others), every column `c` at position `j` has the type inferred from the
first value met for it (the empty string when no value was met), where the
inferred type is `float` if the value contains a `.`, otherwise `int` if each
of its characters is a digit or `-`, otherwise `string`; and its data is the
concatenation of the cells of all the values met for it, each encoded
(`value_cells`) with that one type. -/
theorem column_type_from_first_value (lib : StdLib) (lines : List String)
    (columns : List Column)
    (hok : read_rows lib (read_header lines) (lines.drop 1) = .ok columns) :
    (∀ value, infer_type value =
        if '.' ∈ value.data then "float"
        else if ∀ c ∈ value.data, c ∈ "0123456789-".data then "int"
        else "string")
      ∧ columns.length = (read_header lines).length
      ∧ ∀ (j : Nat) (c : Column), columns[j]? = some c →
          c.type = ((observed (lines.drop 1) j).head?.map infer_type).getD ""
            ∧ ∃ cellss,
                List.Forall₂ (fun value cells => value_cells lib c.type value = .ok cells)
                  (observed (lines.drop 1) j) cellss
                ∧ c.data = cellss.flatten := by
  obtain ⟨hlen, hcols⟩ := read_rows_ok lib _ _ columns hok
  refine ⟨infer_type_spec, hlen, ?_⟩
  intro j c hj
  have hjlt : j < (read_header lines).length := by
    rw [← hlen]
    exact (List.getElem?_eq_some_iff.mp hj).1
  obtain ⟨c', hc', _, htype, cellss, hall, hdata⟩ :=
    hcols j (read_header lines)[j] (List.getElem?_eq_getElem hjlt)
  rw [hj] at hc'
  injection hc' with hc'
  subst hc'
  obtain ⟨ht0, hd0⟩ := read_header_fresh lines _ (List.getElem_mem hjlt)
  rw [if_pos ht0] at htype
  rw [hd0, List.nil_append] at hdata
  exact ⟨htype, cellss, hall, hdata⟩

/-- Claim C20 at the file `test/mixed.csv`: the column `x` is typed `float`
from its first value `1.5`, and its second value `2`, which alone would be
typed `int`, is stored as the bit pattern of 2.0. -/
theorem column_type_from_first_value_witness :
    getlines '\n' "x\n1.5\n2\n".data none = ["x", "1.5", "2"]
      ∧ read_rows sample_stdlib (read_header ["x", "1.5", "2"]) (["x", "1.5", "2"].drop 1)
          = .ok [⟨"x", "float", [1069547520, 1073741824]⟩]
      ∧ infer_type "2" = "int"
      ∧ observed (["x", "1.5", "2"].drop 1) 0 = ["1.5", "2"]
      ∧ ((∀ value, infer_type value =
            if '.' ∈ value.data then "float"
            else if ∀ c ∈ value.data, c ∈ "0123456789-".data then "int"
            else "string")
          ∧ ([⟨"x", "float", [1069547520, 1073741824]⟩] : List Column).length
              = (read_header ["x", "1.5", "2"]).length
          ∧ ∀ (j : Nat) (c : Column),
              ([⟨"x", "float", [1069547520, 1073741824]⟩] : List Column)[j]? = some c →
              c.type = ((observed (["x", "1.5", "2"].drop 1) j).head?.map infer_type).getD ""
                ∧ ∃ cellss,
                    List.Forall₂
                      (fun value cells => value_cells sample_stdlib c.type value = .ok cells)
                      (observed (["x", "1.5", "2"].drop 1) j) cellss
                    ∧ c.data = cellss.flatten) :=
  ⟨by decide, by decide, by decide, by decide,
    column_type_from_first_value sample_stdlib ["x", "1.5", "2"]
      [⟨"x", "float", [1069547520, 1073741824]⟩] (by decide)⟩

/-! ## The layout the converter writes -/

theorem observed_length (lines : List String) (j : Nat)
    (h : ∀ line ∈ lines, j < (getlines ',' line.data none).length) :
    (observed lines j).length = lines.length := by
  induction lines with
  | nil => rfl
  | cons line rest ih =>
    rw [observed_cons]
    have hj := h line (List.mem_cons_self _ _)
    rw [List.getElem?_eq_getElem hj]
    simp only [List.length_cons]
    rw [ih (fun l hl => h l (List.mem_cons_of_mem _ hl))]

theorem value_cells_length (lib : StdLib) (type value : String) (cells : List Int)
    (ht : type = "float" ∨ type = "int") (h : value_cells lib type value = .ok cells) :
    cells.length = 1 := by
  unfold value_cells at h
  rcases ht with ht | ht
  · subst ht
    rw [if_pos rfl] at h
    cases hs : lib.stof value with
    | error e => simp [hs] at h
    | ok v =>
      simp only [hs, Except.ok.injEq] at h
      subst h
      rfl
  · subst ht
    rw [if_neg (by decide), if_pos rfl] at h
    cases hs : lib.stoi value with
    | error e => simp [hs] at h
    | ok v =>
      simp only [hs, Except.ok.injEq] at h
      subst h
      rfl

theorem flatten_length_of_singletons (lib : StdLib) (type : String) (values : List String)
    (cellss : List (List Int)) (ht : type = "float" ∨ type = "int")
    (h : List.Forall₂ (fun value cells => value_cells lib type value = .ok cells)
      values cellss) :
    cellss.flatten.length = values.length := by
  induction h with
  | nil => rfl
  | cons hhead _ ih =>
    rw [List.flatten_cons, List.length_append, value_cells_length lib type _ _ ht hhead, ih,
      List.length_cons, Nat.add_comm]

/-- A column the row loop leaves with a type other than `string` has one cell
for each value met. -/
theorem column_data_length (lib : StdLib) (lines : List String) (columns : List Column)
    (hok : read_rows lib (read_header lines) (lines.drop 1) = .ok columns)
    (j : Nat) (c : Column) (hj : columns[j]? = some c) (hc : c.type ≠ "string") :
    c.data.length = (observed (lines.drop 1) j).length := by
  obtain ⟨hlen, hcols⟩ := read_rows_ok lib _ _ columns hok
  have hjlt : j < (read_header lines).length := by
    rw [← hlen]
    exact (List.getElem?_eq_some_iff.mp hj).1
  obtain ⟨c', hc', _, htype, cellss, hall, hdata⟩ :=
    hcols j (read_header lines)[j] (List.getElem?_eq_getElem hjlt)
  rw [hj] at hc'
  injection hc' with hc'
  subst hc'
  obtain ⟨ht0, hd0⟩ := read_header_fresh lines _ (List.getElem_mem hjlt)
  rw [if_pos ht0] at htype
  rw [hd0, List.nil_append] at hdata
  rw [hdata]
  cases hobs : observed (lines.drop 1) j with
  | nil =>
    rw [hobs] at hall
    cases hall
    rfl
  | cons value rest =>
    rw [hobs] at htype hall
    simp only [List.head?_cons, Option.map_some', Option.getD_some] at htype
    have ht : c.type = "float" ∨ c.type = "int" := by
      rcases infer_type_cases value with h | h | h
      · exact Or.inl (htype.trans h)
      · exact Or.inr (htype.trans h)
      · exact absurd (htype.trans h) hc
    exact flatten_length_of_singletons lib c.type _ cellss ht hall

theorem read_rows_names (lib : StdLib) (lines : List String) (columns columns' : List Column)
    (h : read_rows lib columns lines = .ok columns') :
    columns'.map (fun col => col.name) = columns.map (fun col => col.name) := by
  obtain ⟨hlen, hcols⟩ := read_rows_ok lib lines columns columns' h
  apply List.ext_getElem?
  intro i
  rw [List.getElem?_map, List.getElem?_map]
  by_cases hi : i < columns.length
  · obtain ⟨c', hc', hname, _⟩ := hcols i columns[i] (List.getElem?_eq_getElem hi)
    rw [hc', List.getElem?_eq_getElem hi]
    simp [hname]
  · rw [List.getElem?_eq_none (by omega), List.getElem?_eq_none (by omega)]

/-- Claim C19 does not hold for every input the converter accepts: the file
`test/names.csv` (header `name`, one data line `bob`) is converted without an
error, the column is typed `string` and its value is stored as the four cells
98, 111, 98, 0, so with one column and `num_rows` = 1 the data region has 16
bytes and not 1 * 1 * 4. -/
theorem convert_string_column :
    convert_from_csv_to_hty sample_json sample_stdlib sample_csv_files sample_fs
        "test/names.csv" "test/names.hty"
      = .ok (sample_fs.store "test/names.hty"
          (bytes_of_cells [98, 111, 98, 0]
            ++ write_trailer sample_json ⟨1, [⟨0, [⟨"name", "string"⟩]⟩]⟩))
      ∧ (bytes_of_cells [98, 111, 98, 0]).length = 16
      ∧ (bytes_of_cells [98, 111, 98, 0]).length
          ≠ ([⟨"name", "string"⟩] : List ColumnMeta).length * 1 * 4 :=
  ⟨rfl, by decide, by decide⟩

/-- Claim C19, amended: let the CSV file open with the lines `lines`, let
every data line have exactly as many fields as the header, let there be fewer
than `2^31` data lines, let the row loop end normally with `columns`, none of
them typed `string`, and let the output file be creatable. Then the converter
writes `data ++ trailer` where the document has `num_rows` = `n` (the number
of data lines) and exactly one group, at offset 0, whose columns are the
header names in header order; `data` has (number of columns) * n * 4 bytes;
and every column `i` has `n` cells, which are the bytes
`[i*n*4, (i+1)*n*4)` of `data`. -/
theorem convert_layout (json : JsonLib) (lib : StdLib) (csv_files : String → Option String)
    (fs : FileSystem) (csv_path hty_path text : String) (lines : List String)
    (columns : List Column)
    (hcsv : csv_files csv_path = some text)
    (hlines : getlines '\n' text.data none = lines)
    (hrect : ∀ line ∈ lines.drop 1,
      (getlines ',' line.data none).length = (read_header lines).length)
    (hcount : (lines.drop 1).length < 2147483648)
    (hrows : read_rows lib (read_header lines) (lines.drop 1) = .ok columns)
    (hnostr : ∀ c ∈ columns, c.type ≠ "string")
    (hout : fs.writable hty_path = true) :
    ∃ data metas,
      convert_from_csv_to_hty json lib csv_files fs csv_path hty_path
          = .ok (fs.store hty_path
              (data ++ write_trailer json ⟨((lines.drop 1).length : Int), [⟨0, metas⟩]⟩))
        ∧ metas.map (fun m => m.column_name) = (read_header lines).map (fun col => col.name)
        ∧ metas.map (fun m => m.column_type) = columns.map (fun col => col.type)
        ∧ data.length = metas.length * (lines.drop 1).length * 4
        ∧ ∀ (i : Nat) (c : Column), columns[i]? = some c →
            c.data.length = (lines.drop 1).length
              ∧ (data.drop (i * (lines.drop 1).length * 4)).take ((lines.drop 1).length * 4)
                  = bytes_of_cells c.data := by
  subst hlines
  obtain ⟨hlen, _⟩ := read_rows_ok lib _ _ columns hrows
  have hn : toInt32 (((getlines '\n' text.data none).drop 1).length : Int)
      = (((getlines '\n' text.data none).drop 1).length : Int) :=
    toInt32_of_int (by omega) (by omega)
  have hcells : ∀ (i : Nat) (c : Column), columns[i]? = some c →
      c.data.length = ((getlines '\n' text.data none).drop 1).length := by
    intro i c hi
    have hilt : i < (read_header (getlines '\n' text.data none)).length := by
      rw [← hlen]
      exact (List.getElem?_eq_some_iff.mp hi).1
    rw [column_data_length lib _ columns hrows i c hi (hnostr c (List.getElem?_mem hi))]
    exact observed_length _ i (fun line hl => by rw [hrect line hl]; exact hilt)
  have hw : ∀ chunk ∈ columns.map (fun col => bytes_of_cells col.data),
      chunk.length = 4 * ((getlines '\n' text.data none).drop 1).length := by
    intro chunk hchunk
    obtain ⟨c, hc, rfl⟩ := List.mem_map.mp hchunk
    obtain ⟨i, hi⟩ := List.getElem?_of_mem hc
    rw [bytes_of_cells_length, hcells i c hi]
  refine ⟨(columns.map (fun col => bytes_of_cells col.data)).flatten,
    columns.map (fun col => ⟨col.name, col.type⟩), ?_, ?_, ?_, ?_, ?_⟩
  · rw [convert_ok json lib csv_files fs csv_path hty_path text columns hcsv hrows hout, hn]
  · rw [List.map_map]
    exact read_rows_names lib _ _ columns hrows
  · rw [List.map_map]
    rfl
  · rw [flatten_uniform_length _ _ hw, List.length_map, List.length_map]
    ring
  · intro i c hi
    refine ⟨hcells i c hi, ?_⟩
    have hchunk : (columns.map (fun col => bytes_of_cells col.data))[i]?
        = some (bytes_of_cells c.data) := by
      rw [List.getElem?_map, hi]
      rfl
    have := flatten_uniform_chunk _ _ i [] _ hw hchunk
    rw [List.append_nil] at this
    rw [Nat.mul_assoc, Nat.mul_comm ((getlines '\n' text.data none).drop 1).length 4]
    exact this

/-- Claim C19 at the file `test/test.csv`: three rows of the columns `id`
and `salary`; the file written is the sample file. -/
theorem convert_layout_witness :
    sample_csv_files "test/test.csv" = some "id,salary\n1,50000.0\n2,49000.0\n3,51000.0\n"
      ∧ read_rows sample_stdlib (read_header ["id,salary", "1,50000.0", "2,49000.0", "3,51000.0"]) (["id,salary", "1,50000.0", "2,49000.0", "3,51000.0"].drop 1)
          = .ok [⟨"id", "int", [1, 2, 3]⟩, ⟨"salary", "float", [1195593728, 1195337728, 1195849728]⟩]
      ∧ convert_from_csv_to_hty sample_json sample_stdlib sample_csv_files sample_fs
          "test/test.csv" "test/out.hty" = .ok (sample_fs.store "test/out.hty" sample_file)
      ∧ ∃ data metas,
        convert_from_csv_to_hty sample_json sample_stdlib sample_csv_files sample_fs
            "test/test.csv" "test/out.hty"
            = .ok (sample_fs.store "test/out.hty"
                (data ++ write_trailer sample_json
                  ⟨((["id,salary", "1,50000.0", "2,49000.0", "3,51000.0"].drop 1).length : Int), [⟨0, metas⟩]⟩))
          ∧ metas.map (fun m => m.column_name)
              = (read_header ["id,salary", "1,50000.0", "2,49000.0", "3,51000.0"]).map (fun col => col.name)
          ∧ metas.map (fun m => m.column_type)
              = ([⟨"id", "int", [1, 2, 3]⟩, ⟨"salary", "float", [1195593728, 1195337728, 1195849728]⟩] : List Column).map (fun col => col.type)
          ∧ data.length = metas.length * (["id,salary", "1,50000.0", "2,49000.0", "3,51000.0"].drop 1).length * 4
          ∧ ∀ (i : Nat) (c : Column),
              ([⟨"id", "int", [1, 2, 3]⟩, ⟨"salary", "float", [1195593728, 1195337728, 1195849728]⟩] : List Column)[i]? = some c →
              c.data.length = (["id,salary", "1,50000.0", "2,49000.0", "3,51000.0"].drop 1).length
                ∧ (data.drop (i * (["id,salary", "1,50000.0", "2,49000.0", "3,51000.0"].drop 1).length * 4)).take
                    ((["id,salary", "1,50000.0", "2,49000.0", "3,51000.0"].drop 1).length * 4)
                    = bytes_of_cells c.data :=
  ⟨rfl, by decide, rfl,
    convert_layout sample_json sample_stdlib sample_csv_files sample_fs
      "test/test.csv" "test/out.hty" "id,salary\n1,50000.0\n2,49000.0\n3,51000.0\n"
      ["id,salary", "1,50000.0", "2,49000.0", "3,51000.0"]
      [⟨"id", "int", [1, 2, 3]⟩, ⟨"salary", "float", [1195593728, 1195337728, 1195849728]⟩]
      rfl (by decide) (by decide) (by decide) (by decide) (by decide) rfl⟩

/-! ## What `add_row` leaves unchanged -/

theorem updated_metadata_groups (metadata : Metadata) (rows : List (List Int)) :
    (updated_metadata metadata rows).groups = metadata.groups := rfl

/-- Claim C21: when `add_row` succeeds, the document `extract_metadata`
decodes from the destination file has the groups of the input metadata: the
same groups in the same order, each with the same offset and the same columns
(names and types), so no offset is recomputed. (The JSON library is assumed to
parse its own output for the new document, shorter than `2^31` bytes, back to
it.) -/
theorem add_row_keeps_groups (json : JsonLib) (unwritten : Int)
    (fs fs' : FileSystem) (metadata : Metadata)
    (src dst : String) (rows : List (List Int))
    (hL : (json.dump (updated_metadata metadata rows)).length < 2147483648)
    (hparse : json.parse (json.dump (updated_metadata metadata rows))
      = some (updated_metadata metadata rows))
    (hadd : add_row json fs metadata src dst rows = .ok fs') :
    ∃ modified_metadata, extract_metadata json fs' dst unwritten = .ok modified_metadata
      ∧ modified_metadata.groups = metadata.groups
      ∧ modified_metadata.groups.map (fun g => g.offset) = metadata.groups.map (fun g => g.offset)
      ∧ modified_metadata.groups.map (fun g => g.columns)
          = metadata.groups.map (fun g => g.columns) := by
  obtain ⟨existing_data, data, _, _, hfs⟩ := add_row_ok json fs fs' metadata src dst rows hadd
  refine ⟨updated_metadata metadata rows, ?_, rfl, rfl, rfl⟩
  apply extract_metadata_of_trailer json unwritten fs' dst data _ hL hparse
  rw [hfs, store_files_self]

/-- Claim C21 at the two-group file with the new row `(3, 30)`: the decoded
document keeps the offsets 0 and 8. -/
theorem add_row_keeps_groups_witness :
    add_row sample_json two_group_fs two_group_metadata "test/two.hty" "test/two_modified.hty"
        [[3, 30]] = .ok two_group_modified_fs
      ∧ extract_metadata sample_json two_group_modified_fs "test/two_modified.hty" 0
          = .ok ⟨3, two_group_metadata.groups⟩
      ∧ ∃ modified_metadata,
          extract_metadata sample_json two_group_modified_fs "test/two_modified.hty" 0
            = .ok modified_metadata
          ∧ modified_metadata.groups = two_group_metadata.groups
          ∧ modified_metadata.groups.map (fun g => g.offset)
              = two_group_metadata.groups.map (fun g => g.offset)
          ∧ modified_metadata.groups.map (fun g => g.columns)
              = two_group_metadata.groups.map (fun g => g.columns) :=
  ⟨rfl, by decide,
    add_row_keeps_groups sample_json 0 two_group_fs two_group_modified_fs two_group_metadata
      "test/two.hty" "test/two_modified.hty" [[3, 30]] (by decide) (by decide) rfl⟩

theorem store_files_other (fs : FileSystem) (path p : String) (bytes : List Byte)
    (h : p ≠ path) : (fs.store path bytes).files p = fs.files p := by
  simp [FileSystem.store, h]

/-- Claim C22 does not hold for every pair of paths: with the sample file as
both source and destination, `add_row` succeeds and the bytes stored at the
source path afterwards are those of the new file, not those of the sample
file. -/
theorem add_row_onto_source :
    sample_fs.files "test/test.hty" = some sample_file
      ∧ (∃ fs', add_row sample_json sample_fs sample_metadata "test/test.hty" "test/test.hty"
            sample_rows = .ok fs'
          ∧ fs'.files "test/test.hty" = some sample_modified_file)
      ∧ sample_modified_file ≠ sample_file :=
  ⟨rfl, ⟨_, rfl, rfl⟩, by decide⟩

/-- Claim C22, amended: when `add_row` succeeds, every path other than the
destination holds what it held before, so the source file is unchanged
whenever the destination is a different path; the destination holds the file
just written, also when it is the source path. -/
theorem add_row_frame (json : JsonLib) (fs fs' : FileSystem) (metadata : Metadata)
    (src dst : String) (rows : List (List Int))
    (hadd : add_row json fs metadata src dst rows = .ok fs') :
    (∀ p, p ≠ dst → fs'.files p = fs.files p)
      ∧ (src ≠ dst → fs'.files src = fs.files src)
      ∧ ∃ existing_data data,
          read_existing fs metadata src (all_columns metadata) = .ok existing_data
            ∧ write_columns rows existing_data 0 = .ok data
            ∧ fs'.files dst
                = some (data ++ write_trailer json (updated_metadata metadata rows)) := by
  obtain ⟨existing_data, data, hre, hwc, hfs⟩ := add_row_ok json fs fs' metadata src dst rows hadd
  subst hfs
  exact ⟨fun p hp => store_files_other fs dst p _ hp, fun h => store_files_other fs dst src _ h,
    existing_data, data, hre, hwc, store_files_self _ _ _⟩

/-- Claim C22 at the sample file with a destination other than the source. -/
theorem add_row_frame_witness :
    add_row sample_json sample_fs sample_metadata "test/test.hty" "test/modified_test.hty"
        sample_rows = .ok sample_modified_fs
      ∧ sample_modified_fs.files "test/test.hty" = some sample_file
      ∧ ((∀ p, p ≠ "test/modified_test.hty" → sample_modified_fs.files p = sample_fs.files p)
        ∧ ("test/test.hty" ≠ "test/modified_test.hty"
            → sample_modified_fs.files "test/test.hty" = sample_fs.files "test/test.hty")
        ∧ ∃ existing_data data,
            read_existing sample_fs sample_metadata "test/test.hty"
                (all_columns sample_metadata) = .ok existing_data
              ∧ write_columns sample_rows existing_data 0 = .ok data
              ∧ sample_modified_fs.files "test/modified_test.hty"
                  = some (data ++ write_trailer sample_json
                      (updated_metadata sample_metadata sample_rows))) :=
  ⟨rfl, rfl,
    add_row_frame sample_json sample_fs sample_modified_fs sample_metadata "test/test.hty"
      "test/modified_test.hty" sample_rows rfl⟩

/-! ## The file `add_row` writes -/

theorem new_cells_ok (i : Nat) (rows : List (List Int)) (cells : List Int)
    (h : new_cells i rows = .ok cells) :
    (∀ row ∈ rows, i < row.length) ∧ cells = appended_cells rows i := by
  induction rows generalizing cells with
  | nil =>
    simp only [new_cells, Except.ok.injEq] at h
    subst h
    exact ⟨by simp, rfl⟩
  | cons row rest ih =>
    unfold new_cells at h
    cases hr : row[i]? with
    | none => simp [hr] at h
    | some value =>
      cases hn : new_cells i rest with
      | error e => simp [hr, hn] at h
      | ok cells' =>
        simp only [hr, hn, Except.ok.injEq] at h
        subst h
        obtain ⟨hlt, hcells⟩ := ih cells' hn
        have hi : i < row.length := (List.getElem?_eq_some_iff.mp hr).1
        refine ⟨?_, ?_⟩
        · intro r hrm
          rcases List.mem_cons.mp hrm with rfl | hrm
          · exact hi
          · exact hlt r hrm
        · rw [hcells]
          simp only [appended_cells, List.map_cons, List.getD_eq_getElem?_getD, hr,
            Option.getD_some]

/-- The data region `write_columns` produces, when it returns: for each
column, its existing cells followed by the cell of every new row at the
column's position; every row has a cell at every position used. -/
theorem write_columns_ok (rows : List (List Int)) (existing_data : List (List Int)) (k : Nat)
    (bytes : List Byte) (h : write_columns rows existing_data k = .ok bytes) :
    (∀ j, k ≤ j → j < k + existing_data.length → ∀ row ∈ rows, j < row.length)
      ∧ bytes = (List.zipWith (fun cells j => bytes_of_cells (cells ++ appended_cells rows j))
          existing_data (List.range' k existing_data.length)).flatten := by
  induction existing_data generalizing k bytes with
  | nil =>
    simp only [write_columns, Except.ok.injEq] at h
    subst h
    exact ⟨fun j h1 h2 => by simp at h2; omega, by simp⟩
  | cons existing rest ih =>
    unfold write_columns at h
    cases hn : new_cells k rows with
    | error e => simp [hn] at h
    | ok cells =>
      cases hw : write_columns rows rest (k + 1) with
      | error e => simp [hn, hw] at h
      | ok bytes' =>
        simp only [hn, hw, Except.ok.injEq] at h
        subst h
        obtain ⟨hlt, hcells⟩ := new_cells_ok k rows cells hn
        obtain ⟨hrest, hbytes⟩ := ih (k + 1) bytes' hw
        refine ⟨?_, ?_⟩
        · intro j h1 h2 row hrow
          simp only [List.length_cons] at h2
          by_cases hjk : j = k
          · subst hjk
            exact hlt row hrow
          · exact hrest j (by omega) (by omega) row hrow
        · simp only [List.length_cons, List.range'_succ, List.zipWith_cons_cons,
            List.flatten_cons]
          rw [hbytes, hcells, bytes_of_cells_append, List.append_assoc]

/-- The data region `write_columns` produces when every row is long enough. -/
theorem write_columns_total (rows : List (List Int)) (existing_data : List (List Int)) (k : Nat)
    (hrows : ∀ row ∈ rows, k + existing_data.length ≤ row.length) :
    write_columns rows existing_data k
      = .ok (List.zipWith (fun cells j => bytes_of_cells (cells ++ appended_cells rows j))
          existing_data (List.range' k existing_data.length)).flatten := by
  induction existing_data generalizing k with
  | nil => simp [write_columns]
  | cons existing rest ih =>
    simp only [List.length_cons] at hrows
    have hn := new_cells_eq k rows (fun row hr => by have := hrows row hr; omega)
    have hw := ih (k + 1) (fun row hr => by have := hrows row hr; omega)
    simp only [write_columns, hn, hw, List.length_cons, List.range'_succ,
      List.zipWith_cons_cons, List.flatten_cons, bytes_of_cells_append, List.append_assoc]

theorem read_existing_ok (fs : FileSystem) (metadata : Metadata) (path : String)
    (columns : List ColumnMeta) (existing_data : List (List Int))
    (h : read_existing fs metadata path columns = .ok existing_data) :
    List.Forall₂
      (fun c cells => project_single_column fs metadata path c.column_name = .ok cells)
      columns existing_data := by
  induction columns generalizing existing_data with
  | nil =>
    simp only [read_existing, Except.ok.injEq] at h
    subst h
    exact List.Forall₂.nil
  | cons c rest ih =>
    unfold read_existing at h
    cases hp : project_single_column fs metadata path c.column_name with
    | error e => simp [hp] at h
    | ok cells =>
      cases hr : read_existing fs metadata path rest with
      | error e => simp [hp, hr] at h
      | ok others =>
        simp only [hp, hr, Except.ok.injEq] at h
        subst h
        exact List.Forall₂.cons hp (ih others hr)

theorem zipWith_chunks_length (rows : List (List Int)) (existing_data : List (List Int))
    (k n : Nat) (h : ∀ cells ∈ existing_data, cells.length = n) :
    (List.zipWith (fun cells j => bytes_of_cells (cells ++ appended_cells rows j))
        existing_data (List.range' k existing_data.length)).flatten.length
      = existing_data.length * (n + rows.length) * 4 := by
  induction existing_data generalizing k with
  | nil => simp
  | cons existing rest ih =>
    simp only [List.length_cons, List.range'_succ, List.zipWith_cons_cons, List.flatten_cons,
      List.length_append, bytes_of_cells_length, appended_cells_length,
      h existing (List.mem_cons_self _ _),
      ih (k + 1) (fun c hc => h c (List.mem_cons_of_mem _ hc))]
    ring

/-- Claim C24: when `add_row` succeeds, the destination file is exactly, from
byte 0 on and without gaps: for each column in flattened order (position `j`),
the cells `project_single_column` returned for that column's name on the
source, then the cell at position `j` of every new row in order (every row
has one), each cell as 4 bytes; then the serialised updated metadata; then
its length (as an `int`) in 4 bytes. The data region has
`C * (old_n + len(rows)) * 4` bytes, `C` being the number of columns of all
groups and `old_n` the old `num_rows` as the `int` the code reads; the group
offsets play no part. -/
theorem add_row_file_contents (json : JsonLib) (fs fs' : FileSystem) (metadata : Metadata)
    (src dst : String) (rows : List (List Int))
    (hadd : add_row json fs metadata src dst rows = .ok fs') :
    ∃ existing_data : List (List Int),
      List.Forall₂
          (fun c cells => project_single_column fs metadata src c.column_name = .ok cells)
          (all_columns metadata) existing_data
        ∧ (∀ j, j < (all_columns metadata).length → ∀ row ∈ rows, j < row.length)
        ∧ fs'.files dst = some
            ((List.zipWith (fun cells j => bytes_of_cells (cells ++ appended_cells rows j))
                existing_data (List.range (all_columns metadata).length)).flatten
              ++ json.dump (updated_metadata metadata rows)
              ++ int_bytes (toInt32 (json.dump (updated_metadata metadata rows)).length))
        ∧ (List.zipWith (fun cells j => bytes_of_cells (cells ++ appended_cells rows j))
              existing_data (List.range (all_columns metadata).length)).flatten.length
            = (all_columns metadata).length
                * ((toInt32 metadata.num_rows).toNat + rows.length) * 4
        ∧ ((json.dump (updated_metadata metadata rows)).length < 2147483648 →
            toInt32 (json.dump (updated_metadata metadata rows)).length
              = (json.dump (updated_metadata metadata rows)).length) := by
  obtain ⟨existing_data, data, hre, hwc, hfs⟩ := add_row_ok json fs fs' metadata src dst rows hadd
  have hall := read_existing_ok fs metadata src _ existing_data hre
  have hlen : existing_data.length = (all_columns metadata).length := hall.length_eq.symm
  obtain ⟨hrows, hdata⟩ := write_columns_ok rows existing_data 0 data hwc
  have hcells : ∀ cells ∈ existing_data, cells.length = (toInt32 metadata.num_rows).toNat := by
    intro cells hc
    obtain ⟨i, hi⟩ := List.getElem?_of_mem hc
    have hilt : i < existing_data.length := (List.getElem?_eq_some_iff.mp hi).1
    have hcol := List.Forall₂.get hall (by omega) hilt
    have hget : existing_data.get ⟨i, hilt⟩ = cells := by
      have := List.getElem?_eq_getElem hilt
      rw [hi] at this
      exact (Option.some.inj this).symm
    rw [hget] at hcol
    exact (project_single_column_length fs metadata src _ cells hcol).2
  rw [List.range_eq_range', ← hlen]
  refine ⟨existing_data, hall, ?_, ?_, ?_, ?_⟩
  · intro j hj row hrow
    exact hrows j (Nat.zero_le _) (by omega) row hrow
  · rw [hfs, store_files_self, hdata, write_trailer, List.append_assoc]
  · exact zipWith_chunks_length rows existing_data 0 _ hcells
  · intro hL
    exact toInt32_of_int (by omega) (by omega)

/-- Claim C24 at the sample file with the new row `(4, 48000.0)`. -/
theorem add_row_file_contents_witness :
    add_row sample_json sample_fs sample_metadata "test/test.hty" "test/modified_test.hty"
        sample_rows = .ok sample_modified_fs
      ∧ sample_modified_fs.files "test/modified_test.hty"
          = some (bytes_of_cells [1, 2, 3, 4]
              ++ bytes_of_cells [1195593728, 1195337728, 1195849728, 1195081728]
              ++ write_trailer sample_json ⟨4, sample_metadata.groups⟩)
      ∧ ∃ existing_data : List (List Int),
        List.Forall₂
            (fun c cells => project_single_column sample_fs sample_metadata "test/test.hty"
              c.column_name = .ok cells)
            (all_columns sample_metadata) existing_data
          ∧ (∀ j, j < (all_columns sample_metadata).length →
              ∀ row ∈ sample_rows, j < row.length)
          ∧ sample_modified_fs.files "test/modified_test.hty" = some
              ((List.zipWith
                  (fun cells j => bytes_of_cells (cells ++ appended_cells sample_rows j))
                  existing_data (List.range (all_columns sample_metadata).length)).flatten
                ++ sample_json.dump (updated_metadata sample_metadata sample_rows)
                ++ int_bytes (toInt32
                    (sample_json.dump (updated_metadata sample_metadata sample_rows)).length))
          ∧ (List.zipWith
                (fun cells j => bytes_of_cells (cells ++ appended_cells sample_rows j))
                existing_data (List.range (all_columns sample_metadata).length)).flatten.length
              = (all_columns sample_metadata).length
                  * ((toInt32 sample_metadata.num_rows).toNat + sample_rows.length) * 4
          ∧ ((sample_json.dump (updated_metadata sample_metadata sample_rows)).length
                < 2147483648 →
              toInt32 (sample_json.dump (updated_metadata sample_metadata sample_rows)).length
                = (sample_json.dump (updated_metadata sample_metadata sample_rows)).length) :=
  ⟨rfl, rfl,
    add_row_file_contents sample_json sample_fs sample_modified_fs sample_metadata
      "test/test.hty" "test/modified_test.hty" sample_rows rfl⟩

/-! ## The cells `add_row` takes from the new rows -/

theorem project_single_column_scan_error (file : IStream) (num_rows : Int) (name : String)
    (groups : List Group) (e : Error)
    (h : project_single_column_scan file num_rows name groups = .error e) :
    e = .column_not_found ∨ e = .length_error := by
  induction groups with
  | nil =>
    simp only [project_single_column_scan, Except.error.injEq] at h
    exact Or.inl h.symm
  | cons g rest ih =>
    unfold project_single_column_scan at h
    cases hi : column_index g.columns name with
    | none =>
      simp only [hi] at h
      exact ih h
    | some i =>
      simp only [hi] at h
      by_cases hneg : num_rows < 0
      · simp only [hneg, if_true, Except.error.injEq] at h
        exact Or.inr h.symm
      · simp [hneg] at h

theorem project_single_column_error (fs : FileSystem) (metadata : Metadata)
    (path name : String) (e : Error)
    (h : project_single_column fs metadata path name = .error e) :
    e = .unable_to_open_file ∨ e = .column_not_found ∨ e = .length_error := by
  unfold project_single_column at h
  cases hf : fs.files path with
  | none =>
    simp only [hf, Except.error.injEq] at h
    exact Or.inl h.symm
  | some data =>
    simp only [hf] at h
    exact Or.inr (project_single_column_scan_error _ _ _ _ e h)

theorem read_existing_error (fs : FileSystem) (metadata : Metadata) (path : String)
    (columns : List ColumnMeta) (e : Error)
    (h : read_existing fs metadata path columns = .error e) :
    e = .unable_to_open_file ∨ e = .column_not_found ∨ e = .length_error := by
  induction columns with
  | nil => simp [read_existing] at h
  | cons c rest ih =>
    unfold read_existing at h
    cases hp : project_single_column fs metadata path c.column_name with
    | error e' =>
      simp only [hp, Except.error.injEq] at h
      subst h
      exact project_single_column_error fs metadata path _ e' hp
    | ok cells =>
      cases hr : read_existing fs metadata path rest with
      | error e' =>
        simp only [hp, hr, Except.error.injEq] at h
        subst h
        exact ih hr
      | ok others => simp [hp, hr] at h

theorem appended_cells_take (rows : List (List Int)) (C j : Nat) (hj : j < C) :
    appended_cells (rows.map (List.take C)) j = appended_cells rows j := by
  unfold appended_cells
  rw [List.map_map]
  apply List.map_congr_left
  intro row _
  simp only [Function.comp, List.getD_eq_getElem?_getD, List.getElem?_take_of_lt hj]

theorem zipWith_appended_congr (rows rows' : List (List Int)) (existing_data : List (List Int))
    (k C : Nat) (hC : k + existing_data.length ≤ C)
    (hagree : rows.map (List.take C) = rows'.map (List.take C)) :
    List.zipWith (fun cells j => bytes_of_cells (cells ++ appended_cells rows j))
        existing_data (List.range' k existing_data.length)
      = List.zipWith (fun cells j => bytes_of_cells (cells ++ appended_cells rows' j))
        existing_data (List.range' k existing_data.length) := by
  induction existing_data generalizing k with
  | nil => rfl
  | cons existing rest ih =>
    simp only [List.length_cons] at hC
    simp only [List.length_cons, List.range'_succ, List.zipWith_cons_cons]
    rw [ih (k + 1) (by omega), ← appended_cells_take rows C k (by omega),
      ← appended_cells_take rows' C k (by omega), hagree]

/-- Claim C28: with `C` the number of columns of all groups, if every new row
has at least `C` cells then `add_row` makes no row access out of bounds, and
its outcome (the file system it leaves, or the exception) is the same for any
other list of rows that agrees with it on the first `C` cells of every row:
the cells from position `C` on have no influence. -/
theorem add_row_row_access (json : JsonLib) (fs : FileSystem) (metadata : Metadata)
    (src dst : String) (rows rows' : List (List Int))
    (hrows : ∀ row ∈ rows, (all_columns metadata).length ≤ row.length)
    (hrows' : ∀ row ∈ rows', (all_columns metadata).length ≤ row.length)
    (hagree : rows.map (List.take (all_columns metadata).length)
      = rows'.map (List.take (all_columns metadata).length)) :
    add_row json fs metadata src dst rows ≠ .error .index_out_of_bounds
      ∧ add_row json fs metadata src dst rows = add_row json fs metadata src dst rows' := by
  have hlen : rows.length = rows'.length := by
    have := congrArg List.length hagree
    simpa using this
  have hmeta : updated_metadata metadata rows = updated_metadata metadata rows' := by
    simp only [updated_metadata, hlen]
  unfold add_row
  cases hre : read_existing fs metadata src (all_columns metadata) with
  | error e =>
    refine ⟨?_, rfl⟩
    intro h
    simp only [Except.error.injEq] at h
    subst h
    rcases read_existing_error fs metadata src _ _ hre with h | h | h <;> cases h
  | ok existing_data =>
    have hex : existing_data.length = (all_columns metadata).length :=
      (read_existing_ok fs metadata src _ existing_data hre).length_eq.symm
    have hw := write_columns_total rows existing_data 0
      (fun row hr => by have := hrows row hr; omega)
    have hw' := write_columns_total rows' existing_data 0
      (fun row hr => by have := hrows' row hr; omega)
    rw [zipWith_appended_congr rows rows' existing_data 0 _ (by omega) hagree] at hw
    constructor
    · simp only [hw]
      split <;> simp
    · simp only [hw, hw', hmeta]

/-- Claim C28 at the sample file: the rows `(4, 48000.0)` and
`(4, 48000.0, 99)` give the same file. -/
theorem add_row_row_access_witness :
    add_row sample_json sample_fs sample_metadata "test/test.hty" "test/modified_test.hty"
        [[4, 1195081728, 99]] = .ok sample_modified_fs
      ∧ (add_row sample_json sample_fs sample_metadata "test/test.hty" "test/modified_test.hty"
            [[4, 1195081728, 99]] ≠ .error .index_out_of_bounds
        ∧ add_row sample_json sample_fs sample_metadata "test/test.hty"
            "test/modified_test.hty" [[4, 1195081728, 99]]
          = add_row sample_json sample_fs sample_metadata "test/test.hty"
            "test/modified_test.hty" sample_rows) :=
  ⟨rfl,
    add_row_row_access sample_json sample_fs sample_metadata "test/test.hty"
      "test/modified_test.hty" [[4, 1195081728, 99]] sample_rows (by decide) (by decide)
      (by decide)⟩

/-! ## The bytes a single-column projection depends on -/

/-- The result of `project_single_column` when the first match is column `i`
of group `g`, for any row count. -/
theorem project_single_column_at (fs : FileSystem) (metadata : Metadata) (path name : String)
    (data : List Byte) (pre post : List Group) (g : Group) (i : Nat)
    (hfile : fs.files path = some data)
    (hgroups : metadata.groups = pre ++ g :: post)
    (hpre : ∀ g' ∈ pre, ∀ c ∈ g'.columns, c.column_name ≠ name)
    (hidx : column_index g.columns name = some i) :
    project_single_column fs metadata path name
      = if toInt32 metadata.num_rows < 0 then .error .length_error
        else .ok (cells_of_bytes
          ((IStream.seekg ⟨data, 0, false⟩
              (byte_offset g.offset i (toInt32 metadata.num_rows))).read
            (zero_buffer (toInt32 metadata.num_rows).toNat)
            (4 * (toInt32 metadata.num_rows).toNat)).1) := by
  unfold project_single_column
  rw [hfile]
  simp only [hgroups, project_single_column_scan_skip _ _ _ _ _ hpre,
    project_single_column_scan, hidx, IStream.open_]

/-- A seek and a read of `4 * n` bytes give the same buffer on two files that
agree on the bytes from the offset on, up to `4 * n` of them. -/
theorem read_depends_on_window (dataA dataB : List Byte) (offset : Int) (n : Nat)
    (h : (dataA.drop offset.toNat).take (4 * n) = (dataB.drop offset.toNat).take (4 * n)) :
    ((IStream.seekg ⟨dataA, 0, false⟩ offset).read (zero_buffer n) (4 * n)).1
      = ((IStream.seekg ⟨dataB, 0, false⟩ offset).read (zero_buffer n) (4 * n)).1 := by
  by_cases hneg : offset < 0
  · rw [seekg_neg _ _ _ hneg, seekg_neg _ _ _ hneg, read_failed, read_failed]
  · rw [seekg_ok _ _ _ (by omega), seekg_ok _ _ _ (by omega), read_ok, read_ok, h]

/-- Two files that agree on the byte range the code reads for the column give
the same result. -/
theorem project_single_column_agree (fsA fsB : FileSystem) (metadata : Metadata)
    (pathA pathB name : String) (dataA dataB : List Byte) (pre post : List Group) (g : Group)
    (i : Nat)
    (hA : fsA.files pathA = some dataA) (hB : fsB.files pathB = some dataB)
    (hgroups : metadata.groups = pre ++ g :: post)
    (hpre : ∀ g' ∈ pre, ∀ c ∈ g'.columns, c.column_name ≠ name)
    (hidx : column_index g.columns name = some i)
    (hagree :
      (dataA.drop (byte_offset g.offset i (toInt32 metadata.num_rows)).toNat).take
          (4 * (toInt32 metadata.num_rows).toNat)
        = (dataB.drop (byte_offset g.offset i (toInt32 metadata.num_rows)).toNat).take
          (4 * (toInt32 metadata.num_rows).toNat)) :
    project_single_column fsA metadata pathA name
      = project_single_column fsB metadata pathB name := by
  rw [project_single_column_at fsA metadata pathA name dataA pre post g i hA hgroups hpre hidx,
    project_single_column_at fsB metadata pathB name dataB pre post g i hB hgroups hpre hidx,
    read_depends_on_window dataA dataB _ _ hagree]

/-- Claim C23: for a fixed metadata document and a column whose first match in
scan order is column `i` of group `g`, with `n` the row count the code reads
and the range `[g.offset + i*n*4, g.offset + (i+1)*n*4)` made of byte positions
below `2^63`, any two files that agree on that byte range (up to the end of
the files) give the same result of `project_single_column`, whatever their
other bytes are. -/
theorem project_single_column_reads_only_column (fsA fsB : FileSystem) (metadata : Metadata)
    (pathA pathB name : String) (dataA dataB : List Byte) (pre post : List Group) (g : Group)
    (i : Nat)
    (hA : fsA.files pathA = some dataA) (hB : fsB.files pathB = some dataB)
    (hgroups : metadata.groups = pre ++ g :: post)
    (hpre : ∀ g' ∈ pre, ∀ c ∈ g'.columns, c.column_name ≠ name)
    (hidx : column_index g.columns name = some i)
    (hlo : 0 ≤ g.offset + i * toInt32 metadata.num_rows * 4)
    (hhi : g.offset + i * toInt32 metadata.num_rows * 4 < 9223372036854775808)
    (hagree :
      (dataA.drop (g.offset + i * toInt32 metadata.num_rows * 4).toNat).take
          (4 * (toInt32 metadata.num_rows).toNat)
        = (dataB.drop (g.offset + i * toInt32 metadata.num_rows * 4).toNat).take
          (4 * (toInt32 metadata.num_rows).toNat)) :
    project_single_column fsA metadata pathA name
      = project_single_column fsB metadata pathB name := by
  apply project_single_column_agree fsA fsB metadata pathA pathB name dataA dataB pre post g i
    hA hB hgroups hpre hidx
  rw [byte_offset_exact g.offset i _ (by omega) hhi]
  exact hagree

/-- Claim C23 at the sample file and the file `test/big.hty`, which differ in
the `id` column and agree on the `salary` column (bytes 12 to 23). -/
theorem project_single_column_reads_only_column_witness :
    sample_fs.files "test/test.hty" ≠ big_fs.files "test/big.hty"
      ∧ project_single_column sample_fs sample_metadata "test/test.hty" "salary"
          = .ok [1195593728, 1195337728, 1195849728]
      ∧ project_single_column sample_fs sample_metadata "test/test.hty" "salary"
          = project_single_column big_fs sample_metadata "test/big.hty" "salary" :=
  ⟨by decide, by decide,
    project_single_column_reads_only_column sample_fs big_fs sample_metadata "test/test.hty"
      "test/big.hty" "salary" sample_file
      (bytes_of_cells [16777217, 16777219, 3]
        ++ bytes_of_cells [1195593728, 1195337728, 1195849728]
        ++ write_trailer sample_json sample_metadata)
      [] [] sample_group 1 rfl rfl rfl (by simp) (by decide) (by decide) (by decide)
      (by decide)⟩

/-! ## The range test of `project_and_filter` -/

/-- Claim C27: whenever `project` and `filter` both succeed on the same
metadata and file, every projected column has `num_rows` cells and every
filtered index `x` is non-negative and below that length, so the test
`index >= all_data[0].size()` of `project_and_filter` (made in `size_t`) is
false for every index; `project_and_filter` then succeeds, skips no index, and
every result column has exactly as many cells as there are filtered
indices. -/
theorem project_and_filter_no_skip (fl : FloatOps) (fs : FileSystem) (metadata : Metadata)
    (path : String) (names : List String) (column : String) (operation : Int)
    (threshold : fl.F) (table : List (List Int)) (indices : List Int)
    (hp : project fs metadata path names = .ok table)
    (hf : filter fl fs metadata path column operation threshold = .ok indices) :
    (∀ col ∈ table, col.length = (toInt32 metadata.num_rows).toNat)
      ∧ (∀ x ∈ indices, 0 ≤ x ∧ x < (toInt32 metadata.num_rows).toNat)
      ∧ (∀ x ∈ indices, ∀ col ∈ table, ¬ (toSizeT x ≥ col.length))
      ∧ ∃ result,
          project_and_filter fl fs metadata path names column operation threshold = .ok result
            ∧ result = table.map (fun col => indices.map (fun x => col.getD x.toNat 0))
            ∧ result.length = table.length
            ∧ ∀ row ∈ result, row.length = indices.length := by
  obtain ⟨_, hcols⟩ := project_ok_shape fs metadata path names table hp
  obtain ⟨_, hrange⟩ := filter_ok_range fl fs metadata path column operation threshold
    indices hf
  refine ⟨hcols, hrange, ?_, ?_⟩
  · intro x hx col hcol
    obtain ⟨h0, h1⟩ := hrange x hx
    rw [hcols col hcol]
    unfold toSizeT
    omega
  · refine ⟨table.map (fun col => indices.map (fun x => col.getD x.toNat 0)), ?_, rfl,
      by simp, ?_⟩
    · unfold project_and_filter
      simp only [hp, hf]
      cases table with
      | nil => rfl
      | cons first rest =>
        have hfirst : ((first :: rest).headD []).length = (toInt32 metadata.num_rows).toNat :=
          hcols first (List.mem_cons_self _ _)
        rw [hfirst, gather_all_in_range _ indices (first :: rest) hcols hrange]
    · intro row hrow
      obtain ⟨col, _, rfl⟩ := List.mem_map.mp hrow
      simp

/-- Claim C27 at the sample file: the `id` column at the rows with `salary`
below 50000.0. -/
theorem project_and_filter_no_skip_witness :
    project_and_filter ieee sample_fs sample_metadata "test/test.hty" ["id"] "salary" 2
        (Float32.finite (50000 * float_unit)) = .ok [[2]]
      ∧ ((∀ col ∈ ([[1, 2, 3]] : List (List Int)),
            col.length = (toInt32 sample_metadata.num_rows).toNat)
        ∧ (∀ x ∈ ([1] : List Int), 0 ≤ x ∧ x < (toInt32 sample_metadata.num_rows).toNat)
        ∧ (∀ x ∈ ([1] : List Int), ∀ col ∈ ([[1, 2, 3]] : List (List Int)),
            ¬ (toSizeT x ≥ col.length))
        ∧ ∃ result,
            project_and_filter ieee sample_fs sample_metadata "test/test.hty" ["id"] "salary" 2
                (Float32.finite (50000 * float_unit)) = .ok result
              ∧ result = ([[1, 2, 3]] : List (List Int)).map
                  (fun col => ([1] : List Int).map (fun x => col.getD x.toNat 0))
              ∧ result.length = ([[1, 2, 3]] : List (List Int)).length
              ∧ ∀ row ∈ result, row.length = ([1] : List Int).length) :=
  ⟨by decide,
    project_and_filter_no_skip ieee sample_fs sample_metadata "test/test.hty" ["id"] "salary" 2
      (Float32.finite (50000 * float_unit)) [[1, 2, 3]] [1] (by decide) (by decide)⟩

/-! ## String columns -/

theorem value_cells_string (lib : StdLib) (value : String) :
    value_cells lib "string" value = .ok (char_cells value ++ [0]) := by
  unfold value_cells
  rw [if_neg (by decide), if_neg (by decide)]

theorem utf8_bytes_ne_nil (c : Char) : utf8_bytes c ≠ [] := by
  unfold utf8_bytes
  simp only
  split
  · simp
  · split
    · simp
    · split <;> simp

theorem char_cells_ascii (value : String) (h : ∀ ch ∈ value.data, ch.toNat < 128) :
    char_cells value = value.data.map (fun ch => (ch.toNat : Int)) := by
  unfold char_cells
  generalize value.data = chars at h
  induction chars with
  | nil => rfl
  | cons ch rest ih =>
    have hch := h ch (List.mem_cons_self _ _)
    have hrest := ih (fun c hc => h c (List.mem_cons_of_mem _ hc))
    simp only [List.map_cons, List.flatten_cons, List.map_append, hrest]
    simp [utf8_bytes, hch]

theorem char_cells_eq_nil (value : String) : char_cells value = [] ↔ value = "" := by
  constructor
  · intro h
    unfold char_cells at h
    have hd : value.data = [] := by
      cases hv : value.data with
      | nil => rfl
      | cons ch rest =>
        rw [hv] at h
        simp only [List.map_cons, List.flatten_cons, List.map_eq_nil_iff, List.append_eq_nil] at h
        exact absurd h.1 (utf8_bytes_ne_nil ch)
    exact String.ext hd
  · intro h
    subst h
    rfl

theorem cells_of_string_values (lib : StdLib) (values : List String)
    (cellss : List (List Int))
    (h : List.Forall₂ (fun value cells => value_cells lib "string" value = .ok cells)
      values cellss) :
    cellss = values.map (fun v => char_cells v ++ [0]) := by
  induction h with
  | nil => rfl
  | cons hhead _ ih =>
    rw [value_cells_string] at hhead
    rw [List.map_cons, ← ih, Except.ok.inj hhead]

theorem string_cells_length (values : List String) :
    (values.map (fun v => char_cells v ++ [0])).flatten.length
      = (values.map (fun v => (char_cells v).length)).sum + values.length := by
  induction values with
  | nil => rfl
  | cons v rest ih =>
    simp only [List.map_cons, List.flatten_cons, List.length_append, List.sum_cons,
      List.length_cons, List.length_nil, ih]
    omega

theorem sum_lengths_eq_zero (values : List String) :
    (values.map (fun v => (char_cells v).length)).sum = 0 ↔ ∀ v ∈ values, v = "" := by
  induction values with
  | nil => simp
  | cons v rest ih =>
    simp only [List.map_cons, List.sum_cons, Nat.add_eq_zero, ih, List.mem_cons,
      forall_eq_or_imp, List.length_eq_zero, char_cells_eq_nil]

/-- Claim C25: a value stored in a `string` column gives the cells
`char_cells value ++ [0]`: one cell per `char` of the value in order (for a
value of `m` ASCII characters, their `m` codes), then one zero cell. So a
column the row loop leaves typed `string` holds, for the `r` values met for
it with `s` chars in total, exactly those cells, `s + r` of them; and when a
value was met in every data line (`r` is the number of data lines, which is
the `num_rows` written) the number of cells equals `num_rows` only if every
value is empty. -/
theorem string_column_cells (lib : StdLib) (lines : List String) (columns : List Column)
    (hok : read_rows lib (read_header lines) (lines.drop 1) = .ok columns)
    (j : Nat) (c : Column) (hj : columns[j]? = some c) (hstr : c.type = "string") :
    (∀ value, value_cells lib "string" value = .ok (char_cells value ++ [0]))
      ∧ (∀ value : String, (∀ ch ∈ value.data, ch.toNat < 128) →
          char_cells value = value.data.map (fun ch => (ch.toNat : Int))
            ∧ (char_cells value ++ [0]).length = value.data.length + 1)
      ∧ c.data = ((observed (lines.drop 1) j).map (fun v => char_cells v ++ [0])).flatten
      ∧ c.data.length
          = ((observed (lines.drop 1) j).map (fun v => (char_cells v).length)).sum
            + (observed (lines.drop 1) j).length
      ∧ ((observed (lines.drop 1) j).length = (lines.drop 1).length →
          (c.data.length = (lines.drop 1).length
            ↔ ∀ v ∈ observed (lines.drop 1) j, v = "")) := by
  obtain ⟨hlen, hcols⟩ := read_rows_ok lib _ _ columns hok
  have hjlt : j < (read_header lines).length := by
    rw [← hlen]
    exact (List.getElem?_eq_some_iff.mp hj).1
  obtain ⟨c', hc', _, _, cellss, hall, hdata⟩ :=
    hcols j (read_header lines)[j] (List.getElem?_eq_getElem hjlt)
  rw [hj] at hc'
  injection hc' with hc'
  subst hc'
  obtain ⟨_, hd0⟩ := read_header_fresh lines _ (List.getElem_mem hjlt)
  rw [hd0, List.nil_append] at hdata
  rw [hstr] at hall
  have hcells := cells_of_string_values lib _ cellss hall
  rw [hcells] at hdata
  have hlength := string_cells_length (observed (lines.drop 1) j)
  refine ⟨value_cells_string lib, ?_, hdata, by rw [hdata, hlength], ?_⟩
  · intro value hascii
    have := char_cells_ascii value hascii
    refine ⟨this, ?_⟩
    rw [this]
    simp
  · intro hr
    rw [hdata, hlength, ← sum_lengths_eq_zero, hr]
    omega

/-- Claim C25 at the file `test/names.csv`: the value `bob` gives the four
cells 98, 111, 98, 0 in a file with one row. -/
theorem string_column_cells_witness :
    getlines '\n' "name\nbob\n".data none = ["name", "bob"]
      ∧ read_rows sample_stdlib (read_header ["name", "bob"]) (["name", "bob"].drop 1)
          = .ok [⟨"name", "string", [98, 111, 98, 0]⟩]
      ∧ char_cells "bob" = [98, 111, 98]
      ∧ ((∀ value, value_cells sample_stdlib "string" value = .ok (char_cells value ++ [0]))
        ∧ (∀ value : String, (∀ ch ∈ value.data, ch.toNat < 128) →
            char_cells value = value.data.map (fun ch => (ch.toNat : Int))
              ∧ (char_cells value ++ [0]).length = value.data.length + 1)
        ∧ ([98, 111, 98, 0] : List Int)
            = ((observed (["name", "bob"].drop 1) 0).map (fun v => char_cells v ++ [0])).flatten
        ∧ ([98, 111, 98, 0] : List Int).length
            = ((observed (["name", "bob"].drop 1) 0).map (fun v => (char_cells v).length)).sum
              + (observed (["name", "bob"].drop 1) 0).length
        ∧ ((observed (["name", "bob"].drop 1) 0).length = (["name", "bob"].drop 1).length →
            (([98, 111, 98, 0] : List Int).length = (["name", "bob"].drop 1).length
              ↔ ∀ v ∈ observed (["name", "bob"].drop 1) 0, v = ""))) :=
  ⟨by decide, by decide, by decide,
    string_column_cells sample_stdlib ["name", "bob"] [⟨"name", "string", [98, 111, 98, 0]⟩]
      (by decide) 0 ⟨"name", "string", [98, 111, 98, 0]⟩ rfl rfl⟩

/-! ## The two variants of `project` -/

theorem temp1_column_indices_ok (g : Group) (names : List String)
    (hall : has_all_columns g names) :
    temp1.column_indices g names
      = .ok (names.map (fun name => (column_index g.columns name).getD 0)) := by
  induction names with
  | nil => rfl
  | cons name rest ih =>
    obtain ⟨i, hi⟩ := (has_column_iff g name).mp (hall name (List.mem_cons_self _ _))
    have hrest := ih (fun n hn => hall n (List.mem_cons_of_mem _ hn))
    simp only [temp1.column_indices, hi, hrest, List.map_cons, Option.getD_some]

theorem temp1_column_indices_error (g : Group) (names : List String)
    (hlack : ¬ has_all_columns g names) :
    temp1.column_indices g names = .error .column_not_found_in_same_group := by
  induction names with
  | nil => exact absurd (fun _ h => absurd h (List.not_mem_nil _)) hlack
  | cons name rest ih =>
    unfold temp1.column_indices
    cases hi : column_index g.columns name with
    | none => rfl
    | some i =>
      have hrest : ¬ has_all_columns g rest := by
        intro hr
        apply hlack
        intro n hn
        rcases List.mem_cons.mp hn with rfl | hn
        · exact (has_column_iff g n).mpr ⟨i, hi⟩
        · exact hr n hn
      simp only [ih hrest]

/-- When the checked read loop of analyze.cpp returns a table, the unchecked
loop of temp1.cpp returns the same one. -/
theorem temp1_project_read_eq (file : IStream) (group_offset num_rows : Int)
    (pairs : List (Nat × String)) (table : List (List Int))
    (h : project_read file group_offset num_rows pairs = .ok table) :
    temp1.project_read file group_offset num_rows (pairs.map Prod.fst) = table := by
  induction pairs generalizing file table with
  | nil =>
    simp only [project_read, Except.ok.injEq] at h
    subst h
    rfl
  | cons p rest ih =>
    obtain ⟨idx, name⟩ := p
    unfold project_read at h
    simp only [List.map_cons, temp1.project_read]
    by_cases hseek : (file.seekg (byte_offset group_offset idx num_rows)).failed = true
    · simp [hseek] at h
    · simp only [hseek, Bool.false_eq_true, if_false] at h
      cases hr : (file.seekg (byte_offset group_offset idx num_rows)).read
          (zero_buffer num_rows.toNat) (4 * num_rows.toNat) with
      | mk result_i file' =>
        simp only [hr] at h ⊢
        by_cases hread : file'.failed = true
        · simp [hread] at h
        · simp only [hread, Bool.false_eq_true, if_false] at h
          cases hrec : project_read file' group_offset num_rows rest with
          | error e => simp [hrec] at h
          | ok tl =>
            simp only [hrec, Except.ok.injEq] at h
            subst h
            rw [ih file' tl hrec]

theorem temp1_project_of_open (fs : FileSystem) (metadata : Metadata) (path : String)
    (names : List String) (data : List Byte) (g : Group) (rest : List Group)
    (hfile : fs.files path = some data) (hgroups : metadata.groups = g :: rest) :
    temp1.project fs metadata path names
      = if toInt32 metadata.num_rows < 0 then .error .length_error
        else
          match temp1.column_indices g names with
          | .error e => .error e
          | .ok column_indices =>
            .ok (temp1.project_read ⟨data, 0, false⟩ g.offset (toInt32 metadata.num_rows)
              column_indices) := by
  unfold temp1.project
  simp only [hfile, hgroups, IStream.open_]

theorem project_negative (fs : FileSystem) (metadata : Metadata) (path : String)
    (names : List String) (data : List Byte) (hfile : fs.files path = some data)
    (hn : toInt32 metadata.num_rows < 0) :
    project fs metadata path names = .error .length_error := by
  unfold project
  simp only [hfile, hn, if_true]

/-- Claim C26: on a file that opens and a document whose first group is `g0`.
If `g0` contains every requested name and the file holds the bytes of each
requested column of `g0`, the `project` of temp1.cpp and the `project` of
analyze.cpp give the same outcome, which is a table when the row count is
not negative. If `g0` lacks a requested name (row count not negative), the
variant of temp1.cpp throws "Column not found in the same group", whereas
the variant of analyze.cpp returns a table as soon as some later group
contains all the names and the file holds the bytes of its requested
columns (for the first such group). -/
theorem project_variants (fs : FileSystem) (metadata : Metadata) (path : String)
    (names : List String) (data : List Byte) (g0 : Group) (rest : List Group)
    (hfile : fs.files path = some data) (hgroups : metadata.groups = g0 :: rest) :
    (has_all_columns g0 names →
        (∀ name ∈ names, ∀ idx, column_index g0.columns name = some idx →
          column_readable data (byte_offset g0.offset idx (toInt32 metadata.num_rows))
            (toInt32 metadata.num_rows).toNat) →
        temp1.project fs metadata path names = project fs metadata path names
          ∧ (0 ≤ toInt32 metadata.num_rows →
              ∃ table, project fs metadata path names = .ok table))
      ∧ (¬ has_all_columns g0 names → 0 ≤ toInt32 metadata.num_rows →
          temp1.project fs metadata path names = .error .column_not_found_in_same_group
            ∧ ∀ (pre post : List Group) (g : Group), rest = pre ++ g :: post →
                (∀ g' ∈ pre, ¬ has_all_columns g' names) → has_all_columns g names →
                (∀ name ∈ names, ∀ idx, column_index g.columns name = some idx →
                  column_readable data (byte_offset g.offset idx (toInt32 metadata.num_rows))
                    (toInt32 metadata.num_rows).toNat) →
                ∃ table, project fs metadata path names = .ok table) := by
  constructor
  · intro hall hread
    by_cases hn : toInt32 metadata.num_rows < 0
    · refine ⟨?_, fun h => absurd h (by omega)⟩
      rw [temp1_project_of_open fs metadata path names data g0 rest hfile hgroups,
        if_pos hn, project_negative fs metadata path names data hfile hn]
    · have hok := project_readable fs metadata path names data [] rest g0 hfile
        (by rw [hgroups]; rfl) (by simp) hall (by omega) hread
      refine ⟨?_, fun _ => ⟨_, hok⟩⟩
      have hgr : project_groups ⟨data, 0, false⟩ (toInt32 metadata.num_rows) names
          metadata.groups = project fs metadata path names :=
        (project_of_open fs metadata path names data hfile (by omega)).symm
      rw [hgroups, project_groups_hit _ _ _ g0 rest hall, hok] at hgr
      have := temp1_project_read_eq _ _ _ _ _ hgr
      rw [List.map_map] at this
      rw [temp1_project_of_open fs metadata path names data g0 rest hfile hgroups, if_neg hn,
        temp1_column_indices_ok g0 names hall, hok]
      simp only
      congr 1
  · intro hlack hn
    have hnn : ¬ toInt32 metadata.num_rows < 0 := by omega
    refine ⟨?_, ?_⟩
    · rw [temp1_project_of_open fs metadata path names data g0 rest hfile hgroups, if_neg hnn,
        temp1_column_indices_error g0 names hlack]
    · intro pre post g hrest hpre hg hread
      refine ⟨_, project_readable fs metadata path names data (g0 :: pre) post g hfile
        (by rw [hgroups, hrest]; rfl) ?_ hg hn hread⟩
      intro g' hg'
      rcases List.mem_cons.mp hg' with rfl | hg'
      · exact hlack
      · exact hpre g' hg'

/-- Claim C26 at the two-group file and the name `b`, which the first group
lacks: the variant of analyze.cpp returns the column, the variant of temp1.cpp
throws; on the sample file, whose only group has both names, the two variants
return the same table. -/
theorem project_variants_witness :
    project two_group_fs two_group_metadata "test/two.hty" ["b"] = .ok [[10, 20]]
      ∧ temp1.project two_group_fs two_group_metadata "test/two.hty" ["b"]
          = .error .column_not_found_in_same_group
      ∧ project sample_fs sample_metadata "test/test.hty" ["salary", "id"]
          = .ok [[1195593728, 1195337728, 1195849728], [1, 2, 3]]
      ∧ temp1.project sample_fs sample_metadata "test/test.hty" ["salary", "id"]
          = .ok [[1195593728, 1195337728, 1195849728], [1, 2, 3]]
      ∧ ¬ has_all_columns ⟨0, [⟨"a", "int"⟩]⟩ ["b"]
      ∧ ((has_all_columns ⟨0, [⟨"a", "int"⟩]⟩ ["b"] →
            (∀ name ∈ ["b"], ∀ idx,
              column_index (⟨0, [⟨"a", "int"⟩]⟩ : Group).columns name = some idx →
              column_readable
                (bytes_of_cells [1, 2] ++ bytes_of_cells [10, 20]
                  ++ write_trailer sample_json two_group_metadata)
                (byte_offset (⟨0, [⟨"a", "int"⟩]⟩ : Group).offset idx
                  (toInt32 two_group_metadata.num_rows))
                (toInt32 two_group_metadata.num_rows).toNat) →
            temp1.project two_group_fs two_group_metadata "test/two.hty" ["b"]
                = project two_group_fs two_group_metadata "test/two.hty" ["b"]
              ∧ (0 ≤ toInt32 two_group_metadata.num_rows →
                  ∃ table, project two_group_fs two_group_metadata "test/two.hty" ["b"]
                    = .ok table))
        ∧ (¬ has_all_columns ⟨0, [⟨"a", "int"⟩]⟩ ["b"] →
            0 ≤ toInt32 two_group_metadata.num_rows →
            temp1.project two_group_fs two_group_metadata "test/two.hty" ["b"]
                = .error .column_not_found_in_same_group
              ∧ ∀ (pre post : List Group) (g : Group),
                  [(⟨8, [⟨"b", "int"⟩]⟩ : Group)] = pre ++ g :: post →
                  (∀ g' ∈ pre, ¬ has_all_columns g' ["b"]) → has_all_columns g ["b"] →
                  (∀ name ∈ ["b"], ∀ idx, column_index g.columns name = some idx →
                    column_readable
                      (bytes_of_cells [1, 2] ++ bytes_of_cells [10, 20]
                        ++ write_trailer sample_json two_group_metadata)
                      (byte_offset g.offset idx (toInt32 two_group_metadata.num_rows))
                      (toInt32 two_group_metadata.num_rows).toNat) →
                  ∃ table, project two_group_fs two_group_metadata "test/two.hty" ["b"]
                    = .ok table)) :=
  ⟨by decide, by decide, by decide, by decide,
    by
      intro h
      obtain ⟨c, hc, hname⟩ := h "b" (List.mem_singleton.mpr rfl)
      simp only [List.mem_singleton] at hc
      subst hc
      exact absurd hname (by decide),
    project_variants two_group_fs two_group_metadata "test/two.hty" ["b"]
      (bytes_of_cells [1, 2] ++ bytes_of_cells [10, 20]
        ++ write_trailer sample_json two_group_metadata)
      ⟨0, [⟨"a", "int"⟩]⟩ [⟨8, [⟨"b", "int"⟩]⟩] rfl rfl⟩

/-! ## Appending to a canonical file -/

/-- The file `add_row` writes for a file whose metadata has a single group at
offset 0 with distinct column names and which holds `n` cells per column. -/
theorem add_row_canonical (json : JsonLib) (fs : FileSystem) (metadata : Metadata)
    (src dst : String) (rows : List (List Int)) (file : List Byte) (g : Group) (n : Nat)
    (hgroups : metadata.groups = [g]) (hoff : g.offset = 0)
    (hnd : (g.columns.map (·.column_name)).Nodup)
    (hfile : fs.files src = some file)
    (hN : metadata.num_rows = (n : Int)) (hn : (n : Int) < 2147483648)
    (hdata : g.columns.length * n * 4 ≤ file.length)
    (hbound : ((g.columns.length * n * 4 : Nat) : Int) < 9223372036854775808)
    (hrowlen : ∀ row ∈ rows, g.columns.length ≤ row.length)
    (hw : fs.writable dst = true) :
    add_row json fs metadata src dst rows
      = .ok (fs.store dst
          (((List.range' 0 g.columns.length).map
              (fun j => bytes_of_cells (column_cells file n j ++ appended_cells rows j))).flatten
            ++ write_trailer json (updated_metadata metadata rows))) := by
  have hcols : all_columns metadata = g.columns := by simp [all_columns, hgroups]
  have hexisting : read_existing fs metadata src g.columns
      = .ok ((List.range g.columns.length).map (column_cells file n)) := by
    rw [read_existing_eq fs metadata src
      (fun c => column_cells file n ((column_index g.columns c.column_name).getD 0))
      g.columns ?_, map_by_index g.columns hnd (column_cells file n)]
    intro c hc
    obtain ⟨i, hi⟩ := List.mem_iff_getElem?.mp hc
    simp only [column_index_of_getElem? g.columns hnd i c hi, Option.getD_some]
    exact project_single_column_single_group fs metadata src file g n i c hfile hgroups hoff
      hnd hN hn hdata hbound hi
  have hwrite : write_columns rows ((List.range g.columns.length).map (column_cells file n)) 0
      = .ok (((List.range' 0 g.columns.length).map
          (fun j => bytes_of_cells (column_cells file n j ++ appended_cells rows j))).flatten) := by
    rw [List.range_eq_range']
    exact write_columns_range rows (column_cells file n) g.columns.length 0
      (fun row hr => by have := hrowlen row hr; omega)
  simp only [add_row, hcols, hexisting, hw, hwrite, if_true]

theorem int_bytes_int_of_bytes (b0 b1 b2 b3 : Byte) :
    int_bytes (int_of_bytes b0 b1 b2 b3) = [b0, b1, b2, b3] := by
  have h0 := b0.isLt
  have h1 := b1.isLt
  have h2 := b2.isLt
  have h3 := b3.isLt
  have hu : (int_of_bytes b0 b1 b2 b3 % 4294967296).toNat
      = b0.val + 256 * b1.val + 65536 * b2.val + 16777216 * b3.val := by
    unfold int_of_bytes toInt32
    simp only
    split <;> omega
  unfold int_bytes
  simp only [hu, byteOf]
  refine congrArg₂ _ (Fin.ext ?_) (congrArg₂ _ (Fin.ext ?_) (congrArg₂ _ (Fin.ext ?_)
    (congrArg₂ _ (Fin.ext ?_) rfl))) <;> simp only <;> omega

/-- Bytes that make up whole cells are the bytes of their cells. -/
theorem bytes_of_cells_cells_of_bytes (bytes : List Byte) (k : Nat)
    (h : bytes.length = 4 * k) : bytes_of_cells (cells_of_bytes bytes) = bytes := by
  induction k generalizing bytes with
  | zero =>
    have : bytes = [] := List.length_eq_zero.mp (by omega)
    subst this
    rfl
  | succ k ih =>
    match bytes, h with
    | b0 :: b1 :: b2 :: b3 :: rest, h =>
      have hrest : rest.length = 4 * k := by
        simp only [List.length_cons] at h
        omega
      simp only [cells_of_bytes, bytes_of_cells, List.map_cons, List.flatten_cons,
        int_bytes_int_of_bytes]
      have := ih rest hrest
      unfold bytes_of_cells at this
      rw [this]
      rfl

/-- Consecutive windows of width `w` put together are one window. -/
theorem flatten_windows (data : List Byte) (w m k : Nat) :
    ((List.range' k m).map (fun j => (data.drop (j * w)).take w)).flatten
      = (data.drop (k * w)).take (m * w) := by
  induction m generalizing k with
  | zero => simp
  | succ m ih =>
    simp only [List.range'_succ, List.map_cons, List.flatten_cons, ih (k + 1)]
    have h1 : (k + 1) * w = k * w + w := by ring
    have h2 : (m + 1) * w = w + m * w := by ring
    rw [h1, h2, List.take_add, List.drop_drop]

theorem updated_metadata_nil (metadata : Metadata) (h0 : 0 ≤ metadata.num_rows)
    (h31 : metadata.num_rows < 2147483648) : updated_metadata metadata [] = metadata := by
  have hnum : toSizeT (toSizeT (toInt32 metadata.num_rows) + toSizeT (([] : List (List Int)).length : Int))
      = metadata.num_rows := by
    rw [toInt32_of_int (by omega) h31]
    simp only [toSizeT, List.length_nil]
    omega
  cases metadata with
  | mk num_rows groups =>
    simp only [updated_metadata] at hnum ⊢
    rw [hnum]

/-- The data region of a canonical file, cut into its columns, decoded and
encoded again, is the data region. -/
theorem flatten_column_cells (D T : List Byte) (C n : Nat) (hD : D.length = C * n * 4) :
    ((List.range' 0 C).map (fun j => bytes_of_cells (column_cells (D ++ T) n j))).flatten
      = D := by
  have hmap : (List.range' 0 C).map (fun j => bytes_of_cells (column_cells (D ++ T) n j))
      = (List.range' 0 C).map (fun j => (D.drop (j * (4 * n))).take (4 * n)) := by
    apply List.map_congr_left
    intro j hj
    have hjC : j < C := by
      have := (List.mem_range'_1.mp hj).2
      omega
    have hle : j * n * 4 + 4 * n ≤ C * n * 4 := by
      have : (j + 1) * n ≤ C * n := Nat.mul_le_mul_right n hjC
      have h2 : (j + 1) * n = j * n + n := by ring
      omega
    have hmul : j * (4 * n) = j * n * 4 := by ring
    unfold column_cells
    rw [cells_window_append D T (j * n * 4) (4 * n) (by omega), hmul]
    apply bytes_of_cells_cells_of_bytes _ n
    rw [List.length_take, List.length_drop]
    omega
  rw [hmap, flatten_windows D (4 * n) C 0, Nat.zero_mul, List.drop_zero]
  apply List.take_of_length_le
  rw [hD]
  have : C * (4 * n) = C * n * 4 := by ring
  omega

/-- Claim C29: for a file whose metadata has a single group at offset 0 with
distinct column names and a row count `n` with `0 ≤ n < 2^31`, whose data
region `D` has exactly `C * n * 4` bytes (fewer than `2^63`) and whose trailer
is what the serialiser writes for that metadata, `add_row` with no rows
succeeds on a writable destination and the destination file is byte for byte
the source file. -/
theorem add_row_no_rows (json : JsonLib) (fs : FileSystem) (metadata : Metadata)
    (src dst : String) (D : List Byte) (g : Group)
    (hgroups : metadata.groups = [g]) (hoff : g.offset = 0)
    (hnd : (g.columns.map (·.column_name)).Nodup)
    (hfile : fs.files src = some (D ++ write_trailer json metadata))
    (h0 : 0 ≤ metadata.num_rows) (h31 : metadata.num_rows < 2147483648)
    (hD : (D.length : Int) = g.columns.length * metadata.num_rows * 4)
    (hsize : (D.length : Int) < 9223372036854775808)
    (hw : fs.writable dst = true) :
    ∃ fs', add_row json fs metadata src dst [] = .ok fs'
      ∧ fs'.files dst = some (D ++ write_trailer json metadata)
      ∧ fs'.files dst = fs.files src := by
  obtain ⟨n, hN⟩ := Int.eq_ofNat_of_zero_le h0
  have hDn : D.length = g.columns.length * n * 4 := by
    rw [hN] at hD
    have : ((g.columns.length * n * 4 : Nat) : Int) = (g.columns.length : Int) * (n : Int) * 4 := by
      push_cast
      ring
    omega
  have hadd := add_row_canonical json fs metadata src dst [] (D ++ write_trailer json metadata)
    g n hgroups hoff hnd hfile hN (by omega)
    (by rw [List.length_append]; omega) (by rw [← hDn]; exact hsize)
    (fun row hr => absurd hr (List.not_mem_nil _)) hw
  have hdata : ((List.range' 0 g.columns.length).map
      (fun j => bytes_of_cells
        (column_cells (D ++ write_trailer json metadata) n j ++ appended_cells [] j))).flatten
      = D := by
    have := flatten_column_cells D (write_trailer json metadata) g.columns.length n hDn
    simpa [appended_cells] using this
  rw [hdata, updated_metadata_nil metadata h0 h31] at hadd
  exact ⟨_, hadd, store_files_self _ _ _, by rw [store_files_self, hfile]⟩

/-- Claim C29 at the sample file. -/
theorem add_row_no_rows_witness :
    add_row sample_json sample_fs sample_metadata "test/test.hty" "test/copy.hty" []
        = .ok (sample_fs.store "test/copy.hty" sample_file)
      ∧ ∃ fs', add_row sample_json sample_fs sample_metadata "test/test.hty" "test/copy.hty" []
            = .ok fs'
          ∧ fs'.files "test/copy.hty" = some (sample_data ++ write_trailer sample_json sample_metadata)
          ∧ fs'.files "test/copy.hty" = sample_fs.files "test/test.hty" :=
  ⟨rfl,
    add_row_no_rows sample_json sample_fs sample_metadata "test/test.hty" "test/copy.hty"
      sample_data sample_group rfl rfl (by decide) rfl (by decide) (by decide) (by decide)
      (by decide) rfl⟩

/-! ## Appending twice -/

theorem appended_cells_append (r1 r2 : List (List Int)) (j : Nat) :
    appended_cells (r1 ++ r2) j = appended_cells r1 j ++ appended_cells r2 j := by
  simp [appended_cells]

/-- The row count after two appends is the row count after one append of all
the rows. -/
theorem updated_metadata_twice (metadata : Metadata) (r1 r2 : List (List Int))
    (h0 : 0 ≤ metadata.num_rows)
    (hfit : metadata.num_rows + r1.length < 2147483648) :
    updated_metadata (updated_metadata metadata r1) r2 = updated_metadata metadata (r1 ++ r2) := by
  have h1 : (updated_metadata metadata r1).num_rows = metadata.num_rows + r1.length :=
    updated_metadata_num_rows metadata r1 h0 (by omega) (by omega)
  have hnum : toSizeT (toSizeT (toInt32 (updated_metadata metadata r1).num_rows)
        + toSizeT (r2.length : Int))
      = toSizeT (toSizeT (toInt32 metadata.num_rows) + toSizeT ((r1 ++ r2).length : Int)) := by
    rw [h1, toInt32_of_int (by omega) hfit, toInt32_of_int (by omega) (by omega),
      List.length_append]
    simp only [toSizeT]
    push_cast
    omega
  cases metadata with
  | mk num_rows groups =>
    simp only [updated_metadata] at hnum ⊢
    rw [hnum]

/-- The columns of the file `add_row` wrote for a canonical file: column `j`
is the old column followed by the cells of the new rows. -/
theorem column_cells_of_written (E : Nat → List Int) (rows : List (List Int))
    (T : List Byte) (C n j : Nat) (hj : j < C)
    (hE : ∀ i, i < C → (E i).length = n)
    (hrange : ∀ i, i < C → ∀ v ∈ E i, -2147483648 ≤ v ∧ v < 2147483648)
    (hcells : ∀ row ∈ rows, ∀ v ∈ row, -2147483648 ≤ v ∧ v < 2147483648) :
    column_cells
        (((List.range' 0 C).map
            (fun i => bytes_of_cells (E i ++ appended_cells rows i))).flatten ++ T)
        (n + rows.length) j
      = E j ++ appended_cells rows j := by
  have hchunk : ∀ i, 0 ≤ i → i < 0 + C →
      (bytes_of_cells (E i ++ appended_cells rows i)).length = 4 * (n + rows.length) := by
    intro i _ hi
    rw [bytes_of_cells_length, List.length_append, appended_cells_length, hE i (by omega)]
  have hmul : j * (n + rows.length) * 4 = j * (4 * (n + rows.length)) := by ring
  rw [column_cells, hmul, flatten_chunk
    (fun i => bytes_of_cells (E i ++ appended_cells rows i))
    (4 * (n + rows.length)) C 0 j _ hchunk hj, Nat.zero_add]
  apply cells_of_bytes_bytes_of_cells
  intro v hv
  rcases List.mem_append.mp hv with h | h
  · exact hrange j hj v h
  · exact appended_cells_range rows j hcells v h

theorem written_length (E : Nat → List Int) (rows : List (List Int)) (C n : Nat)
    (hE : ∀ i, i < C → (E i).length = n) :
    ((List.range' 0 C).map
        (fun i => bytes_of_cells (E i ++ appended_cells rows i))).flatten.length
      = C * (n + rows.length) * 4 := by
  rw [flatten_chunk_length (fun i => bytes_of_cells (E i ++ appended_cells rows i))
    (4 * (n + rows.length)) C 0 (fun i _ hi => by
      rw [bytes_of_cells_length, List.length_append, appended_cells_length, hE i (by omega)])]
  ring

/-- Claim C30: for a file whose metadata has a single group at offset 0 with
pairwise distinct column names and which holds `num_rows` cells per column,
and row lists `r1`, `r2` with a cell for every column: `add_row` with `r1`,
then `add_row` with `r2` on that output under the metadata decoded from it,
writes the same bytes as one `add_row` with `r1 ++ r2`. (The cells of `r1`
are `int` values, the row count after `r1` fits `int`, the data region is
shorter than `2^63` bytes, both destinations are writable, and the JSON
library parses its own output for the document after `r1`, shorter than
`2^31` bytes, back to it.) -/
theorem add_row_compose (json : JsonLib) (unwritten : Int)
    (fs : FileSystem) (metadata : Metadata)
    (src dst1 dst2 : String) (r1 r2 : List (List Int)) (file : List Byte) (g : Group)
    (hgroups : metadata.groups = [g]) (hoff : g.offset = 0)
    (hnd : (g.columns.map (·.column_name)).Nodup)
    (hfile : fs.files src = some file)
    (h0 : 0 ≤ metadata.num_rows)
    (hdata : (g.columns.length : Int) * metadata.num_rows * 4 ≤ file.length)
    (hrowlen1 : ∀ row ∈ r1, g.columns.length ≤ row.length)
    (hrowlen2 : ∀ row ∈ r2, g.columns.length ≤ row.length)
    (hcells1 : ∀ row ∈ r1, ∀ v ∈ row, -2147483648 ≤ v ∧ v < 2147483648)
    (hfit : metadata.num_rows + r1.length < 2147483648)
    (hsize : (g.columns.length : Int) * (metadata.num_rows + r1.length) * 4
      < 9223372036854775808)
    (hw1 : fs.writable dst1 = true) (hw2 : fs.writable dst2 = true)
    (hL : (json.dump (updated_metadata metadata r1)).length < 2147483648)
    (hparse : json.parse (json.dump (updated_metadata metadata r1))
      = some (updated_metadata metadata r1)) :
    ∃ (fs1 fs2 fs12 : FileSystem) (decoded : Metadata) (bytes : List Byte),
      add_row json fs metadata src dst1 r1 = .ok fs1
        ∧ extract_metadata json fs1 dst1 unwritten = .ok decoded
        ∧ add_row json fs1 decoded dst1 dst2 r2 = .ok fs2
        ∧ add_row json fs metadata src dst2 (r1 ++ r2) = .ok fs12
        ∧ fs2.files dst2 = some bytes
        ∧ fs12.files dst2 = some bytes := by
  obtain ⟨n, hN⟩ := Int.eq_ofNat_of_zero_le h0
  have hn : (n : Int) < 2147483648 := by omega
  have hcn : ((g.columns.length * n : Nat) : Int) = (g.columns.length : Int) * (n : Int) :=
    Int.ofNat_mul _ _
  have hcn' : ((g.columns.length * (n + r1.length) : Nat) : Int)
      = (g.columns.length : Int) * (metadata.num_rows + r1.length) := by
    rw [hN]
    push_cast
    ring
  have hmono : g.columns.length * n ≤ g.columns.length * (n + r1.length) :=
    Nat.mul_le_mul_left _ (by omega)
  have hdataN : g.columns.length * n * 4 ≤ file.length := by
    rw [hN, ← hcn] at hdata
    omega
  have hboundN : ((g.columns.length * n * 4 : Nat) : Int) < 9223372036854775808 := by
    rw [← hcn'] at hsize
    omega
  have hboundN' : ((g.columns.length * (n + r1.length) * 4 : Nat) : Int)
      < 9223372036854775808 := by
    rw [← hcn'] at hsize
    omega
  -- the columns of the source file
  have hE : ∀ i, i < g.columns.length → (column_cells file n i).length = n := by
    intro i hi
    have hle := (byte_offset_single i n g.columns.length hi hboundN).2
    exact column_cells_length file n i (by omega)
  have hErange : ∀ i, i < g.columns.length →
      ∀ v ∈ column_cells file n i, -2147483648 ≤ v ∧ v < 2147483648 :=
    fun i _ v hv => cells_of_bytes_range _ v hv
  -- the first append
  have hadd1 := add_row_canonical json fs metadata src dst1 r1 file g n hgroups hoff hnd hfile
    hN hn hdataN hboundN hrowlen1 hw1
  have hmeta := extract_metadata_of_trailer json unwritten
    (fs.store dst1
      (((List.range' 0 g.columns.length).map
          (fun j => bytes_of_cells (column_cells file n j ++ appended_cells r1 j))).flatten
        ++ write_trailer json (updated_metadata metadata r1))) dst1 _
    (updated_metadata metadata r1) hL hparse (store_files_self _ _ _)
  have hnum : (updated_metadata metadata r1).num_rows = ((n + r1.length : Nat) : Int) := by
    rw [updated_metadata_num_rows metadata r1 h0 (by omega) (by omega), hN]
    push_cast
    rfl
  -- the second append, on the file just written
  have hadd2 := add_row_canonical json
    (fs.store dst1
      (((List.range' 0 g.columns.length).map
          (fun j => bytes_of_cells (column_cells file n j ++ appended_cells r1 j))).flatten
        ++ write_trailer json (updated_metadata metadata r1)))
    (updated_metadata metadata r1) dst1 dst2 r2 _ g (n + r1.length)
    hgroups hoff hnd (store_files_self _ _ _) hnum (by push_cast; omega)
    (by
      rw [List.length_append, written_length (column_cells file n) r1 g.columns.length n hE]
      omega)
    hboundN' hrowlen2 hw2
  -- the single append
  have hadd12 := add_row_canonical json fs metadata src dst2 (r1 ++ r2) file g n hgroups hoff
    hnd hfile hN hn hdataN hboundN
    (fun row hr => by
      rcases List.mem_append.mp hr with h | h
      · exact hrowlen1 row h
      · exact hrowlen2 row h)
    hw2
  have hcolumns : (List.range' 0 g.columns.length).map
      (fun j => bytes_of_cells
        (column_cells
          (((List.range' 0 g.columns.length).map
              (fun j => bytes_of_cells (column_cells file n j ++ appended_cells r1 j))).flatten
            ++ write_trailer json (updated_metadata metadata r1))
          (n + r1.length) j ++ appended_cells r2 j))
      = (List.range' 0 g.columns.length).map
        (fun j => bytes_of_cells (column_cells file n j ++ appended_cells (r1 ++ r2) j)) := by
    apply List.map_congr_left
    intro j hj
    have hjC : j < g.columns.length := by
      have := (List.mem_range'_1.mp hj).2
      omega
    rw [column_cells_of_written (column_cells file n) r1 _ g.columns.length n j hjC hE hErange
      hcells1, appended_cells_append, List.append_assoc]
  rw [hcolumns, updated_metadata_twice metadata r1 r2 h0 hfit] at hadd2
  exact ⟨_, _, _, _, _, hadd1, hmeta, hadd2, hadd12, store_files_self _ _ _,
    store_files_self _ _ _⟩

/-- Claim C30 at the sample file: the rows `(4, 48000.0)` and then `(5, 6)`. -/
theorem add_row_compose_witness :
    add_row sample_json sample_modified_fs ⟨4, sample_metadata.groups⟩
        "test/modified_test.hty" "test/twice.hty" [[5, 6]]
      = .ok (sample_modified_fs.store "test/twice.hty"
          (bytes_of_cells [1, 2, 3, 4, 5]
            ++ bytes_of_cells [1195593728, 1195337728, 1195849728, 1195081728, 6]
            ++ write_trailer sample_json ⟨5, sample_metadata.groups⟩))
      ∧ add_row sample_json sample_fs sample_metadata "test/test.hty" "test/twice.hty"
          (sample_rows ++ [[5, 6]])
        = .ok (sample_fs.store "test/twice.hty"
          (bytes_of_cells [1, 2, 3, 4, 5]
            ++ bytes_of_cells [1195593728, 1195337728, 1195849728, 1195081728, 6]
            ++ write_trailer sample_json ⟨5, sample_metadata.groups⟩))
      ∧ ∃ (fs1 fs2 fs12 : FileSystem) (decoded : Metadata) (bytes : List Byte),
        add_row sample_json sample_fs sample_metadata "test/test.hty" "test/modified_test.hty"
            sample_rows = .ok fs1
          ∧ extract_metadata sample_json fs1 "test/modified_test.hty" 0 = .ok decoded
          ∧ add_row sample_json fs1 decoded "test/modified_test.hty" "test/twice.hty" [[5, 6]]
              = .ok fs2
          ∧ add_row sample_json sample_fs sample_metadata "test/test.hty" "test/twice.hty"
              (sample_rows ++ [[5, 6]]) = .ok fs12
          ∧ fs2.files "test/twice.hty" = some bytes
          ∧ fs12.files "test/twice.hty" = some bytes :=
  ⟨rfl, rfl,
    add_row_compose sample_json 0 sample_fs sample_metadata "test/test.hty"
      "test/modified_test.hty" "test/twice.hty" sample_rows [[5, 6]] sample_file sample_group
      rfl rfl (by decide) rfl (by decide) (by decide) (by decide) (by decide) (by decide)
      (by decide) (by decide) rfl rfl (by decide) (by decide)⟩

/-! ## Decimal literals -/

theorem digit_value_mem (c : Char) (d : Nat) (h : digit_value c = some d) :
    c ∈ "0123456789".data := by
  unfold digit_value at h
  simp only at h
  by_cases hlt : List.indexOf c "0123456789".data < 10
  · exact List.indexOf_lt_length.mp hlt
  · simp [hlt] at h

theorem digits_value_mem (chars : List Char) (acc n : Nat)
    (h : digits_value chars acc = some n) : ∀ c ∈ chars, c ∈ "0123456789".data := by
  induction chars generalizing acc with
  | nil => simp
  | cons c rest ih =>
    unfold digits_value at h
    cases hd : digit_value c with
    | none => simp [hd] at h
    | some d =>
      simp only [hd] at h
      intro x hx
      rcases List.mem_cons.mp hx with rfl | hx
      · exact digit_value_mem x d hd
      · exact ih _ h x hx

theorem digit_mem_allowed (c : Char) (h : c ∈ "0123456789".data) :
    c ∈ "0123456789-".data ∧ c ≠ '.' := by
  refine ⟨?_, ?_⟩
  · have : "0123456789-".data = "0123456789".data ++ ['-'] := by decide
    rw [this]
    exact List.mem_append_left _ h
  · intro hc
    subst hc
    exact absurd h (by decide)

/-- A decimal literal consists of digits and `-` only. -/
theorem int_literal_chars (value : String) (v : Int) (h : int_literal value = some v) :
    ∀ c ∈ value.data, c ∈ "0123456789-".data ∧ c ≠ '.' := by
  unfold int_literal at h
  cases hd : value.data with
  | nil => simp [hd] at h
  | cons c rest =>
    simp only [hd] at h
    by_cases hc : c = '-'
    · simp only [hc, if_true] at h
      by_cases hr : rest = []
      · simp [hr] at h
      · simp only [hr, if_false] at h
        cases hn : digits_value rest 0 with
        | none => simp [hn] at h
        | some n =>
          intro x hx
          rcases List.mem_cons.mp hx with rfl | hx
          · rw [hc]
            exact ⟨by decide, by decide⟩
          · exact digit_mem_allowed x (digits_value_mem rest 0 n hn x hx)
    · simp only [hc, if_false] at h
      cases hn : digits_value (c :: rest) 0 with
      | none => simp [hn] at h
      | some n =>
        intro x hx
        exact digit_mem_allowed x (digits_value_mem (c :: rest) 0 n hn x hx)

/-- The converter types a column `int` from a decimal literal. -/
theorem infer_type_of_literal (value : String) (v : Int) (h : int_literal value = some v) :
    infer_type value = "int" := by
  have hchars := int_literal_chars value v h
  rw [infer_type_spec, if_neg (fun hdot => (hchars '.' hdot).2 rfl),
    if_pos (fun c hc => (hchars c hc).1)]

/-- Storing a decimal literal in a column that has no type yet or is typed
`int` appends the value `std::stoi` returns. -/
theorem store_value_literal (lib : StdLib) (column : Column) (value : String) (v : Int)
    (htype : column.type = "" ∨ column.type = "int")
    (hlit : int_literal value = some v) (hstoi : lib.stoi value = .ok v) :
    store_value lib column value = .ok ⟨column.name, "int", column.data ++ [v]⟩ := by
  have ht : (if column.type = "" then infer_type value else column.type) = "int" := by
    rcases htype with h | h
    · rw [if_pos h, infer_type_of_literal value v hlit]
    · rw [if_neg (by rw [h]; decide), h]
  unfold store_value
  simp only [ht, value_cells]
  simp [hstoi]

/-! ## Converting a table of integers -/

/-- One line whose fields are decimal literals, one for each remaining column:
the inner loop succeeds and every column it visits is typed `int`. -/
theorem read_fields_total (lib : StdLib) (fields : List String) (pre cur : List Column)
    (hlen : cur.length = fields.length)
    (htypes : ∀ c ∈ cur, c.type = "" ∨ c.type = "int")
    (hlit : ∀ field ∈ fields, ∃ v, int_literal field = some v ∧ lib.stoi field = .ok v) :
    read_fields lib (pre ++ cur) fields pre.length
      = .ok (pre ++ List.zipWith
          (fun c field => ⟨c.name, "int", c.data ++ [(int_literal field).getD 0]⟩)
          cur fields) := by
  induction fields generalizing pre cur with
  | nil =>
    have : cur = [] := List.length_eq_zero.mp hlen
    subst this
    simp [read_fields]
  | cons field rest ih =>
    cases cur with
    | nil => simp at hlen
    | cons c others =>
      obtain ⟨v, hv, hstoi⟩ := hlit field (List.mem_cons_self _ _)
      have hstore := store_value_literal lib c field v (htypes c (List.mem_cons_self _ _))
        hv hstoi
      have hget : (pre ++ c :: others)[pre.length]? = some c := by
        rw [List.getElem?_append_right (Nat.le_refl _), Nat.sub_self, List.getElem?_cons_zero]
      have hset : (pre ++ c :: others).set pre.length ⟨c.name, "int", c.data ++ [v]⟩
          = (pre ++ [⟨c.name, "int", c.data ++ [v]⟩]) ++ others := by
        rw [List.set_append_right _ _ (Nat.le_refl _), Nat.sub_self, List.set_cons_zero,
          List.append_assoc]
        rfl
      have hrec := ih (pre ++ [⟨c.name, "int", c.data ++ [v]⟩]) others
        (by simp only [List.length_cons] at hlen; omega)
        (fun c' hc' => htypes c' (List.mem_cons_of_mem _ hc'))
        (fun f hf => hlit f (List.mem_cons_of_mem _ hf))
      rw [List.length_append, List.length_singleton] at hrec
      unfold read_fields
      simp only [hget, hstore, hset, hrec, List.zipWith_cons_cons, hv, Option.getD_some]
      rw [List.append_assoc, List.singleton_append]

/-- The row loop succeeds on lines whose fields are decimal literals, as many
as there are columns. -/
theorem read_rows_total (lib : StdLib) (lines : List String) (columns : List Column)
    (hrect : ∀ line ∈ lines, (getlines ',' line.data none).length = columns.length)
    (htypes : ∀ c ∈ columns, c.type = "" ∨ c.type = "int")
    (hlit : ∀ line ∈ lines, ∀ field ∈ getlines ',' line.data none,
      ∃ v, int_literal field = some v ∧ lib.stoi field = .ok v) :
    ∃ columns', read_rows lib columns lines = .ok columns' := by
  induction lines generalizing columns with
  | nil => exact ⟨columns, rfl⟩
  | cons line rest ih =>
    have hline := hrect line (List.mem_cons_self _ _)
    have hfields := read_fields_total lib (getlines ',' line.data none) [] columns hline.symm
      htypes (hlit line (List.mem_cons_self _ _))
    simp only [List.nil_append, List.length_nil] at hfields
    obtain ⟨columns', hrec⟩ := ih
      (List.zipWith (fun c field => (⟨c.name, "int", c.data ++ [(int_literal field).getD 0]⟩ : Column))
        columns (getlines ',' line.data none))
      (fun l hl => by
        rw [List.length_zipWith, hline, Nat.min_self]
        exact hrect l (List.mem_cons_of_mem _ hl))
      (fun c hc => by
        obtain ⟨i, hi⟩ := List.getElem?_of_mem hc
        rw [List.getElem?_zipWith] at hi
        cases h1 : columns[i]? with
        | none => simp [h1] at hi
        | some c0 =>
          cases h2 : (getlines ',' line.data none)[i]? with
          | none => simp [h1, h2] at hi
          | some f =>
            simp only [h1, h2, Option.some.injEq] at hi
            subst hi
            exact Or.inr rfl)
      (fun l hl => hlit l (List.mem_cons_of_mem _ hl))
    exact ⟨columns', by simp only [read_rows, hfields, hrec]⟩

/-- The cells of decimal literals stored in an `int` column are the values
`std::stoi` returned for them. -/
theorem int_cells_of_values (lib : StdLib) (values : List String) (cellss : List (List Int))
    (hlit : ∀ value ∈ values, ∃ v, int_literal value = some v ∧ lib.stoi value = .ok v)
    (h : List.Forall₂ (fun value cells => value_cells lib "int" value = .ok cells)
      values cellss) :
    cellss.flatten = values.map (fun value => (int_literal value).getD 0) := by
  induction h with
  | nil => rfl
  | @cons value cells values' cellss' hhead _ ih =>
    obtain ⟨v, hv, hstoi⟩ := hlit value (List.mem_cons_self _ _)
    have hcells : cells = [v] := by
      unfold value_cells at hhead
      simp [hstoi] at hhead
      exact hhead.symm
    rw [List.flatten_cons, List.map_cons, ih (fun x hx => hlit x (List.mem_cons_of_mem _ hx)),
      hcells, hv]
    rfl

theorem mem_observed (lines : List String) (j : Nat) (value : String)
    (h : value ∈ observed lines j) :
    ∃ line ∈ lines, value ∈ getlines ',' line.data none := by
  unfold observed at h
  obtain ⟨line, hline, hget⟩ := List.mem_filterMap.mp h
  exact ⟨line, hline, List.getElem?_mem hget⟩

/-- On lines that all have a field `j`, the values met for column `j` are the
fields `j` of the lines, in order. -/
theorem observed_map (lines : List String) (j : Nat) (f : String → Int)
    (h : ∀ line ∈ lines, j < (getlines ',' line.data none).length) :
    (observed lines j).map f
      = lines.map (fun line => (((getlines ',' line.data none)[j]?).map f).getD 0) := by
  induction lines with
  | nil => rfl
  | cons line rest ih =>
    rw [observed_cons]
    have hj := h line (List.mem_cons_self _ _)
    have hrest := ih (fun l hl => h l (List.mem_cons_of_mem _ hl))
    simp only [List.getElem?_eq_getElem hj, List.map_cons, Option.map_some', Option.getD_some,
      hrest]

/-- The columns the row loop leaves for a table of decimal literals with at
least one data line: column `j` has the header name, the type `int` and, as
data, the value of field `j` of every data line in order. -/
theorem read_rows_int_table (lib : StdLib) (lines : List String) (columns : List Column)
    (hok : read_rows lib (read_header lines) (lines.drop 1) = .ok columns)
    (hrows : lines.drop 1 ≠ [])
    (hrect : ∀ line ∈ lines.drop 1,
      (getlines ',' line.data none).length = (read_header lines).length)
    (hlit : ∀ line ∈ lines.drop 1, ∀ field ∈ getlines ',' line.data none,
      ∃ v, int_literal field = some v ∧ lib.stoi field = .ok v) :
    columns.length = (read_header lines).length
      ∧ ∀ (j : Nat) (c0 : Column), (read_header lines)[j]? = some c0 →
          columns[j]? = some ⟨c0.name, "int",
            (lines.drop 1).map (fun line =>
              (((getlines ',' line.data none)[j]?).bind int_literal).getD 0)⟩ := by
  obtain ⟨hlen, hcols⟩ := read_rows_ok lib _ _ columns hok
  refine ⟨hlen, ?_⟩
  intro j c0 hj
  have hjlt : j < (read_header lines).length := (List.getElem?_eq_some_iff.mp hj).1
  obtain ⟨c', hc', hname, htype, cellss, hall, hdata⟩ := hcols j c0 hj
  obtain ⟨ht0, hd0⟩ := read_header_fresh lines c0 (List.getElem?_mem hj)
  have hfield : ∀ line ∈ lines.drop 1, j < (getlines ',' line.data none).length :=
    fun line hl => by rw [hrect line hl]; exact hjlt
  have hobs : ∀ value ∈ observed (lines.drop 1) j,
      ∃ v, int_literal value = some v ∧ lib.stoi value = .ok v := by
    intro value hvalue
    obtain ⟨line, hline, hmem⟩ := mem_observed _ j value hvalue
    exact hlit line hline value hmem
  have hobslen := observed_length (lines.drop 1) j hfield
  have hint : c'.type = "int" := by
    rw [htype, if_pos ht0]
    cases hobs' : observed (lines.drop 1) j with
    | nil =>
      rw [hobs'] at hobslen
      exact absurd (List.length_eq_zero.mp hobslen.symm) hrows
    | cons value rest =>
      obtain ⟨v, hv, _⟩ := hobs value (by rw [hobs']; exact List.mem_cons_self _ _)
      simp only [List.head?_cons, Option.map_some', Option.getD_some]
      exact infer_type_of_literal value v hv
  rw [hint] at hall
  have hcells := int_cells_of_values lib _ cellss hobs hall
  rw [hd0, List.nil_append, hcells,
    observed_map (lines.drop 1) j (fun value => (int_literal value).getD 0) hfield] at hdata
  rw [hc']
  congr 1
  cases c' with
  | mk name type data =>
    simp only at hname hint hdata
    subst hname hint hdata
    congr 1
    apply List.map_congr_left
    intro line _
    cases (getlines ',' line.data none)[j]? <;> rfl

/-- Claim C31: let the CSV file open with the lines `lines` (the first is the
header), with pairwise distinct header names, at least one data line, every
data line having exactly as many fields as the header, and every field a
decimal literal (an optional `-`, then digits) whose value `v` is a 32-bit
`int` and is what `std::stoi` returns for it. Then `convert_from_csv_to_hty`
writes the output file, `extract_metadata` decodes from it a document whose
`num_rows` is the number of data lines, and with that document
`project_single_column` on the header name at position `j` returns, in row
order, the value of field `j` of every data line. (There are fewer than
`2^31` data lines, the data region is shorter than `2^63` bytes, the output
file can be created, and the JSON library parses its own output for the
document written, shorter than `2^31` bytes, back to it.) -/
theorem ingest_then_read (json : JsonLib) (unwritten : Int)
    (lib : StdLib) (csv_files : String → Option String)
    (fs : FileSystem) (csv_path hty_path text : String) (lines : List String)
    (hcsv : csv_files csv_path = some text)
    (hlines : getlines '\n' text.data none = lines)
    (hnd : ((read_header lines).map (fun c => c.name)).Nodup)
    (hrows : lines.drop 1 ≠ [])
    (hrect : ∀ line ∈ lines.drop 1,
      (getlines ',' line.data none).length = (read_header lines).length)
    (hlit : ∀ line ∈ lines.drop 1, ∀ field ∈ getlines ',' line.data none,
      ∃ v, int_literal field = some v ∧ -2147483648 ≤ v ∧ v < 2147483648
        ∧ lib.stoi field = .ok v)
    (hcount : (lines.drop 1).length < 2147483648)
    (hsize : (read_header lines).length * (lines.drop 1).length * 4 < 9223372036854775808)
    (hout : fs.writable hty_path = true)
    (hL : (json.dump ⟨((lines.drop 1).length : Int),
        [⟨0, (read_header lines).map (fun c => ⟨c.name, "int"⟩)⟩]⟩).length < 2147483648)
    (hparse : json.parse (json.dump ⟨((lines.drop 1).length : Int),
        [⟨0, (read_header lines).map (fun c => ⟨c.name, "int"⟩)⟩]⟩)
      = some ⟨((lines.drop 1).length : Int),
        [⟨0, (read_header lines).map (fun c => ⟨c.name, "int"⟩)⟩]⟩) :
    ∃ (fs' : FileSystem) (metadata : Metadata),
      convert_from_csv_to_hty json lib csv_files fs csv_path hty_path = .ok fs'
        ∧ (∃ bytes, fs'.files hty_path = some bytes)
        ∧ extract_metadata json fs' hty_path unwritten = .ok metadata
        ∧ metadata.num_rows = ((lines.drop 1).length : Int)
        ∧ ∀ (j : Nat) (c : Column), (read_header lines)[j]? = some c →
            project_single_column fs' metadata hty_path c.name
              = .ok ((lines.drop 1).map (fun line =>
                  (((getlines ',' line.data none)[j]?).bind int_literal).getD 0)) := by
  have hlit' : ∀ line ∈ lines.drop 1, ∀ field ∈ getlines ',' line.data none,
      ∃ v, int_literal field = some v ∧ lib.stoi field = .ok v := by
    intro line hl field hf
    obtain ⟨v, hv, _, _, hs⟩ := hlit line hl field hf
    exact ⟨v, hv, hs⟩
  obtain ⟨columns, hrowsok⟩ := read_rows_total lib (lines.drop 1) (read_header lines) hrect
    (fun c hc => Or.inl (read_header_fresh _ c hc).1) hlit'
  obtain ⟨hlen, hcols⟩ := read_rows_int_table lib _ columns hrowsok hrows hrect hlit'
  have hn : toInt32 ((lines.drop 1).length : Int) = ((lines.drop 1).length : Int) :=
    toInt32_of_int (by omega) (by omega)
  have hmetas : columns.map (fun col => (⟨col.name, col.type⟩ : ColumnMeta))
      = (read_header lines).map (fun c => ⟨c.name, "int"⟩) := by
    apply List.ext_getElem?
    intro i
    rw [List.getElem?_map, List.getElem?_map]
    by_cases hi : i < (read_header lines).length
    · rw [hcols i _ (List.getElem?_eq_getElem hi), List.getElem?_eq_getElem hi]
      rfl
    · rw [List.getElem?_eq_none (by omega), List.getElem?_eq_none (by omega)]
      rfl
  have hconv := convert_ok json lib csv_files fs csv_path hty_path text columns hcsv
    (by rw [hlines]; exact hrowsok) hout
  rw [hlines, hn, hmetas] at hconv
  have hmeta := extract_metadata_of_trailer json unwritten
    (fs.store hty_path
      ((columns.map (fun col => bytes_of_cells col.data)).flatten
        ++ write_trailer json ⟨((lines.drop 1).length : Int),
            [⟨0, (read_header lines).map (fun c => ⟨c.name, "int"⟩)⟩]⟩))
    hty_path ((columns.map (fun col => bytes_of_cells col.data)).flatten)
    ⟨((lines.drop 1).length : Int), [⟨0, (read_header lines).map (fun c => ⟨c.name, "int"⟩)⟩]⟩
    hL hparse (store_files_self fs hty_path _)
  -- every column has one cell per data line
  have hw : ∀ chunk ∈ columns.map (fun col => bytes_of_cells col.data),
      chunk.length = 4 * (lines.drop 1).length := by
    intro chunk hchunk
    obtain ⟨col, hcol, rfl⟩ := List.mem_map.mp hchunk
    obtain ⟨j, hj⟩ := List.getElem?_of_mem hcol
    have hjlt : j < (read_header lines).length := by
      rw [← hlen]
      exact (List.getElem?_eq_some_iff.mp hj).1
    have := hcols j _ (List.getElem?_eq_getElem hjlt)
    rw [hj] at this
    rw [bytes_of_cells_length, Option.some.inj this, List.length_map]
  have hDlen := flatten_uniform_length _ _ hw
  rw [List.length_map, hlen] at hDlen
  refine ⟨_, _, hconv, ⟨_, store_files_self fs hty_path _⟩, hmeta, rfl, ?_⟩
  intro j c hj
  have hjlt : j < (read_header lines).length := (List.getElem?_eq_some_iff.mp hj).1
  have hproj := project_single_column_single_group
    (fs.store hty_path
      ((columns.map (fun col => bytes_of_cells col.data)).flatten
        ++ write_trailer json ⟨((lines.drop 1).length : Int),
            [⟨0, (read_header lines).map (fun c => ⟨c.name, "int"⟩)⟩]⟩))
    ⟨((lines.drop 1).length : Int), [⟨0, (read_header lines).map (fun c => ⟨c.name, "int"⟩)⟩]⟩
    hty_path
    ((columns.map (fun col => bytes_of_cells col.data)).flatten
      ++ write_trailer json ⟨((lines.drop 1).length : Int),
          [⟨0, (read_header lines).map (fun c => ⟨c.name, "int"⟩)⟩]⟩)
    ⟨0, (read_header lines).map (fun c => ⟨c.name, "int"⟩)⟩
    (lines.drop 1).length j ⟨c.name, "int"⟩
    (store_files_self fs hty_path _) rfl rfl
    (by rw [List.map_map]; exact hnd) rfl (by omega)
    (by
      rw [List.length_append, hDlen, List.length_map]
      have : (read_header lines).length * (4 * (lines.drop 1).length)
          = (read_header lines).length * (lines.drop 1).length * 4 := by ring
      omega)
    (by
      rw [List.length_map]
      exact_mod_cast hsize)
    (by rw [List.getElem?_map, hj]; rfl)
  rw [hproj]
  refine congrArg Except.ok ?_
  have hchunk : (columns.map (fun col => bytes_of_cells col.data))[j]?
      = some (bytes_of_cells ((lines.drop 1).map (fun line =>
          (((getlines ',' line.data none)[j]?).bind int_literal).getD 0))) := by
    rw [List.getElem?_map, hcols j c hj]
    rfl
  have hwin := flatten_uniform_chunk (columns.map (fun col => bytes_of_cells col.data))
    (4 * (lines.drop 1).length) j
    (write_trailer json ⟨((lines.drop 1).length : Int),
      [⟨0, (read_header lines).map (fun c => ⟨c.name, "int"⟩)⟩]⟩)
    _ hw hchunk
  have hmul : j * (lines.drop 1).length * 4 = j * (4 * (lines.drop 1).length) := by ring
  rw [column_cells, hmul, hwin]
  apply cells_of_bytes_bytes_of_cells
  intro v hv
  obtain ⟨line, hline, rfl⟩ := List.mem_map.mp hv
  have hf : j < (getlines ',' line.data none).length := by
    rw [hrect line hline]
    exact hjlt
  obtain ⟨x, hx, h1, h2, _⟩ := hlit line hline _ (List.getElem_mem hf)
  rw [List.getElem?_eq_getElem hf, Option.some_bind, hx]
  exact ⟨h1, h2⟩

/-- Claim C31 at the file `test/table.csv`: the columns `a` = 1, 3 and
`b` = 2, 1. -/
theorem ingest_then_read_witness :
    table_csv_files "test/table.csv" = some "a,b\n1,2\n3,1\n"
      ∧ convert_from_csv_to_hty table_json sample_stdlib table_csv_files sample_fs
          "test/table.csv" "test/table.hty"
        = .ok (sample_fs.store "test/table.hty"
            (bytes_of_cells [1, 3] ++ bytes_of_cells [2, 1]
              ++ write_trailer table_json table_metadata))
      ∧ project_single_column
          (sample_fs.store "test/table.hty"
            (bytes_of_cells [1, 3] ++ bytes_of_cells [2, 1]
              ++ write_trailer table_json table_metadata))
          table_metadata "test/table.hty" "b" = .ok [2, 1]
      ∧ (["a,b", "1,2", "3,1"].drop 1).map (fun line =>
            (((getlines ',' line.data none)[1]?).bind int_literal).getD 0) = [2, 1]
      ∧ ∃ (fs' : FileSystem) (metadata : Metadata),
        convert_from_csv_to_hty table_json sample_stdlib table_csv_files sample_fs
            "test/table.csv" "test/table.hty" = .ok fs'
          ∧ (∃ bytes, fs'.files "test/table.hty" = some bytes)
          ∧ extract_metadata table_json fs' "test/table.hty" 0 = .ok metadata
          ∧ metadata.num_rows = ((["a,b", "1,2", "3,1"].drop 1).length : Int)
          ∧ ∀ (j : Nat) (c : Column), (read_header ["a,b", "1,2", "3,1"])[j]? = some c →
              project_single_column fs' metadata "test/table.hty" c.name
                = .ok ((["a,b", "1,2", "3,1"].drop 1).map (fun line =>
                    (((getlines ',' line.data none)[j]?).bind int_literal).getD 0)) :=
  ⟨rfl, rfl, by decide, by decide,
    ingest_then_read table_json 0 sample_stdlib table_csv_files sample_fs "test/table.csv"
      "test/table.hty" "a,b\n1,2\n3,1\n" ["a,b", "1,2", "3,1"] rfl (by decide) (by decide) (by decide)
      (by decide)
      (by
        have hdec : ∀ line ∈ (["a,b", "1,2", "3,1"] : List String).drop 1,
            ∀ field ∈ getlines ',' line.data none,
              (int_literal field).isSome = true
                ∧ -2147483648 ≤ (int_literal field).getD 0
                ∧ (int_literal field).getD 0 < 2147483648
                ∧ sample_stdlib.stoi field = .ok ((int_literal field).getD 0) := by decide
        intro line hl field hf
        obtain ⟨h1, h2, h3, h4⟩ := hdec line hl field hf
        obtain ⟨v, hv⟩ := Option.isSome_iff_exists.mp h1
        rw [hv] at h2 h3 h4
        exact ⟨v, hv, h2, h3, h4⟩)
      (by decide) (by decide) rfl (by decide) (by decide)⟩

end HTY
